import Mathlib

/-!
# Verification of the single-instrument limit-order-book core

Shallow embedding of the Rust sources under `src/`:
* `src/orderbook/orderbook.rs` — dense-array (fixed-tick, AoS) book,
* `src/orderbook/SoA/orderbook.rs` — structure-of-arrays book,
* `src/orderbook/tree/orderbook.rs` — ordered-map (BTreeMap) book,
* `src/orderbook/hybrid/orderbook.rs` — hot-window + cold-map book,
* `src/perf/latency.rs` — latency tracker percentiles.

Machine integers (`u32`, `u64`) are modelled as `Nat`: the operations
performed (validated prices below 10000, `min`, truncated subtraction of a
smaller quantity, sums of quantities) never overflow their Rust types in the
states the claims quantify over, so no `% 2^w` reduction is inserted.
`HashMap<OrderId, (Side, Price)>` is modelled as an association list with
overwrite-on-insert semantics (the map is never iterated by the code, so the
entry order is unobservable).  `BTreeMap<u32, Level>` is modelled as an
association list kept sorted by ascending key, which is how the code observes
it (`iter`, `iter().rev()`, `first_key_value`, `last_key_value`).  Rust
`panic!` (the partial-resting-fill branch) is modelled by `Option.none`
bubbling out of the operation.
-/

namespace OBook

/-- `Side` from `src/types/order.rs`. -/
inductive Side where
  | Bid
  | Ask
deriving DecidableEq, Repr

/-- `Order` from `src/types/order.rs`: `(id, side, price, quantity)`.
`Price`/`Quantity` newtypes are inlined as `Nat` fields. -/
structure Order where
  id : Nat
  side : Side
  price : Nat
  quantity : Nat
deriving DecidableEq, Repr

/-- `Fill` from `src/orderbook/mod.rs` / `src/orderbook/orderbook.rs`. -/
structure Fill where
  price : Nat
  quantity : Nat
  maker_order_id : Nat
deriving DecidableEq, Repr

/-- `MAX_PRICE` (identical in all four representation files). -/
def MAX_PRICE : Nat := 10000

/-- `TICK_SIZE` (identical in all four representation files). -/
def TICK_SIZE : Nat := 1

/-- `LOT_SIZE` (identical in all four representation files). -/
def LOT_SIZE : Nat := 1

/-- `ELEMENT_NUM = MAX_PRICE / TICK_SIZE` from the dense and SoA files. -/
def ELEMENT_NUM : Nat := MAX_PRICE / TICK_SIZE

/-! ## Order index: `HashMap<OrderId, (Side, Price)>` as an association list -/

/-- The id → (side, price) order index. -/
abbrev OrderIndex := List (Nat × Side × Nat)

/-- `HashMap::get` / membership test on the order index. -/
def idxLookup (k : Nat) : OrderIndex → Option (Side × Nat)
  | [] => none
  | (k', v) :: rest => if k' = k then some v else idxLookup k rest

/-- `HashMap::insert`: overwrite the binding if the key is present,
otherwise add a new binding. -/
def idxInsert (k : Nat) (v : Side × Nat) : OrderIndex → OrderIndex
  | [] => [(k, v)]
  | (k', v') :: rest =>
      if k' = k then (k, v) :: rest else (k', v') :: idxInsert k v rest

/-- `HashMap::remove`: delete the binding of `k` (the first one; the index
never holds two bindings of one key). -/
def idxRemove (k : Nat) : OrderIndex → OrderIndex
  | [] => []
  | (k', v') :: rest => if k' = k then rest else (k', v') :: idxRemove k rest

/-- Remove a batch of ids from the order index.  `match_orders` removes the
ids of the consumed orders one by one after the fill loop; the final map does
not depend on the removal order, so a left fold is used. -/
def removeIds (ids : List Nat) (idx : OrderIndex) : OrderIndex :=
  ids.foldl (fun m i => idxRemove i m) idx

/-! ## AoS price level (`Level { orders: Vec<Order> }`)

The same `Vec<Order>` level type, with the same member functions, appears in
the dense, tree and hybrid files; it is modelled once as `List Order`. -/

/-- `Level::total_quantity`: sum of resting quantities. -/
def totalQuantity (orders : List Order) : Nat :=
  (orders.map (fun o => o.quantity)).sum

/-- `Level::cancel_order` (and the identical `position` + `remove` sequence in
the tree and hybrid cancel paths): remove the first order with the given id,
leave the level unchanged if the id is absent.  The `Option<Order>` return
value of the Rust function is ignored by every caller. -/
def levelCancel (id : Nat) : List Order → List Order
  | [] => []
  | o :: os => if o.id = id then os else o :: levelCancel id os

/-- `Level::match_orders` from `src/orderbook/orderbook.rs` (textually repeated
as `match_level` in the tree and hybrid files): consume resting orders FIFO.
Each head order is consumed whole while `remaining` covers its quantity; the
loop stops when `remaining = 0`; `0 < remaining < head quantity` hits the
`panic!("Partial fills of resting orders not yet implemented")` branch,
modelled as `none`.  Returns (fills pushed, remaining quantity, orders left in
the level); the consumed orders are the removed prefix, and their ids are the
ids the Rust code then deletes from the order index (see `removeIds`). -/
def matchOrders (price : Nat) (remaining : Nat) : List Order → Option (List Fill × Nat × List Order)
  | [] => some ([], remaining, [])
  | o :: os =>
      if remaining = 0 then some ([], 0, o :: os)
      else if o.quantity ≤ remaining then
        match matchOrders price (remaining - o.quantity) os with
        | some (fills, r', os') =>
            some (⟨price, o.quantity, o.id⟩ :: fills, r', os')
        | none => none
      else none

/-! ## Dense-array book (`src/orderbook/orderbook.rs`)

The two fixed `[Level; ELEMENT_NUM]` arrays are modelled as total functions
`Nat → List Order`; indices ≥ `ELEMENT_NUM` are never touched by the code
(prices are validated to `[1, MAX_PRICE)` on admission). -/

/-- Point update of an array-as-function. -/
def updateFn (f : Nat → List Order) (i : Nat) (l : List Order) : Nat → List Order :=
  fun j => if j = i then l else f j

/-- The dense-array `Orderbook` struct. -/
structure Orderbook where
  bids : Nat → List Order
  asks : Nat → List Order
  order_index : OrderIndex

/-- `Orderbook::new()`. -/
def Orderbook.new : Orderbook :=
  { bids := fun _ => [], asks := fun _ => [], order_index := [] }

/-- Error string of validation 1 (tick alignment). -/
def tickMsg (price : Nat) : String :=
  "Price " ++ toString price ++ " is not a valid tick (tick_size=" ++ toString TICK_SIZE ++ ")"

/-- Error string of validation 2 (price bounds). -/
def oobMsg (price : Nat) : String :=
  "Price " ++ toString price ++ " out of bounds [1, " ++ toString MAX_PRICE ++ ")"

/-- Error string of validation 3 (lot alignment). -/
def lotMsg (quantity : Nat) : String :=
  "Quantity " ++ toString quantity ++ " is not a valid lot (lot_size=" ++ toString LOT_SIZE ++ ")"

/-- Error string of validation 4 (zero quantity). -/
def zeroQtyMsg : String := "Quantity cannot be zero"

/-- Error string of a failed cancel. -/
def notFoundMsg (id : Nat) : String := "Order " ++ toString id ++ " not found"

/-- `Orderbook::add_order`: the four validations in source order, then a tail
append to the `(side, price)` level and an insert into the order index. -/
def Orderbook.add_order (b : Orderbook) (o : Order) : Except String Unit × Orderbook :=
  if o.price % TICK_SIZE ≠ 0 then (.error (tickMsg o.price), b)
  else if o.price = 0 ∨ MAX_PRICE ≤ o.price then (.error (oobMsg o.price), b)
  else if o.quantity % LOT_SIZE ≠ 0 then (.error (lotMsg o.quantity), b)
  else if o.quantity = 0 then (.error zeroQtyMsg, b)
  else
    let i := o.price / TICK_SIZE
    let b' :=
      match o.side with
      | .Bid => { b with bids := updateFn b.bids i (b.bids i ++ [o]) }
      | .Ask => { b with asks := updateFn b.asks i (b.asks i ++ [o]) }
    (.ok (), { b' with order_index := idxInsert o.id (o.side, o.price) b'.order_index })

/-- `Orderbook::cancel_order`: consult and delete the index entry, then remove
the order from its level (the level lookup's `Option` result is ignored). -/
def Orderbook.cancel_order (b : Orderbook) (id : Nat) : Except String Unit × Orderbook :=
  match idxLookup id b.order_index with
  | none => (.error (notFoundMsg id), b)
  | some (side, price) =>
      let b0 := { b with order_index := idxRemove id b.order_index }
      let i := price / TICK_SIZE
      match side with
      | .Bid => (.ok (), { b0 with bids := updateFn b0.bids i (levelCancel id (b0.bids i)) })
      | .Ask => (.ok (), { b0 with asks := updateFn b0.asks i (levelCancel id (b0.asks i)) })

/-- `Orderbook::best_bid`: scan slots from the highest index downward for the
first non-empty bid level. -/
def Orderbook.best_bid (b : Orderbook) : Option Nat :=
  ((List.range ELEMENT_NUM).reverse.find? (fun i => !(b.bids i).isEmpty)).map
    (fun i => i * TICK_SIZE)

/-- `Orderbook::best_ask`: scan slots from the lowest index upward for the
first non-empty ask level. -/
def Orderbook.best_ask (b : Orderbook) : Option Nat :=
  ((List.range ELEMENT_NUM).find? (fun i => !(b.asks i).isEmpty)).map
    (fun i => i * TICK_SIZE)

/-- The level walk shared by the dense market-order loops and the hybrid
hot-zone loops: visit the indices of `is` in order; break when the remaining
quantity reaches 0; skip empty levels; otherwise consume the level FIFO with
`matchOrders` (the level's price is `priceOf i`), update the level in place
and delete the consumed ids from the order index.  `none` propagates the
partial-resting-fill panic. -/
def walkLevels (priceOf : Nat → Nat) (qty : Nat) (idx : OrderIndex)
    (levels : Nat → List Order) :
    List Nat → Option (List Fill × Nat × (Nat → List Order) × OrderIndex)
  | [] => some ([], qty, levels, idx)
  | i :: rest =>
      if qty = 0 then some ([], 0, levels, idx)
      else if (levels i).isEmpty then walkLevels priceOf qty idx levels rest
      else
        match matchOrders (priceOf i) qty (levels i) with
        | none => none
        | some (fills, qty', lvl') =>
            match walkLevels priceOf qty'
                (removeIds (fills.map (fun fl => fl.maker_order_id)) idx)
                (updateFn levels i lvl') rest with
            | none => none
            | some (fills2, q2, lv2, ix2) => some (fills ++ fills2, q2, lv2, ix2)

/-- Partial-fill error string of the dense representation (it alone appends
"(insufficient liquidity)"). -/
def partialMsgDense (remaining : Nat) : String :=
  "Market order partially filled: " ++ toString remaining ++ " remaining (insufficient liquidity)"

/-- Partial-fill error string of the SoA, tree and hybrid representations. -/
def partialMsg (remaining : Nat) : String :=
  "Market order partially filled: " ++ toString remaining ++ " remaining"

/-- The walk performed by `Orderbook::execute_market_order` before the
remaining-quantity check: market BUY walks the asks from the lowest index
upward, market SELL walks the bids from the highest index downward. -/
def Orderbook.execCore (b : Orderbook) (side : Side) (qty : Nat) :
    Option (List Fill × Nat × Orderbook) :=
  match side with
  | .Bid =>
      (walkLevels (fun i => i * TICK_SIZE) qty b.order_index b.asks
          (List.range ELEMENT_NUM)).map
        (fun r => (r.1, r.2.1, { b with asks := r.2.2.1, order_index := r.2.2.2 }))
  | .Ask =>
      (walkLevels (fun i => i * TICK_SIZE) qty b.order_index b.bids
          (List.range ELEMENT_NUM).reverse).map
        (fun r => (r.1, r.2.1, { b with bids := r.2.2.1, order_index := r.2.2.2 }))

/-- `Orderbook::execute_market_order`: run the walk; if quantity remains,
return the partial-fill error (the fills vector is dropped — the `Result` is
`Err(String)`); otherwise return the fills.  The state mutations performed
during the walk are kept on both paths. -/
def Orderbook.execute_market_order (b : Orderbook) (side : Side) (qty : Nat) :
    Option (Except String (List Fill) × Orderbook) :=
  (b.execCore side qty).map
    (fun r => (if 0 < r.2.1 then .error (partialMsgDense r.2.1) else .ok r.1, r.2.2))

/-- Modelled from the spec: the dense-array representation's trait impl with
`depth_at_price` (the `fixed_tick` module declared in `src/orderbook/mod.rs`)
is not among the provided sources; only the file with the inherent impl and
`Level::total_quantity` is.  Spec §4.1: "depth_at(price, side) → non-negative
integer.  Sum of resting quantities at exactly that (price, side).  Returns 0
for out-of-range, tick-misaligned, or absent prices."  The guard structure
follows the (identical) `depth_at_price` of the SoA, tree and hybrid files. -/
def Orderbook.depth_at_price (b : Orderbook) (price : Nat) (side : Side) : Nat :=
  if price = 0 ∨ MAX_PRICE ≤ price then 0
  else if price % TICK_SIZE ≠ 0 then 0
  else
    match side with
    | .Bid => totalQuantity (b.bids (price / TICK_SIZE))
    | .Ask => totalQuantity (b.asks (price / TICK_SIZE))

/-! ## SoA book (`src/orderbook/SoA/orderbook.rs`) -/

/-- `LevelSoA`: the four parallel sequences.  Every mutation of the Rust level
pushes/removes all four in lockstep, so the sequences always have one entry
per resting order. -/
structure LevelSoA where
  ids : List Nat
  sides : List Side
  prices : List Nat
  quantities : List Nat
deriving DecidableEq, Repr

/-- `LevelSoA::add_order`: append to all four sequences. -/
def LevelSoA.add_order (l : LevelSoA) (o : Order) : LevelSoA :=
  ⟨l.ids ++ [o.id], l.sides ++ [o.side], l.prices ++ [o.price], l.quantities ++ [o.quantity]⟩

/-- `LevelSoA::cancel_order`: locate the id in the id sequence, remove that
position from all four sequences.  (The Rust function also reconstructs an
`Order` to return — with a fresh id counter, so id 0 — but every caller
discards it.) -/
def LevelSoA.cancel_order (l : LevelSoA) (id : Nat) : LevelSoA :=
  match l.ids.findIdx? (fun i => i = id) with
  | none => l
  | some pos =>
      ⟨l.ids.eraseIdx pos, l.sides.eraseIdx pos, l.prices.eraseIdx pos, l.quantities.eraseIdx pos⟩

/-- `LevelSoA::total_quantity`. -/
def LevelSoA.total_quantity (l : LevelSoA) : Nat := l.quantities.sum

/-- `LevelSoA::is_empty`. -/
def LevelSoA.is_empty (l : LevelSoA) : Bool := l.ids.isEmpty

/-- The fill loop of `LevelSoA::match_orders` over the (id, quantity) columns
(`self.ids[idx]`, `self.quantities[idx]`; the parallel sequences have equal
lengths, so in-bounds indexing is realised by the zip).  Returns the fills,
the remaining quantity and the number of consumed entries. -/
def soaConsume (price : Nat) (remaining : Nat) : List (Nat × Nat) → Option (List Fill × Nat × Nat)
  | [] => some ([], remaining, 0)
  | (i, q) :: rest =>
      if remaining = 0 then some ([], 0, 0)
      else if q ≤ remaining then
        match soaConsume price (remaining - q) rest with
        | some (fills, r', k) => some (⟨price, q, i⟩ :: fills, r', k + 1)
        | none => none
      else none

/-- `LevelSoA::match_orders`: consume a prefix FIFO, then remove the consumed
positions (a prefix) from all four sequences. -/
def LevelSoA.match_orders (l : LevelSoA) (price : Nat) (remaining : Nat) :
    Option (List Fill × Nat × LevelSoA) :=
  match soaConsume price remaining (l.ids.zip l.quantities) with
  | none => none
  | some (fills, r', k) =>
      some (fills, r',
        ⟨l.ids.drop k, l.sides.drop k, l.prices.drop k, l.quantities.drop k⟩)

/-- Point update of a SoA array-as-function. -/
def updateFnS (f : Nat → LevelSoA) (i : Nat) (l : LevelSoA) : Nat → LevelSoA :=
  fun j => if j = i then l else f j

/-- The SoA `Orderbook` struct. -/
structure SoAOrderbook where
  bids : Nat → LevelSoA
  asks : Nat → LevelSoA
  order_index : OrderIndex

/-- SoA `Orderbook::new()`. -/
def SoAOrderbook.new : SoAOrderbook :=
  { bids := fun _ => ⟨[], [], [], []⟩, asks := fun _ => ⟨[], [], [], []⟩, order_index := [] }

/-- SoA `Orderbook::add_order` (validations identical to the dense file). -/
def SoAOrderbook.add_order (b : SoAOrderbook) (o : Order) : Except String Unit × SoAOrderbook :=
  if o.price % TICK_SIZE ≠ 0 then (.error (tickMsg o.price), b)
  else if o.price = 0 ∨ MAX_PRICE ≤ o.price then (.error (oobMsg o.price), b)
  else if o.quantity % LOT_SIZE ≠ 0 then (.error (lotMsg o.quantity), b)
  else if o.quantity = 0 then (.error zeroQtyMsg, b)
  else
    let i := o.price / TICK_SIZE
    let b' :=
      match o.side with
      | .Bid => { b with bids := updateFnS b.bids i ((b.bids i).add_order o) }
      | .Ask => { b with asks := updateFnS b.asks i ((b.asks i).add_order o) }
    (.ok (), { b' with order_index := idxInsert o.id (o.side, o.price) b'.order_index })

/-- SoA `Orderbook::cancel_order`. -/
def SoAOrderbook.cancel_order (b : SoAOrderbook) (id : Nat) :
    Except String Unit × SoAOrderbook :=
  match idxLookup id b.order_index with
  | none => (.error (notFoundMsg id), b)
  | some (side, price) =>
      let b0 := { b with order_index := idxRemove id b.order_index }
      let i := price / TICK_SIZE
      match side with
      | .Bid => (.ok (), { b0 with bids := updateFnS b0.bids i ((b0.bids i).cancel_order id) })
      | .Ask => (.ok (), { b0 with asks := updateFnS b0.asks i ((b0.asks i).cancel_order id) })

/-- The SoA market-order walk (same loop shape as `walkLevels`, with the SoA
level operations). -/
def walkLevelsS (qty : Nat) (idx : OrderIndex) (levels : Nat → LevelSoA) :
    List Nat → Option (List Fill × Nat × (Nat → LevelSoA) × OrderIndex)
  | [] => some ([], qty, levels, idx)
  | i :: rest =>
      if qty = 0 then some ([], 0, levels, idx)
      else if (levels i).is_empty then walkLevelsS qty idx levels rest
      else
        match (levels i).match_orders (i * TICK_SIZE) qty with
        | none => none
        | some (fills, qty', lvl') =>
            match walkLevelsS qty'
                (removeIds (fills.map (fun fl => fl.maker_order_id)) idx)
                (updateFnS levels i lvl') rest with
            | none => none
            | some (fills2, q2, lv2, ix2) => some (fills ++ fills2, q2, lv2, ix2)

/-- SoA `Orderbook::execute_market_order` before the remaining check. -/
def SoAOrderbook.execCore (b : SoAOrderbook) (side : Side) (qty : Nat) :
    Option (List Fill × Nat × SoAOrderbook) :=
  match side with
  | .Bid =>
      (walkLevelsS qty b.order_index b.asks (List.range ELEMENT_NUM)).map
        (fun r => (r.1, r.2.1, { b with asks := r.2.2.1, order_index := r.2.2.2 }))
  | .Ask =>
      (walkLevelsS qty b.order_index b.bids (List.range ELEMENT_NUM).reverse).map
        (fun r => (r.1, r.2.1, { b with bids := r.2.2.1, order_index := r.2.2.2 }))

/-- SoA `Orderbook::execute_market_order`. -/
def SoAOrderbook.execute_market_order (b : SoAOrderbook) (side : Side) (qty : Nat) :
    Option (Except String (List Fill) × SoAOrderbook) :=
  (b.execCore side qty).map
    (fun r => (if 0 < r.2.1 then .error (partialMsg r.2.1) else .ok r.1, r.2.2))

/-- SoA `Orderbook::best_bid`. -/
def SoAOrderbook.best_bid (b : SoAOrderbook) : Option Nat :=
  ((List.range ELEMENT_NUM).reverse.find? (fun i => !(b.bids i).is_empty)).map
    (fun i => i * TICK_SIZE)

/-- SoA `Orderbook::best_ask`. -/
def SoAOrderbook.best_ask (b : SoAOrderbook) : Option Nat :=
  ((List.range ELEMENT_NUM).find? (fun i => !(b.asks i).is_empty)).map
    (fun i => i * TICK_SIZE)

/-- SoA `Orderbook::depth_at_price`. -/
def SoAOrderbook.depth_at_price (b : SoAOrderbook) (price : Nat) (side : Side) : Nat :=
  if price = 0 ∨ MAX_PRICE ≤ price then 0
  else if price % TICK_SIZE ≠ 0 then 0
  else
    match side with
    | .Bid => (b.bids (price / TICK_SIZE)).total_quantity
    | .Ask => (b.asks (price / TICK_SIZE)).total_quantity

/-! ## Tree book (`src/orderbook/tree/orderbook.rs`)

`BTreeMap<u32, Level>` per side, modelled as an association list sorted by
ascending key; every level held in the map is non-empty (levels are created by
a push and emptied levels are removed eagerly), which the reachability
invariants record. -/

/-- One side of the tree book. -/
abbrev TreeSide := List (Nat × List Order)

/-- `tree.entry(price).or_insert_with(Level::default).orders.push(order)`:
append to the level of `p`, creating it (at its sorted position) if absent. -/
def treeAdd (p : Nat) (o : Order) : TreeSide → TreeSide
  | [] => [(p, [o])]
  | (k, lvl) :: rest =>
      if p < k then (p, [o]) :: (k, lvl) :: rest
      else if p = k then (k, lvl ++ [o]) :: rest
      else (k, lvl) :: treeAdd p o rest

/-- `tree.get(&price)`. -/
def treeGet (p : Nat) : TreeSide → Option (List Order)
  | [] => none
  | (k, lvl) :: rest => if k = p then some lvl else treeGet p rest

/-- `tree.remove(&price)`. -/
def treeRemoveKey (p : Nat) : TreeSide → TreeSide
  | [] => []
  | (k, lvl) :: rest => if k = p then rest else (k, lvl) :: treeRemoveKey p rest

/-- In-place replacement of the level stored at key `p`
(`tree.get_mut(&price)` followed by a mutation). -/
def treeSet (p : Nat) (lvl' : List Order) : TreeSide → TreeSide
  | [] => []
  | (k, lvl) :: rest => if k = p then (k, lvl') :: rest else (k, lvl) :: treeSet p lvl' rest

/-- The tree `Orderbook` struct. -/
structure TreeOrderbook where
  bids : TreeSide
  asks : TreeSide
  order_index : OrderIndex
deriving DecidableEq, Repr

/-- Tree `Orderbook::new()`. -/
def TreeOrderbook.new : TreeOrderbook := { bids := [], asks := [], order_index := [] }

/-- Tree `Orderbook::add_order` (validations identical to the dense file). -/
def TreeOrderbook.add_order (b : TreeOrderbook) (o : Order) :
    Except String Unit × TreeOrderbook :=
  if o.price % TICK_SIZE ≠ 0 then (.error (tickMsg o.price), b)
  else if o.price = 0 ∨ MAX_PRICE ≤ o.price then (.error (oobMsg o.price), b)
  else if o.quantity % LOT_SIZE ≠ 0 then (.error (lotMsg o.quantity), b)
  else if o.quantity = 0 then (.error zeroQtyMsg, b)
  else
    let b' :=
      match o.side with
      | .Bid => { b with bids := treeAdd o.price o b.bids }
      | .Ask => { b with asks := treeAdd o.price o b.asks }
    (.ok (), { b' with order_index := idxInsert o.id (o.side, o.price) b'.order_index })

/-- Error string of the tree representation's data-inconsistency branch. -/
def inconsistencyMsgTree (id : Nat) : String :=
  "Order " ++ toString id ++ " found in index but not in tree (data inconsistency)"

/-- Tree `Orderbook::cancel_order`: the index entry is removed first (by the
`?` on `order_index.remove`), so it is gone even on the inconsistency path;
the level's first order with the id is removed and the level deleted if it
becomes empty. -/
def TreeOrderbook.cancel_order (b : TreeOrderbook) (id : Nat) :
    Except String Unit × TreeOrderbook :=
  match idxLookup id b.order_index with
  | none => (.error (notFoundMsg id), b)
  | some (side, price) =>
      let b0 := { b with order_index := idxRemove id b.order_index }
      let tree := match side with | .Bid => b0.bids | .Ask => b0.asks
      let res : Except String Unit × TreeSide :=
        match treeGet price tree with
        | none => (.error (inconsistencyMsgTree id), tree)
        | some lvl =>
            match lvl.findIdx? (fun o => o.id = id) with
            | none => (.error (inconsistencyMsgTree id), tree)
            | some pos =>
                let lvl' := lvl.eraseIdx pos
                (.ok (), if lvl'.isEmpty then treeRemoveKey price tree else treeSet price lvl' tree)
      match side with
      | .Bid => (res.1, { b0 with bids := res.2 })
      | .Ask => (res.1, { b0 with asks := res.2 })

/-- The market-order walk of the tree representation (and of the hybrid cold
zone): iterate the map entries in list order, break when the quantity reaches
0, consume each level FIFO, and drop the levels that became empty (the
`empty_levels` cleanup). -/
def treeWalk (qty : Nat) (idx : OrderIndex) :
    TreeSide → Option (List Fill × Nat × TreeSide × OrderIndex)
  | [] => some ([], qty, [], idx)
  | (p, lvl) :: rest =>
      if qty = 0 then some ([], 0, (p, lvl) :: rest, idx)
      else
        match matchOrders p qty lvl with
        | none => none
        | some (fills, qty', lvl') =>
            match treeWalk qty'
                (removeIds (fills.map (fun fl => fl.maker_order_id)) idx) rest with
            | none => none
            | some (fills2, q2, rest2, ix2) =>
                some (fills ++ fills2, q2,
                  (if lvl'.isEmpty then rest2 else (p, lvl') :: rest2), ix2)

/-- Tree `Orderbook::execute_market_order` before the remaining check: market
BUY iterates the asks ascending; market SELL iterates the bids descending
(`iter_mut().rev()`, modelled by walking the reversed list and reversing the
surviving entries back). -/
def TreeOrderbook.execCore (b : TreeOrderbook) (side : Side) (qty : Nat) :
    Option (List Fill × Nat × TreeOrderbook) :=
  match side with
  | .Bid =>
      (treeWalk qty b.order_index b.asks).map
        (fun r => (r.1, r.2.1, { b with asks := r.2.2.1, order_index := r.2.2.2 }))
  | .Ask =>
      (treeWalk qty b.order_index b.bids.reverse).map
        (fun r => (r.1, r.2.1, { b with bids := r.2.2.1.reverse, order_index := r.2.2.2 }))

/-- Tree `Orderbook::execute_market_order`. -/
def TreeOrderbook.execute_market_order (b : TreeOrderbook) (side : Side) (qty : Nat) :
    Option (Except String (List Fill) × TreeOrderbook) :=
  (b.execCore side qty).map
    (fun r => (if 0 < r.2.1 then .error (partialMsg r.2.1) else .ok r.1, r.2.2))

/-- Tree `Orderbook::best_bid`: `last_key_value` of the bid map. -/
def TreeOrderbook.best_bid (b : TreeOrderbook) : Option Nat :=
  b.bids.getLast?.map (fun e => e.1)

/-- Tree `Orderbook::best_ask`: `first_key_value` of the ask map. -/
def TreeOrderbook.best_ask (b : TreeOrderbook) : Option Nat :=
  b.asks.head?.map (fun e => e.1)

/-- Tree `Orderbook::depth_at_price`. -/
def TreeOrderbook.depth_at_price (b : TreeOrderbook) (price : Nat) (side : Side) : Nat :=
  if price = 0 ∨ MAX_PRICE ≤ price then 0
  else if price % TICK_SIZE ≠ 0 then 0
  else
    let tree := match side with | .Bid => b.bids | .Ask => b.asks
    ((treeGet price tree).map totalQuantity).getD 0

/-! ## Hybrid book (`src/orderbook/hybrid/orderbook.rs`) -/

/-- `HOT_ZONE_SIZE`. -/
def HOT_ZONE_SIZE : Nat := 200

/-- `HOT_ZONE_RADIUS = HOT_ZONE_SIZE / 2`. -/
def HOT_ZONE_RADIUS : Nat := HOT_ZONE_SIZE / 2

/-- The hybrid `Orderbook` struct.  The hot arrays are `[Level; HOT_ZONE_SIZE]`
per side (indices `0..HOT_ZONE_SIZE`); `hot_zone_center` is set to
`MAX_PRICE / 2` at construction and never changed. -/
structure HybridOrderbook where
  hot_bids : Nat → List Order
  hot_asks : Nat → List Order
  cold_bids : TreeSide
  cold_asks : TreeSide
  hot_zone_center : Nat
  order_index : OrderIndex

/-- Hybrid `Orderbook::new()`. -/
def HybridOrderbook.new : HybridOrderbook :=
  { hot_bids := fun _ => [], hot_asks := fun _ => [], cold_bids := [], cold_asks := [],
    hot_zone_center := MAX_PRICE / 2, order_index := [] }

/-- `Orderbook::is_in_hot_zone`: `center - RADIUS ≤ p < center + RADIUS`
(the Rust `saturating_sub` is `Nat` subtraction). -/
def HybridOrderbook.is_in_hot_zone (b : HybridOrderbook) (price : Nat) : Bool :=
  decide (b.hot_zone_center - HOT_ZONE_RADIUS ≤ price) &&
    decide (price < b.hot_zone_center + HOT_ZONE_RADIUS)

/-- `Orderbook::hot_zone_index`: offset of the price into the hot window. -/
def HybridOrderbook.hot_zone_index (b : HybridOrderbook) (price : Nat) : Nat :=
  price - (b.hot_zone_center - HOT_ZONE_RADIUS)

/-- Hybrid `Orderbook::add_order`: validations as in the dense file, then
placement into the hot array or the cold map by price. -/
def HybridOrderbook.add_order (b : HybridOrderbook) (o : Order) :
    Except String Unit × HybridOrderbook :=
  if o.price % TICK_SIZE ≠ 0 then (.error (tickMsg o.price), b)
  else if o.price = 0 ∨ MAX_PRICE ≤ o.price then (.error (oobMsg o.price), b)
  else if o.quantity % LOT_SIZE ≠ 0 then (.error (lotMsg o.quantity), b)
  else if o.quantity = 0 then (.error zeroQtyMsg, b)
  else
    let b' :=
      if b.is_in_hot_zone o.price then
        let idx := b.hot_zone_index o.price
        match o.side with
        | .Bid => { b with hot_bids := updateFn b.hot_bids idx (b.hot_bids idx ++ [o]) }
        | .Ask => { b with hot_asks := updateFn b.hot_asks idx (b.hot_asks idx ++ [o]) }
      else
        match o.side with
        | .Bid => { b with cold_bids := treeAdd o.price o b.cold_bids }
        | .Ask => { b with cold_asks := treeAdd o.price o b.cold_asks }
    (.ok (), { b' with order_index := idxInsert o.id (o.side, o.price) b'.order_index })

/-- Error string of the hybrid representation's data-inconsistency branch. -/
def inconsistencyMsgHybrid (id : Nat) : String :=
  "Order " ++ toString id ++ " found in index but not in book (data inconsistency)"

/-- Hybrid `Orderbook::cancel_order`: index entry removed first; then the hot
array (no empty-level cleanup) or the cold map (with cleanup) by price. -/
def HybridOrderbook.cancel_order (b : HybridOrderbook) (id : Nat) :
    Except String Unit × HybridOrderbook :=
  match idxLookup id b.order_index with
  | none => (.error (notFoundMsg id), b)
  | some (side, price) =>
      let b0 := { b with order_index := idxRemove id b.order_index }
      if b0.is_in_hot_zone price then
        let idx := b0.hot_zone_index price
        let lvl := match side with | .Bid => b0.hot_bids idx | .Ask => b0.hot_asks idx
        match lvl.findIdx? (fun o => o.id = id) with
        | none => (.error (inconsistencyMsgHybrid id), b0)
        | some pos =>
            let lvl' := lvl.eraseIdx pos
            match side with
            | .Bid => (.ok (), { b0 with hot_bids := updateFn b0.hot_bids idx lvl' })
            | .Ask => (.ok (), { b0 with hot_asks := updateFn b0.hot_asks idx lvl' })
      else
        let tree := match side with | .Bid => b0.cold_bids | .Ask => b0.cold_asks
        let res : Except String Unit × TreeSide :=
          match treeGet price tree with
          | none => (.error (inconsistencyMsgHybrid id), tree)
          | some lvl =>
              match lvl.findIdx? (fun o => o.id = id) with
              | none => (.error (inconsistencyMsgHybrid id), tree)
              | some pos =>
                  let lvl' := lvl.eraseIdx pos
                  (.ok (), if lvl'.isEmpty then treeRemoveKey price tree else treeSet price lvl' tree)
        match side with
        | .Bid => (res.1, { b0 with cold_bids := res.2 })
        | .Ask => (res.1, { b0 with cold_asks := res.2 })

/-- Hybrid `Orderbook::execute_market_order` before the remaining check:
market BUY walks the hot ask window upward, then (if quantity remains) the
cold ask map ascending; market SELL walks the hot bid window downward, then
the cold bid map descending. -/
def HybridOrderbook.execCore (b : HybridOrderbook) (side : Side) (qty : Nat) :
    Option (List Fill × Nat × HybridOrderbook) :=
  match side with
  | .Bid =>
      match walkLevels (fun i => b.hot_zone_center - HOT_ZONE_RADIUS + i) qty
          b.order_index b.hot_asks (List.range HOT_ZONE_SIZE) with
      | none => none
      | some (fills, qty', hot', idx') =>
          if 0 < qty' then
            match treeWalk qty' idx' b.cold_asks with
            | none => none
            | some (fills2, q2, cold', ix2) =>
                some (fills ++ fills2, q2,
                  { b with hot_asks := hot', cold_asks := cold', order_index := ix2 })
          else
            some (fills, qty', { b with hot_asks := hot', order_index := idx' })
  | .Ask =>
      match walkLevels (fun i => b.hot_zone_center - HOT_ZONE_RADIUS + i) qty
          b.order_index b.hot_bids (List.range HOT_ZONE_SIZE).reverse with
      | none => none
      | some (fills, qty', hot', idx') =>
          if 0 < qty' then
            match treeWalk qty' idx' b.cold_bids.reverse with
            | none => none
            | some (fills2, q2, coldRev', ix2) =>
                some (fills ++ fills2, q2,
                  { b with hot_bids := hot', cold_bids := coldRev'.reverse, order_index := ix2 })
          else
            some (fills, qty', { b with hot_bids := hot', order_index := idx' })

/-- Hybrid `Orderbook::execute_market_order`. -/
def HybridOrderbook.execute_market_order (b : HybridOrderbook) (side : Side) (qty : Nat) :
    Option (Except String (List Fill) × HybridOrderbook) :=
  (b.execCore side qty).map
    (fun r => (if 0 < r.2.1 then .error (partialMsg r.2.1) else .ok r.1, r.2.2))

/-- Hybrid `Orderbook::best_bid`: scan the hot bid window from the top down;
only if it is entirely empty, fall back to the cold map's maximum key. -/
def HybridOrderbook.best_bid (b : HybridOrderbook) : Option Nat :=
  match ((List.range HOT_ZONE_SIZE).reverse.find? (fun i => !(b.hot_bids i).isEmpty)) with
  | some i => some (b.hot_zone_center - HOT_ZONE_RADIUS + i)
  | none => b.cold_bids.getLast?.map (fun e => e.1)

/-- Hybrid `Orderbook::best_ask`: scan the hot ask window from the bottom up;
only if it is entirely empty, fall back to the cold map's minimum key. -/
def HybridOrderbook.best_ask (b : HybridOrderbook) : Option Nat :=
  match ((List.range HOT_ZONE_SIZE).find? (fun i => !(b.hot_asks i).isEmpty)) with
  | some i => some (b.hot_zone_center - HOT_ZONE_RADIUS + i)
  | none => b.cold_asks.head?.map (fun e => e.1)

/-- Hybrid `Orderbook::depth_at_price`. -/
def HybridOrderbook.depth_at_price (b : HybridOrderbook) (price : Nat) (side : Side) : Nat :=
  if price = 0 ∨ MAX_PRICE ≤ price then 0
  else if price % TICK_SIZE ≠ 0 then 0
  else if b.is_in_hot_zone price then
    let idx := b.hot_zone_index price
    match side with
    | .Bid => totalQuantity (b.hot_bids idx)
    | .Ask => totalQuantity (b.hot_asks idx)
  else
    let tree := match side with | .Bid => b.cold_bids | .Ask => b.cold_asks
    ((treeGet price tree).map totalQuantity).getD 0

/-! ## Operation sequences and observations -/

/-- One book operation of the common contract. -/
inductive Op where
  | add (o : Order)
  | cancel (id : Nat)
  | market (side : Side) (qty : Nat)
deriving DecidableEq, Repr

/-- The fill list an operation hands back to the caller: `some fills` for a
fully filled market order, `none` otherwise (adds, cancels, and the
partial-fill error path, whose `Err` carries no fills). -/
def fillsOut (r : Except String (List Fill)) : Option (List Fill) :=
  match r with
  | .ok fills => some fills
  | .error _ => none

/-- One step of the dense book; `none` is the partial-resting-fill panic. -/
def stepD (b : Orderbook) : Op → Option (Option (List Fill) × Orderbook)
  | .add o => some (none, (b.add_order o).2)
  | .cancel id => some (none, (b.cancel_order id).2)
  | .market s q => (b.execute_market_order s q).map (fun r => (fillsOut r.1, r.2))

/-- One step of the SoA book. -/
def stepS (b : SoAOrderbook) : Op → Option (Option (List Fill) × SoAOrderbook)
  | .add o => some (none, (b.add_order o).2)
  | .cancel id => some (none, (b.cancel_order id).2)
  | .market s q => (b.execute_market_order s q).map (fun r => (fillsOut r.1, r.2))

/-- One step of the tree book. -/
def stepT (b : TreeOrderbook) : Op → Option (Option (List Fill) × TreeOrderbook)
  | .add o => some (none, (b.add_order o).2)
  | .cancel id => some (none, (b.cancel_order id).2)
  | .market s q => (b.execute_market_order s q).map (fun r => (fillsOut r.1, r.2))

/-- One step of the hybrid book. -/
def stepH (b : HybridOrderbook) : Op → Option (Option (List Fill) × HybridOrderbook)
  | .add o => some (none, (b.add_order o).2)
  | .cancel id => some (none, (b.cancel_order id).2)
  | .market s q => (b.execute_market_order s q).map (fun r => (fillsOut r.1, r.2))

/-- Run a sequence of operations on the dense book (final state only). -/
def execOpsD (b : Orderbook) : List Op → Option Orderbook
  | [] => some b
  | op :: rest =>
      match stepD b op with
      | none => none
      | some (_, b') => execOpsD b' rest

/-- Run a sequence of operations on the SoA book (final state only). -/
def execOpsS (b : SoAOrderbook) : List Op → Option SoAOrderbook
  | [] => some b
  | op :: rest =>
      match stepS b op with
      | none => none
      | some (_, b') => execOpsS b' rest

/-- Run a sequence of operations on the tree book (final state only). -/
def execOpsT (b : TreeOrderbook) : List Op → Option TreeOrderbook
  | [] => some b
  | op :: rest =>
      match stepT b op with
      | none => none
      | some (_, b') => execOpsT b' rest

/-- Run a sequence of operations on the hybrid book (final state only). -/
def execOpsH (b : HybridOrderbook) : List Op → Option HybridOrderbook
  | [] => some b
  | op :: rest =>
      match stepH b op with
      | none => none
      | some (_, b') => execOpsH b' rest

/-- What a caller observes of one operation: the best prices and the complete
depth histogram of the book after the operation, and the fill list (if any)
the operation returned. -/
structure Obs where
  bb : Option Nat
  ba : Option Nat
  depth : Nat → Side → Nat
  fills : Option (List Fill)

/-- Observation trace of a run on the dense book; `none` when an operation
panics. -/
def runObsD (b : Orderbook) : List Op → Option (List Obs)
  | [] => some []
  | op :: rest =>
      match stepD b op with
      | none => none
      | some (fo, b') =>
          (runObsD b' rest).map
            (fun os => ⟨b'.best_bid, b'.best_ask, fun p s => b'.depth_at_price p s, fo⟩ :: os)

/-- Observation trace of a run on the SoA book. -/
def runObsS (b : SoAOrderbook) : List Op → Option (List Obs)
  | [] => some []
  | op :: rest =>
      match stepS b op with
      | none => none
      | some (fo, b') =>
          (runObsS b' rest).map
            (fun os => ⟨b'.best_bid, b'.best_ask, fun p s => b'.depth_at_price p s, fo⟩ :: os)

/-- Observation trace of a run on the tree book. -/
def runObsT (b : TreeOrderbook) : List Op → Option (List Obs)
  | [] => some []
  | op :: rest =>
      match stepT b op with
      | none => none
      | some (fo, b') =>
          (runObsT b' rest).map
            (fun os => ⟨b'.best_bid, b'.best_ask, fun p s => b'.depth_at_price p s, fo⟩ :: os)

/-! ## Latency tracker (`src/perf/latency.rs`)

The tracker's buffer is a list of samples (cycle deltas).  The `f64` values
computed by `precentiles`/`percentile_at` are modelled exactly: a finite
nonnegative double is a dyadic rational `m * 2^e` with mantissa `m` and
binary exponent `e`, and every arithmetic step — the `as f64` conversions,
the decimal literals, `*` and `/` — rounds its exact rational result to 53
significant bits with ties to even, which is IEEE-754 binary64
round-to-nearest.  (Exponent overflow at `2^1024` and subnormals lie far
outside every value these computations reach and are not modelled.)  The
`u64` sample sum wraps modulo `2^64`; `sort_unstable` is modelled by
`List.insertionSort`, which produces the same (unique) sorted permutation of
the buffer. -/

/-- A finite nonnegative `f64` value: mantissa and binary exponent, denoting
`m * 2^e`. -/
abbrev F64 := Nat × Int

/-- The rational value denoted by an `F64`. -/
def f64Val (x : F64) : ℚ := (x.1 : ℚ) * (2 : ℚ) ^ x.2

/-- Number of binary digits of the second argument (0 for 0); the first
argument is structural-recursion fuel, always instantiated with a bound on
the number. -/
def nbitsAux : Nat → Nat → Nat
  | 0, _ => 0
  | fuel + 1, n => if n = 0 then 0 else nbitsAux fuel (n / 2) + 1

/-- Number of binary digits of `n`. -/
def nbits (n : Nat) : Nat := nbitsAux n n

/-- Decide `2^t ≤ a / b` for positive naturals `a`, `b`. -/
def pow2LE (t : Int) (a b : Nat) : Bool :=
  if 0 ≤ t then decide (b * 2 ^ t.toNat ≤ a) else decide (b ≤ a * 2 ^ (-t).toNat)

/-- Round `A / B` to the nearest integer, ties to even. -/
def roundNE (A B : Nat) : Nat :=
  let m := A / B
  let r := A % B
  if 2 * r < B then m else if B < 2 * r then m + 1 else if m % 2 = 0 then m else m + 1

/-- `⌊log2 (a / b)⌋` for positive `a`, `b`. -/
def texp (a b : Nat) : Int :=
  let t0 : Int := (nbits a : Int) - (nbits b : Int)
  if pow2LE t0 a b then t0 else t0 - 1

/-- Round the positive rational `a / b` to 53 significant bits
(round-to-nearest, ties to even). -/
def frac53 (a b : Nat) : F64 :=
  let t := texp a b
  if 52 ≤ t then (roundNE a (b * 2 ^ (t - 52).toNat), t - 52)
  else (roundNE (a * 2 ^ (52 - t).toNat) b, t - 52)

/-- Round `(a / b) * 2^E` to a double. -/
def froundFrac (a b : Nat) (E : Int) : F64 :=
  if a = 0 then (0, 0) else ((frac53 a b).1, (frac53 a b).2 + E)

/-- `usize/u64 as f64` (rounds to the nearest double). -/
def fofNat (n : Nat) : F64 := froundFrac n 1 0

/-- `f64` multiplication: the exact product, rounded. -/
def fmul (x y : F64) : F64 := froundFrac (x.1 * y.1) 1 (x.2 + y.2)

/-- `f64` division: the exact quotient, rounded. -/
def fdiv (x y : F64) : F64 := froundFrac x.1 y.1 (x.2 - y.2)

/-- `x as usize` for a nonnegative double: truncation toward zero. -/
def f64toUsize (x : F64) : Nat :=
  if 0 ≤ x.2 then x.1 * 2 ^ x.2.toNat else x.1 / 2 ^ (-x.2).toNat

/-- The double denoted by the literal `0.50` (Rust converts decimal literals
to the nearest double). -/
def flit50 : F64 := froundFrac 50 100 0

/-- The double denoted by the literal `0.95`. -/
def flit95 : F64 := froundFrac 95 100 0

/-- The double denoted by the literal `0.99`. -/
def flit99 : F64 := froundFrac 99 100 0

/-- The double denoted by the literal `0.999`. -/
def flit999 : F64 := froundFrac 999 1000 0

/-- The double denoted by the literal `0.9999`. -/
def flit9999 : F64 := froundFrac 9999 10000 0

/-- The `Percentiles` struct (its `mean` field is an `f64`). -/
structure Percentiles where
  min : Nat
  max : Nat
  mean : F64
  p50 : Nat
  p95 : Nat
  p99 : Nat
  p999 : Nat
  p9999 : Nat
deriving DecidableEq, Repr

/-- The index `(p * (self.samples.len() - 1) as f64) as usize` computed by
`LatencyTracker::percentile_at`. -/
def floatIndex (p : F64) (len : Nat) : Nat := f64toUsize (fmul p (fofNat (len - 1)))

/-- `LatencyTracker::percentile_at`: select the sorted sample at the
`f64`-computed index.  The index is in bounds for the five percentile
literals (proved in `C9`); `getD` supplies a default like any out-of-bounds
access would panic. -/
def percentile_at (sorted : List Nat) (p : F64) : Nat :=
  sorted.getD (floatIndex p sorted.length) 0

/-- `LatencyTracker::precentiles` (source spelling): `None` on an empty
buffer; otherwise sort ascending and read off min, max, the `f64` mean of the
wrapping `u64` sum, and the five percentiles. -/
def precentiles (samples : List Nat) : Option Percentiles :=
  if samples.isEmpty then none
  else
    let sorted := samples.insertionSort (fun a b => a ≤ b)
    some
      { min := sorted.getD 0 0
        max := sorted.getD (sorted.length - 1) 0
        mean := fdiv (fofNat (samples.sum % 2 ^ 64)) (fofNat samples.length)
        p50 := percentile_at sorted flit50
        p95 := percentile_at sorted flit95
        p99 := percentile_at sorted flit99
        p999 := percentile_at sorted flit999
        p9999 := percentile_at sorted flit9999 }

/-! ## Basic lemmas: order index -/

theorem idxLookup_insert_self (k : Nat) (v : Side × Nat) (m : OrderIndex) :
    idxLookup k (idxInsert k v m) = some v := by
  induction m with
  | nil => simp [idxInsert, idxLookup]
  | cons e rest ih =>
      obtain ⟨ek, ev⟩ := e
      by_cases h : ek = k <;> simp [idxInsert, idxLookup, h, ih]

theorem idxLookup_insert_ne (k k' : Nat) (v : Side × Nat) (m : OrderIndex) (h : k' ≠ k) :
    idxLookup k' (idxInsert k v m) = idxLookup k' m := by
  have hkk : ¬ k = k' := fun hh => h hh.symm
  induction m with
  | nil => simp [idxInsert, idxLookup, hkk]
  | cons e rest ih =>
      obtain ⟨ek, ev⟩ := e
      by_cases he : ek = k
      · simp [idxInsert, idxLookup, he, hkk]
      · by_cases he' : ek = k' <;> simp [idxInsert, idxLookup, he, he', ih, h]

theorem idxLookup_remove_ne (k k' : Nat) (m : OrderIndex) (h : k' ≠ k) :
    idxLookup k' (idxRemove k m) = idxLookup k' m := by
  have hkk : ¬ k = k' := fun hh => h hh.symm
  induction m with
  | nil => simp [idxRemove]
  | cons e rest ih =>
      obtain ⟨ek, ev⟩ := e
      by_cases he : ek = k
      · simp [idxRemove, idxLookup, he, hkk]
      · by_cases he' : ek = k' <;> simp [idxRemove, idxLookup, he, he', ih, h]

/-- The order index never holds two bindings of one key (it starts empty and
is mutated only through `idxInsert` / `idxRemove`). -/
def IdxNodup (m : OrderIndex) : Prop := (m.map Prod.fst).Nodup

theorem idxNodup_nil : IdxNodup [] := by simp [IdxNodup]

theorem idxLookup_eq_none_of_not_mem (k : Nat) (m : OrderIndex)
    (h : k ∉ m.map Prod.fst) : idxLookup k m = none := by
  induction m with
  | nil => rfl
  | cons e rest ih =>
      obtain ⟨ek, ev⟩ := e
      simp only [List.map_cons, List.mem_cons, not_or] at h
      have : ¬ ek = k := fun hh => h.1 hh.symm
      simp only [idxLookup, if_neg this]
      exact ih h.2

theorem idxRemove_keys_subset (k : Nat) (m : OrderIndex) :
    (idxRemove k m).map Prod.fst ⊆ m.map Prod.fst := by
  induction m with
  | nil => simp [idxRemove]
  | cons e rest ih =>
      obtain ⟨ek, ev⟩ := e
      by_cases he : ek = k
      · simp only [idxRemove, if_pos he, List.map_cons]
        exact List.subset_cons_of_subset _ (by simp)
      · simp only [idxRemove, if_neg he, List.map_cons]
        exact List.cons_subset_cons _ ih

theorem idxInsert_keys_subset (k : Nat) (v : Side × Nat) (m : OrderIndex) :
    (idxInsert k v m).map Prod.fst ⊆ k :: m.map Prod.fst := by
  induction m with
  | nil => simp [idxInsert]
  | cons e rest ih =>
      obtain ⟨ek, ev⟩ := e
      by_cases he : ek = k
      · subst he
        simp only [idxInsert, if_pos rfl, List.map_cons]
        exact List.cons_subset_cons _ (List.subset_cons_of_subset _ (by simp))
      · simp only [idxInsert, if_neg he, List.map_cons]
        intro x hx
        rcases List.mem_cons.1 hx with rfl | hx
        · simp
        · rcases List.mem_cons.1 (ih hx) with rfl | hx <;> simp [hx]

theorem idxLookup_remove_self (k : Nat) (m : OrderIndex) (hm : IdxNodup m) :
    idxLookup k (idxRemove k m) = none := by
  induction m with
  | nil => rfl
  | cons e rest ih =>
      obtain ⟨ek, ev⟩ := e
      simp only [IdxNodup, List.map_cons, List.nodup_cons] at hm
      by_cases he : ek = k
      · subst he
        simp only [idxRemove, if_pos rfl]
        exact idxLookup_eq_none_of_not_mem _ _ hm.1
      · simp only [idxRemove, if_neg he, idxLookup, if_neg he]
        exact ih hm.2

theorem idxRemove_insert_fresh (k : Nat) (v : Side × Nat) (m : OrderIndex)
    (h : idxLookup k m = none) : idxRemove k (idxInsert k v m) = m := by
  induction m with
  | nil => simp [idxInsert, idxRemove]
  | cons e rest ih =>
      obtain ⟨ek, ev⟩ := e
      by_cases he : ek = k
      · simp [idxLookup, he] at h
      · simp only [idxLookup, if_neg he] at h
        simp [idxInsert, idxRemove, he, ih h]

theorem idxNodup_remove (k : Nat) (m : OrderIndex) (hm : IdxNodup m) :
    IdxNodup (idxRemove k m) := by
  induction m with
  | nil => exact hm
  | cons e rest ih =>
      obtain ⟨ek, ev⟩ := e
      simp only [IdxNodup, List.map_cons, List.nodup_cons] at hm
      by_cases he : ek = k
      · simpa [idxRemove, he, IdxNodup] using hm.2
      · simp only [IdxNodup, idxRemove, if_neg he, List.map_cons, List.nodup_cons]
        exact ⟨fun hmem => hm.1 (idxRemove_keys_subset k rest hmem), ih hm.2⟩

theorem idxNodup_insert (k : Nat) (v : Side × Nat) (m : OrderIndex) (hm : IdxNodup m) :
    IdxNodup (idxInsert k v m) := by
  induction m with
  | nil => simp [idxInsert, IdxNodup]
  | cons e rest ih =>
      obtain ⟨ek, ev⟩ := e
      simp only [IdxNodup, List.map_cons, List.nodup_cons] at hm
      by_cases he : ek = k
      · subst he
        simpa [idxInsert, IdxNodup] using hm
      · simp only [IdxNodup, idxInsert, if_neg he, List.map_cons, List.nodup_cons]
        refine ⟨fun hmem => ?_, ih hm.2⟩
        rcases List.mem_cons.1 (idxInsert_keys_subset k v rest hmem) with rfl | hmem'
        · exact he rfl
        · exact hm.1 hmem'

/-- Keys whose binding survives `idxRemove` kept their binding. -/
theorem idxLookup_of_remove (k k' : Nat) (m : OrderIndex) (v : Side × Nat)
    (hm : IdxNodup m) (h : idxLookup k' (idxRemove k m) = some v) :
    idxLookup k' m = some v := by
  rcases eq_or_ne k' k with rfl | hne
  · rw [idxLookup_remove_self k' m hm] at h
    exact absurd h (by simp)
  · rwa [idxLookup_remove_ne _ _ _ hne] at h

theorem removeIds_cons (i : Nat) (rest : List Nat) (m : OrderIndex) :
    removeIds (i :: rest) m = removeIds rest (idxRemove i m) := rfl

theorem idxNodup_removeIds (ids : List Nat) (m : OrderIndex) (hm : IdxNodup m) :
    IdxNodup (removeIds ids m) := by
  induction ids generalizing m with
  | nil => exact hm
  | cons i rest ih => rw [removeIds_cons]; exact ih _ (idxNodup_remove i m hm)

theorem idxLookup_removeIds (ids : List Nat) (m : OrderIndex) (k : Nat) (v : Side × Nat)
    (hm : IdxNodup m) (h : idxLookup k (removeIds ids m) = some v) :
    idxLookup k m = some v := by
  induction ids generalizing m with
  | nil => simpa [removeIds] using h
  | cons i rest ih =>
      rw [removeIds_cons] at h
      exact idxLookup_of_remove i k m v hm (ih (idxRemove i m) (idxNodup_remove i m hm) h)

/-- A key that survives `removeIds` was not among the removed ids. -/
theorem not_mem_of_lookup_removeIds (ids : List Nat) (m : OrderIndex) (k : Nat)
    (v : Side × Nat) (hm : IdxNodup m) (h : idxLookup k (removeIds ids m) = some v) :
    k ∉ ids := by
  induction ids generalizing m with
  | nil => simp
  | cons i rest ih =>
      rw [removeIds_cons] at h
      rcases eq_or_ne k i with rfl | hne
      · have hrest := idxLookup_removeIds rest (idxRemove k m) k v (idxNodup_remove k m hm) h
        rw [idxLookup_remove_self k m hm] at hrest
        exact absurd hrest (by simp)
      · intro hmem
        rcases List.mem_cons.1 hmem with rfl | hmem'
        · exact hne rfl
        · exact ih (idxRemove i m) (idxNodup_remove i m hm) h hmem'

theorem idxLookup_removeIds_ne (ids : List Nat) (m : OrderIndex) (k : Nat)
    (h : k ∉ ids) : idxLookup k (removeIds ids m) = idxLookup k m := by
  induction ids generalizing m with
  | nil => simp [removeIds]
  | cons i rest ih =>
      simp only [List.mem_cons, not_or] at h
      rw [removeIds_cons, ih (idxRemove i m) h.2, idxLookup_remove_ne _ _ _ h.1]

/-! ## Basic lemmas: levels -/

theorem levelCancel_append_fresh (id : Nat) (l : List Order) (o : Order)
    (ho : o.id = id) (h : ∀ x ∈ l, x.id ≠ id) : levelCancel id (l ++ [o]) = l := by
  induction l with
  | nil => simp [levelCancel, ho]
  | cons x rest ih =>
      have hx : x.id ≠ id := h x (by simp)
      simp only [List.cons_append, levelCancel, if_neg hx]
      exact congrArg (x :: ·) (ih (fun y hy => h y (List.mem_cons_of_mem _ hy)))

theorem mem_of_mem_levelCancel (id : Nat) (l : List Order) (x : Order)
    (h : x ∈ levelCancel id l) : x ∈ l := by
  induction l with
  | nil => simp [levelCancel] at h
  | cons y rest ih =>
      by_cases hy : y.id = id
      · simp only [levelCancel, if_pos hy] at h
        exact List.mem_cons_of_mem _ h
      · simp only [levelCancel, if_neg hy, List.mem_cons] at h
        rcases h with rfl | h
        · exact List.mem_cons_self _ _
        · exact List.mem_cons_of_mem _ (ih h)

/-- An order with a different id survives `levelCancel`. -/
theorem mem_levelCancel_of_ne (id : Nat) (l : List Order) (x : Order)
    (hx : x ∈ l) (hne : x.id ≠ id) : x ∈ levelCancel id l := by
  induction l with
  | nil => simp at hx
  | cons y rest ih =>
      by_cases hy : y.id = id
      · simp only [levelCancel, if_pos hy]
        rcases List.mem_cons.1 hx with rfl | h
        · exact absurd hy hne
        · exact h
      · simp only [levelCancel, if_neg hy]
        rcases List.mem_cons.1 hx with rfl | h
        · exact List.mem_cons_self _ _
        · exact List.mem_cons_of_mem _ (ih h)

/-! ## Basic lemmas: FIFO matching -/

theorem totalQuantity_nil : totalQuantity [] = 0 := rfl

theorem totalQuantity_cons (o : Order) (l : List Order) :
    totalQuantity (o :: l) = o.quantity + totalQuantity l := by
  simp [totalQuantity]

theorem totalQuantity_append (l l' : List Order) :
    totalQuantity (l ++ l') = totalQuantity l + totalQuantity l' := by
  simp [totalQuantity]

/-- Structure of a successful `matchOrders` run: a prefix of `k` orders is
consumed whole (each producing one fill carrying its full quantity and id),
the suffix is untouched, the remaining quantity accounts exactly for the
consumed quantity, and a positive remainder means the level was drained. -/
theorem matchOrders_some (p q : Nat) (l : List Order) (fills : List Fill) (r : Nat)
    (l' : List Order) (h : matchOrders p q l = some (fills, r, l')) :
    ∃ k, fills = (l.take k).map (fun o => ⟨p, o.quantity, o.id⟩)
      ∧ l' = l.drop k
      ∧ q = totalQuantity (l.take k) + r
      ∧ (0 < r → l' = []) := by
  induction l generalizing q fills r l' with
  | nil =>
      simp only [matchOrders, Option.some.injEq, Prod.mk.injEq] at h
      obtain ⟨h1, h2, h3⟩ := h
      refine ⟨0, by simp [← h1], by simp [← h3], by simp [totalQuantity, ← h2], ?_⟩
      intro _
      simp [← h3]
  | cons o os ih =>
      by_cases hq : q = 0
      · subst hq
        simp only [matchOrders, eq_self_iff_true, if_true, Option.some.injEq,
          Prod.mk.injEq] at h
        obtain ⟨h1, h2, h3⟩ := h
        refine ⟨0, by simp [← h1], by simp [← h3], by simp [totalQuantity, ← h2], ?_⟩
        intro hr
        omega
      · by_cases hle : o.quantity ≤ q
        · simp only [matchOrders, if_neg hq, if_pos hle] at h
          cases hrec : matchOrders p (q - o.quantity) os with
          | none => rw [hrec] at h; simp at h
          | some res =>
              obtain ⟨fills0, r0, os'⟩ := res
              rw [hrec] at h
              simp only [Option.some.injEq, Prod.mk.injEq] at h
              obtain ⟨h1, h2, h3⟩ := h
              obtain ⟨k, hf, hd, hsum, hpos⟩ := ih (q - o.quantity) fills0 r0 os' hrec
              subst h3
              refine ⟨k + 1, ?_, ?_, ?_, ?_⟩
              · simp [← h1, hf]
              · simp [hd]
              · rw [List.take_succ_cons, totalQuantity_cons]
                omega
              · intro hr
                rw [h2] at hpos
                exact hpos hr
        · simp only [matchOrders, if_neg hq, if_neg hle] at h
          exact absurd h (by simp)

/-- `matchOrders` with at least the level's total quantity always succeeds,
leaving exactly `q - totalQuantity l` unfilled. -/
theorem matchOrders_ge_total (p q : Nat) (l : List Order) (h : totalQuantity l ≤ q) :
    ∃ fills l', matchOrders p q l = some (fills, q - totalQuantity l, l') := by
  induction l generalizing q with
  | nil => exact ⟨[], [], by simp [matchOrders, totalQuantity]⟩
  | cons o os ih =>
      rw [totalQuantity_cons] at h
      by_cases hq : q = 0
      · subst hq
        refine ⟨[], o :: os, ?_⟩
        have h0 : (0 : Nat) - totalQuantity (o :: os) = 0 := by omega
        rw [h0]
        simp [matchOrders]
      · have hle : o.quantity ≤ q := by omega
        obtain ⟨fills0, os', hrec⟩ := ih (q - o.quantity) (by omega)
        refine ⟨⟨p, o.quantity, o.id⟩ :: fills0, os', ?_⟩
        have harith : q - o.quantity - totalQuantity os = q - totalQuantity (o :: os) := by
          rw [totalQuantity_cons]
          omega
        rw [harith] at hrec
        simp only [matchOrders, if_neg hq, if_pos hle, hrec]

/-- Prefix sums (including the empty prefix 0 and the full sum) of a list. -/
def prefixSums : List Nat → List Nat
  | [] => [0]
  | q :: rest => 0 :: (prefixSums rest).map (fun s => q + s)

theorem zero_mem_prefixSums (l : List Nat) : 0 ∈ prefixSums l := by
  cases l <;> simp [prefixSums]

theorem sum_mem_prefixSums (l : List Nat) : l.sum ∈ prefixSums l := by
  induction l with
  | nil => simp [prefixSums]
  | cons q rest ih => simp only [prefixSums, List.sum_cons, List.mem_cons, List.mem_map]
                      exact Or.inr ⟨rest.sum, ih, rfl⟩

theorem mem_prefixSums_append (q : Nat) (xs ys : List Nat) :
    q ∈ prefixSums (xs ++ ys) ↔
      q ∈ prefixSums xs ∨ ∃ r ∈ prefixSums ys, q = xs.sum + r := by
  induction xs generalizing q with
  | nil =>
      simp only [List.nil_append, prefixSums, List.sum_nil]
      constructor
      · intro h
        exact Or.inr ⟨q, h, by omega⟩
      · rintro (h | ⟨r, hr, rfl⟩)
        · simp only [List.mem_singleton] at h
          subst h; exact zero_mem_prefixSums ys
        · simpa using hr
  | cons x xs ih =>
      simp only [List.cons_append, prefixSums, List.mem_cons, List.mem_map, List.sum_cons]
      constructor
      · rintro (rfl | ⟨s, hs, rfl⟩)
        · exact Or.inl (Or.inl rfl)
        · rcases (ih s).1 hs with h | ⟨r, hr, rfl⟩
          · exact Or.inl (Or.inr ⟨s, h, rfl⟩)
          · exact Or.inr ⟨r, hr, by omega⟩
      · rintro (h | ⟨r, hr, rfl⟩)
        · rcases h with rfl | ⟨s, hs, rfl⟩
          · exact Or.inl rfl
          · exact Or.inr ⟨s, (ih s).2 (Or.inl hs), rfl⟩
        · exact Or.inr ⟨xs.sum + r, (ih _).2 (Or.inr ⟨r, hr, rfl⟩), by omega⟩

/-- `matchOrders` with a quantity equal to a prefix sum of the level's resting
quantities succeeds with nothing left unfilled. -/
theorem matchOrders_prefix (p q : Nat) (l : List Order)
    (h : q ∈ prefixSums (l.map (fun o => o.quantity))) :
    ∃ fills l', matchOrders p q l = some (fills, 0, l') := by
  induction l generalizing q with
  | nil =>
      simp only [List.map_nil, prefixSums, List.mem_singleton] at h
      exact ⟨[], [], by simp [matchOrders, h]⟩
  | cons o os ih =>
      by_cases hq : q = 0
      · exact ⟨[], o :: os, by simp [matchOrders, hq]⟩
      · simp only [List.map_cons, prefixSums, List.mem_cons, List.mem_map] at h
        rcases h with rfl | ⟨r', hr', rfl⟩
        · exact absurd rfl hq
        · obtain ⟨fills0, os', hrec⟩ := ih r' hr'
          refine ⟨⟨p, o.quantity, o.id⟩ :: fills0, os', ?_⟩
          have : r' = o.quantity + r' - o.quantity := by omega
          simp only [matchOrders, if_neg hq, if_pos (Nat.le_add_right _ _),
            Nat.add_sub_cancel_left, hrec]

/-! ## Claim C6: admission validation -/

/-- With `TICK_SIZE = LOT_SIZE = 1` the two modulo checks never fire, so the
dense `add_order` reduces to the bounds check followed by the zero check. -/
theorem addD_characterization (b : Orderbook) (o : Order) :
    b.add_order o =
      if o.price = 0 ∨ MAX_PRICE ≤ o.price then (.error (oobMsg o.price), b)
      else if o.quantity = 0 then (.error zeroQtyMsg, b)
      else
        ((.ok ()),
          { (match o.side with
             | .Bid => { b with bids := updateFn b.bids (o.price / TICK_SIZE) (b.bids (o.price / TICK_SIZE) ++ [o]) }
             | .Ask => { b with asks := updateFn b.asks (o.price / TICK_SIZE) (b.asks (o.price / TICK_SIZE) ++ [o]) }) with
            order_index := idxInsert o.id (o.side, o.price) b.order_index }) := by
  by_cases hp : o.price = 0 ∨ MAX_PRICE ≤ o.price
  · simp [Orderbook.add_order, TICK_SIZE, LOT_SIZE, Nat.mod_one, hp]
  · by_cases hq : o.quantity = 0
    · simp [Orderbook.add_order, TICK_SIZE, LOT_SIZE, Nat.mod_one, hp, hq]
    · cases hs : o.side <;>
        simp [Orderbook.add_order, TICK_SIZE, LOT_SIZE, Nat.mod_one, hp, hq, hs]

/-- Tree-representation analogue of `addD_characterization`. -/
theorem addT_characterization (b : TreeOrderbook) (o : Order) :
    b.add_order o =
      if o.price = 0 ∨ MAX_PRICE ≤ o.price then (.error (oobMsg o.price), b)
      else if o.quantity = 0 then (.error zeroQtyMsg, b)
      else
        ((.ok ()),
          { (match o.side with
             | .Bid => { b with bids := treeAdd o.price o b.bids }
             | .Ask => { b with asks := treeAdd o.price o b.asks }) with
            order_index := idxInsert o.id (o.side, o.price) b.order_index }) := by
  by_cases hp : o.price = 0 ∨ MAX_PRICE ≤ o.price
  · simp [TreeOrderbook.add_order, TICK_SIZE, LOT_SIZE, Nat.mod_one, hp]
  · by_cases hq : o.quantity = 0
    · simp [TreeOrderbook.add_order, TICK_SIZE, LOT_SIZE, Nat.mod_one, hp, hq]
    · cases hs : o.side <;>
        simp [TreeOrderbook.add_order, TICK_SIZE, LOT_SIZE, Nat.mod_one, hp, hq, hs]

/-- Result component of the dense `add_order`. -/
theorem addD_fst (b : Orderbook) (o : Order) :
    (b.add_order o).1 =
      if o.price = 0 ∨ MAX_PRICE ≤ o.price then .error (oobMsg o.price)
      else if o.quantity = 0 then .error zeroQtyMsg
      else .ok () := by
  rw [addD_characterization]
  by_cases hp : o.price = 0 ∨ MAX_PRICE ≤ o.price
  · simp [hp]
  · by_cases hq : o.quantity = 0 <;> simp [hp, hq]

/-- State component of the dense `add_order` on any error path. -/
theorem addD_error_unchanged (b : Orderbook) (o : Order) (s : String)
    (h : (b.add_order o).1 = .error s) : (b.add_order o).2 = b := by
  rw [addD_characterization]
  rw [addD_fst] at h
  by_cases hp : o.price = 0 ∨ MAX_PRICE ≤ o.price
  · simp [hp]
  · by_cases hq : o.quantity = 0
    · simp [hp, hq]
    · simp [hp, hq] at h

/-- Result component of the tree `add_order`. -/
theorem addT_fst (b : TreeOrderbook) (o : Order) :
    (b.add_order o).1 =
      if o.price = 0 ∨ MAX_PRICE ≤ o.price then .error (oobMsg o.price)
      else if o.quantity = 0 then .error zeroQtyMsg
      else .ok () := by
  rw [addT_characterization]
  by_cases hp : o.price = 0 ∨ MAX_PRICE ≤ o.price
  · simp [hp]
  · by_cases hq : o.quantity = 0 <;> simp [hp, hq]

/-- State component of the tree `add_order` on any error path. -/
theorem addT_error_unchanged (b : TreeOrderbook) (o : Order) (s : String)
    (h : (b.add_order o).1 = .error s) : (b.add_order o).2 = b := by
  rw [addT_characterization]
  rw [addT_fst] at h
  by_cases hp : o.price = 0 ∨ MAX_PRICE ≤ o.price
  · simp [hp]
  · by_cases hq : o.quantity = 0
    · simp [hp, hq]
    · simp [hp, hq] at h

/-- C6.  `add_order` (dense and tree representations) errors exactly when the
price is 0 or ≥ `MAX_PRICE` (= 10000) or the quantity is 0.  With
`TICK_SIZE = LOT_SIZE = 1` the multiple-of-tick and multiple-of-lot checks
(performed first and third) never fail; price errors take precedence over the
quantity-zero error, matching the check order tick, bounds, lot, zero (the
only errors ever produced are the bounds error and the zero-quantity error, in
that priority); and every error return leaves the book unchanged. -/
theorem C6_add_order_validation (b : Orderbook) (bt : TreeOrderbook) (o : Order) :
    (o.price % TICK_SIZE = 0 ∧ o.quantity % LOT_SIZE = 0)
    ∧ ((b.add_order o).1 = .ok () ↔ ¬(o.price = 0 ∨ MAX_PRICE ≤ o.price ∨ o.quantity = 0))
    ∧ (o.price = 0 ∨ MAX_PRICE ≤ o.price → (b.add_order o).1 = .error (oobMsg o.price))
    ∧ (¬(o.price = 0 ∨ MAX_PRICE ≤ o.price) → o.quantity = 0 →
        (b.add_order o).1 = .error zeroQtyMsg)
    ∧ (∀ s, (b.add_order o).1 = .error s → s = oobMsg o.price ∨ s = zeroQtyMsg)
    ∧ (∀ s, (b.add_order o).1 = .error s → (b.add_order o).2 = b)
    ∧ ((bt.add_order o).1 = .ok () ↔ ¬(o.price = 0 ∨ MAX_PRICE ≤ o.price ∨ o.quantity = 0))
    ∧ (∀ s, (bt.add_order o).1 = .error s → (bt.add_order o).2 = bt) := by
  refine ⟨⟨by simp [TICK_SIZE, Nat.mod_one], by simp [LOT_SIZE, Nat.mod_one]⟩, ?_, ?_, ?_, ?_,
    fun s => addD_error_unchanged b o s, ?_, fun s => addT_error_unchanged bt o s⟩
  · rw [addD_fst]
    by_cases hp : o.price = 0 ∨ MAX_PRICE ≤ o.price
    · rcases hp with hp | hp <;> simp [hp]
    · by_cases hq : o.quantity = 0 <;> simp [hp, hq]
  · intro hp
    rw [addD_fst, if_pos hp]
  · intro hp hq
    rw [addD_fst, if_neg hp, if_pos hq]
  · intro s hs
    rw [addD_fst] at hs
    by_cases hp : o.price = 0 ∨ MAX_PRICE ≤ o.price
    · rw [if_pos hp] at hs
      exact Or.inl (Except.error.inj hs).symm
    · rw [if_neg hp] at hs
      by_cases hq : o.quantity = 0
      · rw [if_pos hq] at hs
        exact Or.inr (Except.error.inj hs).symm
      · rw [if_neg hq] at hs
        exact absurd hs (by simp)
  · rw [addT_fst]
    by_cases hp : o.price = 0 ∨ MAX_PRICE ≤ o.price
    · rcases hp with hp | hp <;> simp [hp]
    · by_cases hq : o.quantity = 0 <;> simp [hp, hq]

/-- Witness for C6 at concrete inputs: price 0 is rejected with the
out-of-bounds error and the book is unchanged. -/
theorem C6_add_order_validation_witness :
    ((Orderbook.new.add_order ⟨7, .Bid, 0, 5⟩).1 = .error (oobMsg 0))
    ∧ ((Orderbook.new.add_order ⟨7, .Bid, 0, 5⟩).2 = Orderbook.new)
    ∧ ((TreeOrderbook.new.add_order ⟨7, .Bid, 0, 5⟩).1 = .ok () ↔
        ¬((0:Nat) = 0 ∨ MAX_PRICE ≤ 0 ∨ (5:Nat) = 0)) := by
  have h := C6_add_order_validation Orderbook.new TreeOrderbook.new ⟨7, .Bid, 0, 5⟩
  exact ⟨h.2.2.1 (Or.inl rfl),
    h.2.2.2.2.2.1 (oobMsg 0) (h.2.2.1 (Or.inl rfl)), h.2.2.2.2.2.2.1⟩

/-! ## Claim C10: duplicate order ids are admitted and break the index mirror -/

/-- Total number of resting orders of a dense book. -/
def restingCount (b : Orderbook) : Nat :=
  ((List.range ELEMENT_NUM).map (fun i => (b.bids i).length)).sum
  + ((List.range ELEMENT_NUM).map (fun i => (b.asks i).length)).sum

/-- Book after admitting id 0 at Ask 100 (qty 5). -/
def c10Book1 : Orderbook := (Orderbook.new.add_order ⟨0, .Ask, 100, 5⟩).2

/-- Book after also admitting the duplicate id 0 at Ask 200 (qty 7). -/
def c10Book2 : Orderbook := (c10Book1.add_order ⟨0, .Ask, 200, 7⟩).2

/-- Book after then cancelling id 0. -/
def c10Book3 : Orderbook := (c10Book2.cancel_order 0).2

/-- C10.  The dense `add_order` does not reject an order whose id already
identifies a resting order: admitting id 0 twice (Ask 100 qty 5, then Ask 200
qty 7) succeeds both times, leaves both orders resting while the order index
holds a single entry `0 ↦ (Ask, 200)`; the subsequent `cancel_order 0` then
removes only the order at 200, leaving the order at 100 resting with no index
entry — a resting order the (now empty) index does not mirror. -/
theorem C10_duplicate_id_breaks_mirror :
    ((c10Book1.add_order ⟨0, .Ask, 200, 7⟩).1 = .ok ())
    ∧ idxLookup 0 c10Book2.order_index = some (.Ask, 200)
    ∧ c10Book2.order_index.length = 1
    ∧ totalQuantity (c10Book2.asks 100) = 5
    ∧ totalQuantity (c10Book2.asks 200) = 7
    ∧ ((c10Book2.cancel_order 0).1 = .ok ())
    ∧ totalQuantity (c10Book3.asks 200) = 0
    ∧ totalQuantity (c10Book3.asks 100) = 5
    ∧ idxLookup 0 c10Book3.order_index = none
    ∧ c10Book3.order_index.length = 0
    ∧ c10Book3.asks 100 = [⟨0, .Ask, 100, 5⟩] := by
  exact ⟨rfl, rfl, rfl, rfl, rfl, rfl, rfl, rfl, rfl, rfl, rfl⟩

/-! ## Walk lemmas -/

/-- A walk over only-empty levels changes nothing and fills nothing. -/
theorem walkLevels_all_empty (priceOf : Nat → Nat) (qty : Nat) (idx : OrderIndex)
    (levels : Nat → List Order) (is : List Nat) (h : ∀ i ∈ is, levels i = []) :
    walkLevels priceOf qty idx levels is = some ([], qty, levels, idx) := by
  induction is with
  | nil => rfl
  | cons i rest ih =>
      by_cases hq : qty = 0
      · subst hq
        simp [walkLevels]
      · have hi : levels i = [] := h i (by simp)
        simp only [walkLevels, if_neg hq, hi, List.isEmpty_nil, if_true]
        exact ih (fun j hj => h j (by simp [hj]))

/-- A successful walk never increases the remaining quantity. -/
theorem walkLevels_rem_le (priceOf : Nat → Nat) (is : List Nat) :
    ∀ (qty : Nat) (idx : OrderIndex) (levels : Nat → List Order) (fills : List Fill)
      (r : Nat) (lv : Nat → List Order) (ix : OrderIndex),
      walkLevels priceOf qty idx levels is = some (fills, r, lv, ix) → r ≤ qty := by
  induction is with
  | nil =>
      intro qty idx levels fills r lv ix h
      simp only [walkLevels, Option.some.injEq, Prod.mk.injEq] at h
      obtain ⟨-, h2, -⟩ := h
      omega
  | cons i rest ih =>
      intro qty idx levels fills r lv ix h
      by_cases hq : qty = 0
      · subst hq
        simp only [walkLevels, if_pos rfl, Option.some.injEq, Prod.mk.injEq] at h
        obtain ⟨-, h2, -⟩ := h
        omega
      · simp only [walkLevels, if_neg hq] at h
        by_cases he : (levels i).isEmpty
        · rw [if_pos he] at h
          exact ih qty idx levels fills r lv ix h
        · rw [if_neg he] at h
          cases hm : matchOrders (priceOf i) qty (levels i) with
          | none => rw [hm] at h; simp at h
          | some res =>
              obtain ⟨fills1, q1, lvl'⟩ := res
              rw [hm] at h
              simp only at h
              cases hw : walkLevels priceOf q1
                  (removeIds (fills1.map (fun fl => fl.maker_order_id)) idx)
                  (updateFn levels i lvl') rest with
              | none => rw [hw] at h; simp at h
              | some res2 =>
                  obtain ⟨fills2, q2, lv2, ix2⟩ := res2
                  rw [hw] at h
                  simp only [Option.some.injEq, Prod.mk.injEq] at h
                  obtain ⟨-, h2, -⟩ := h
                  obtain ⟨k, -, -, hsum, -⟩ :=
                    matchOrders_some (priceOf i) qty (levels i) fills1 q1 lvl' hm
                  have hrec := ih q1 _ _ fills2 q2 lv2 ix2 hw
                  omega

/-- A successful walk that leaves a positive remainder consumed every order of
every walked level: the initial quantity is the remainder plus the total
liquidity of the walked levels. -/
theorem walkLevels_rem_pos (priceOf : Nat → Nat) (is : List Nat) :
    ∀ (qty : Nat) (idx : OrderIndex) (levels : Nat → List Order) (fills : List Fill)
      (r : Nat) (lv : Nat → List Order) (ix : OrderIndex), is.Nodup →
      walkLevels priceOf qty idx levels is = some (fills, r, lv, ix) → 0 < r →
      qty = r + (is.map (fun i => totalQuantity (levels i))).sum := by
  induction is with
  | nil =>
      intro qty idx levels fills r lv ix _ h _
      simp only [walkLevels, Option.some.injEq, Prod.mk.injEq] at h
      obtain ⟨-, h2, -⟩ := h
      simp only [List.map_nil, List.sum_nil]
      omega
  | cons i rest ih =>
      intro qty idx levels fills r lv ix hnd h hr
      rw [List.nodup_cons] at hnd
      by_cases hq : qty = 0
      · subst hq
        simp only [walkLevels, if_pos rfl, Option.some.injEq, Prod.mk.injEq] at h
        obtain ⟨-, h2, -⟩ := h
        omega
      · simp only [walkLevels, if_neg hq] at h
        by_cases he : (levels i).isEmpty
        · rw [if_pos he] at h
          have hlvl : levels i = [] := List.isEmpty_iff.1 he
          have hrec := ih qty idx levels fills r lv ix hnd.2 h hr
          simp only [List.map_cons, List.sum_cons, hlvl, totalQuantity_nil]
          omega
        · rw [if_neg he] at h
          cases hm : matchOrders (priceOf i) qty (levels i) with
          | none => rw [hm] at h; simp at h
          | some res =>
              obtain ⟨fills1, q1, lvl'⟩ := res
              rw [hm] at h
              simp only at h
              cases hw : walkLevels priceOf q1
                  (removeIds (fills1.map (fun fl => fl.maker_order_id)) idx)
                  (updateFn levels i lvl') rest with
              | none => rw [hw] at h; simp at h
              | some res2 =>
                  obtain ⟨fills2, q2, lv2, ix2⟩ := res2
                  rw [hw] at h
                  simp only [Option.some.injEq, Prod.mk.injEq] at h
                  obtain ⟨-, hq2r, -, -⟩ := h
                  have hr1 : 0 < q1 := by
                    have := walkLevels_rem_le priceOf rest q1 _ _ fills2 q2 lv2 ix2 hw
                    omega
                  obtain ⟨k, -, hdrop, hsum, hpos⟩ :=
                    matchOrders_some (priceOf i) qty (levels i) fills1 q1 lvl' hm
                  have hconsumed : totalQuantity (List.take k (levels i)) =
                      totalQuantity (levels i) := by
                    have h1 : List.take k (levels i) ++ List.drop k (levels i) = levels i :=
                      List.take_append_drop k (levels i)
                    rw [← hdrop, hpos hr1] at h1
                    conv_rhs => rw [← h1]
                    simp [totalQuantity_append]
                  have hrest := ih q1 _ _ fills2 q2 lv2 ix2 hnd.2 hw (by omega)
                  have hmapeq : rest.map (fun j => totalQuantity (updateFn levels i lvl' j))
                      = rest.map (fun j => totalQuantity (levels j)) := by
                    apply List.map_congr_left
                    intro j hj
                    have hji : j ≠ i := fun hji => hnd.1 (hji ▸ hj)
                    simp [updateFn, hji]
                  rw [hmapeq] at hrest
                  simp only [List.map_cons, List.sum_cons]
                  omega

/-- Tree walks never increase the remaining quantity. -/
theorem treeWalk_rem_le (ts : TreeSide) :
    ∀ (qty : Nat) (idx : OrderIndex) (fills : List Fill) (r : Nat) (ts' : TreeSide)
      (ix : OrderIndex), treeWalk qty idx ts = some (fills, r, ts', ix) → r ≤ qty := by
  induction ts with
  | nil =>
      intro qty idx fills r ts' ix h
      simp only [treeWalk, Option.some.injEq, Prod.mk.injEq] at h
      obtain ⟨-, h2, -⟩ := h
      omega
  | cons e rest ih =>
      obtain ⟨p, lvl⟩ := e
      intro qty idx fills r ts' ix h
      by_cases hq : qty = 0
      · subst hq
        simp only [treeWalk, if_pos rfl, Option.some.injEq, Prod.mk.injEq] at h
        obtain ⟨-, h2, -⟩ := h
        omega
      · simp only [treeWalk, if_neg hq] at h
        cases hm : matchOrders p qty lvl with
        | none => rw [hm] at h; simp at h
        | some res =>
            obtain ⟨fills1, q1, lvl'⟩ := res
            rw [hm] at h
            simp only at h
            cases hw : treeWalk q1
                (removeIds (fills1.map (fun fl => fl.maker_order_id)) idx) rest with
            | none => rw [hw] at h; simp at h
            | some res2 =>
                obtain ⟨fills2, q2, rest2, ix2⟩ := res2
                rw [hw] at h
                simp only [Option.some.injEq, Prod.mk.injEq] at h
                obtain ⟨-, h2, -⟩ := h
                obtain ⟨k, -, -, hsum, -⟩ := matchOrders_some p qty lvl fills1 q1 lvl' hm
                have hrec := ih q1 _ fills2 q2 rest2 ix2 hw
                omega

/-- Tree walks with a positive remainder drained every walked level. -/
theorem treeWalk_rem_pos (ts : TreeSide) :
    ∀ (qty : Nat) (idx : OrderIndex) (fills : List Fill) (r : Nat) (ts' : TreeSide)
      (ix : OrderIndex), treeWalk qty idx ts = some (fills, r, ts', ix) → 0 < r →
      qty = r + (ts.map (fun e => totalQuantity e.2)).sum := by
  induction ts with
  | nil =>
      intro qty idx fills r ts' ix h _
      simp only [treeWalk, Option.some.injEq, Prod.mk.injEq] at h
      obtain ⟨-, h2, -⟩ := h
      simp only [List.map_nil, List.sum_nil]
      omega
  | cons e rest ih =>
      obtain ⟨p, lvl⟩ := e
      intro qty idx fills r ts' ix h hr
      by_cases hq : qty = 0
      · subst hq
        simp only [treeWalk, if_pos rfl, Option.some.injEq, Prod.mk.injEq] at h
        obtain ⟨-, h2, -⟩ := h
        omega
      · simp only [treeWalk, if_neg hq] at h
        cases hm : matchOrders p qty lvl with
        | none => rw [hm] at h; simp at h
        | some res =>
            obtain ⟨fills1, q1, lvl'⟩ := res
            rw [hm] at h
            simp only at h
            cases hw : treeWalk q1
                (removeIds (fills1.map (fun fl => fl.maker_order_id)) idx) rest with
            | none => rw [hw] at h; simp at h
            | some res2 =>
                obtain ⟨fills2, q2, rest2, ix2⟩ := res2
                rw [hw] at h
                simp only [Option.some.injEq, Prod.mk.injEq] at h
                obtain ⟨-, hq2r, -, -⟩ := h
                have hr1 : 0 < q1 := by
                  have := treeWalk_rem_le rest q1 _ fills2 q2 rest2 ix2 hw
                  omega
                obtain ⟨k, -, hdrop, hsum, hpos⟩ := matchOrders_some p qty lvl fills1 q1 lvl' hm
                have hconsumed : totalQuantity (List.take k lvl) = totalQuantity lvl := by
                  have h1 : List.take k lvl ++ List.drop k lvl = lvl :=
                    List.take_append_drop k lvl
                  rw [← hdrop, hpos hr1] at h1
                  conv_rhs => rw [← h1]
                  simp [totalQuantity_append]
                have hrest := ih q1 _ fills2 q2 rest2 ix2 hw (by omega)
                simp only [List.map_cons, List.sum_cons]
                omega

/-! ## Claim C1: partial market orders -/

/-- Liquidity available to a market order of the given side (total resting
quantity of the opposite book side), dense representation. -/
def sideLiquidity (b : Orderbook) (side : Side) : Nat :=
  match side with
  | .Bid => ((List.range ELEMENT_NUM).map (fun i => totalQuantity (b.asks i))).sum
  | .Ask => ((List.range ELEMENT_NUM).map (fun i => totalQuantity (b.bids i))).sum

/-- Liquidity available to a market order of the given side, tree
representation. -/
def treeSideLiquidity (b : TreeOrderbook) (side : Side) : Nat :=
  match side with
  | .Bid => (b.asks.map (fun e => totalQuantity e.2)).sum
  | .Ask => (b.bids.map (fun e => totalQuantity e.2)).sum

/-- A market order against the empty dense book walks empty levels only. -/
theorem execCoreD_new (side : Side) (q : Nat) :
    Orderbook.new.execCore side q = some ([], q, Orderbook.new) := by
  cases side with
  | Bid =>
      have hw := walkLevels_all_empty (fun i => i * TICK_SIZE) q Orderbook.new.order_index
        Orderbook.new.asks (List.range ELEMENT_NUM) (fun i _ => rfl)
      unfold Orderbook.execCore
      simp only [hw, Option.map_some']
  | Ask =>
      have hw := walkLevels_all_empty (fun i => i * TICK_SIZE) q Orderbook.new.order_index
        Orderbook.new.bids (List.range ELEMENT_NUM).reverse (fun i _ => rfl)
      unfold Orderbook.execCore
      simp only [hw, Option.map_some']

/-- Liquidity available to a market order of the given side, SoA
representation. -/
def soaSideLiquidity (b : SoAOrderbook) (side : Side) : Nat :=
  match side with
  | .Bid => ((List.range ELEMENT_NUM).map (fun i => (b.asks i).total_quantity)).sum
  | .Ask => ((List.range ELEMENT_NUM).map (fun i => (b.bids i).total_quantity)).sum

/-- Liquidity available to a market order of the given side, hybrid
representation (hot window plus cold map). -/
def hybridSideLiquidity (b : HybridOrderbook) (side : Side) : Nat :=
  match side with
  | .Bid => ((List.range HOT_ZONE_SIZE).map (fun i => totalQuantity (b.hot_asks i))).sum
      + (b.cold_asks.map (fun e => totalQuantity e.2)).sum
  | .Ask => ((List.range HOT_ZONE_SIZE).map (fun i => totalQuantity (b.hot_bids i))).sum
      + (b.cold_bids.map (fun e => totalQuantity e.2)).sum

/-- Accounting of a successful `soaConsume`: the remainder never grows, the
consumed quantity is the sum of the first `k` column entries, and a positive
remainder means the whole column was consumed. -/
theorem soaConsume_some (p : Nat) : ∀ (pairs : List (Nat × Nat)) (q : Nat) (fills : List Fill)
    (q' k : Nat), soaConsume p q pairs = some (fills, q', k) →
    q' ≤ q ∧ q = q' + ((pairs.take k).map (fun e => e.2)).sum ∧
      (0 < q' → k = pairs.length) := by
  intro pairs
  induction pairs with
  | nil =>
      intro q fills q' k h
      simp only [soaConsume, Option.some.injEq, Prod.mk.injEq] at h
      obtain ⟨-, h2, h3⟩ := h
      subst h2
      subst h3
      simp
  | cons e rest ih =>
      obtain ⟨i, eq⟩ := e
      intro q fills q' k h
      by_cases hq : q = 0
      · subst hq
        simp only [soaConsume, eq_self_iff_true, if_true, Option.some.injEq,
          Prod.mk.injEq] at h
        obtain ⟨-, h2, h3⟩ := h
        subst h2
        subst h3
        simp
      · by_cases hle : eq ≤ q
        · simp only [soaConsume, if_neg hq, if_pos hle] at h
          cases hrec : soaConsume p (q - eq) rest with
          | none => rw [hrec] at h; simp at h
          | some r0 =>
              obtain ⟨f0, q0, k0⟩ := r0
              rw [hrec] at h
              simp only [Option.some.injEq, Prod.mk.injEq] at h
              obtain ⟨-, h2, h3⟩ := h
              subst h2
              subst h3
              obtain ⟨h1, h2, h3⟩ := ih (q - eq) f0 q0 k0 hrec
              refine ⟨by omega, ?_, fun hpos => ?_⟩
              · simp only [List.take_succ_cons, List.map_cons, List.sum_cons]
                omega
              · simp only [List.length_cons]
                rw [h3 hpos]
        · simp only [soaConsume, if_neg hq, if_neg hle] at h
          exact absurd h (by simp)

/-- Accounting of a successful SoA level match: with a positive remainder the
whole (id, quantity) column was consumed. -/
theorem soaMatch_some (l : LevelSoA) (p q : Nat) (fills : List Fill) (q' : Nat)
    (lvl' : LevelSoA) (h : l.match_orders p q = some (fills, q', lvl')) :
    q' ≤ q ∧ (0 < q' → q = q' + ((l.ids.zip l.quantities).map (fun e => e.2)).sum) := by
  unfold LevelSoA.match_orders at h
  cases hc : soaConsume p q (l.ids.zip l.quantities) with
  | none => rw [hc] at h; simp at h
  | some r0 =>
      obtain ⟨f0, q0, k0⟩ := r0
      rw [hc] at h
      simp only [Option.some.injEq, Prod.mk.injEq] at h
      obtain ⟨-, h2, -⟩ := h
      subst h2
      obtain ⟨h1, h2, h3⟩ := soaConsume_some p _ q f0 q0 k0 hc
      refine ⟨h1, fun hpos => ?_⟩
      rw [h3 hpos, List.take_length] at h2
      exact h2

/-- The second-column image of a zip is the whole second column when it is no
longer than the first. -/
theorem zip_snd_sum (ids qs : List Nat) (h : qs.length ≤ ids.length) :
    ((ids.zip qs).map (fun e => e.2)).sum = qs.sum := by
  induction ids generalizing qs with
  | nil =>
      cases qs with
      | nil => rfl
      | cons b bs => simp at h
  | cons a rest ih =>
      cases qs with
      | nil => rfl
      | cons b bs =>
          simp only [List.zip_cons_cons, List.map_cons, List.sum_cons]
          rw [ih bs (by simpa using h)]

/-- SoA walks never increase the remaining quantity. -/
theorem walkLevelsS_rem_le (is : List Nat) :
    ∀ (qty : Nat) (idx : OrderIndex) (levels : Nat → LevelSoA) (fills : List Fill)
      (r : Nat) (lv : Nat → LevelSoA) (ix : OrderIndex),
      walkLevelsS qty idx levels is = some (fills, r, lv, ix) → r ≤ qty := by
  induction is with
  | nil =>
      intro qty idx levels fills r lv ix h
      simp only [walkLevelsS, Option.some.injEq, Prod.mk.injEq] at h
      obtain ⟨-, h2, -⟩ := h
      omega
  | cons i rest ih =>
      intro qty idx levels fills r lv ix h
      by_cases hq : qty = 0
      · subst hq
        simp only [walkLevelsS, if_pos rfl, Option.some.injEq, Prod.mk.injEq] at h
        obtain ⟨-, h2, -⟩ := h
        omega
      · simp only [walkLevelsS, if_neg hq] at h
        by_cases he : (levels i).is_empty
        · rw [if_pos he] at h
          exact ih qty idx levels fills r lv ix h
        · rw [if_neg he] at h
          cases hm : (levels i).match_orders (i * TICK_SIZE) qty with
          | none => rw [hm] at h; simp at h
          | some res =>
              obtain ⟨fills1, q1, lvl'⟩ := res
              rw [hm] at h
              simp only at h
              cases hw : walkLevelsS q1
                  (removeIds (fills1.map (fun fl => fl.maker_order_id)) idx)
                  (updateFnS levels i lvl') rest with
              | none => rw [hw] at h; simp at h
              | some res2 =>
                  obtain ⟨fills2, q2, lv2, ix2⟩ := res2
                  rw [hw] at h
                  simp only [Option.some.injEq, Prod.mk.injEq] at h
                  obtain ⟨-, h2, -⟩ := h
                  have hle := (soaMatch_some (levels i) (i * TICK_SIZE) qty fills1 q1 lvl' hm).1
                  have hrec := ih q1 _ _ fills2 q2 lv2 ix2 hw
                  omega

/-- SoA walks with a positive remainder drained every walked level (under the
parallel-columns length invariant of the walked levels). -/
theorem walkLevelsS_rem_pos (is : List Nat) :
    ∀ (qty : Nat) (idx : OrderIndex) (levels : Nat → LevelSoA) (fills : List Fill)
      (r : Nat) (lv : Nat → LevelSoA) (ix : OrderIndex), is.Nodup →
      (∀ i ∈ is, (levels i).quantities.length ≤ (levels i).ids.length) →
      walkLevelsS qty idx levels is = some (fills, r, lv, ix) → 0 < r →
      qty = r + (is.map (fun i => (levels i).total_quantity)).sum := by
  induction is with
  | nil =>
      intro qty idx levels fills r lv ix _ _ h _
      simp only [walkLevelsS, Option.some.injEq, Prod.mk.injEq] at h
      obtain ⟨-, h2, -⟩ := h
      simp only [List.map_nil, List.sum_nil]
      omega
  | cons i rest ih =>
      intro qty idx levels fills r lv ix hnd hwf h hr
      rw [List.nodup_cons] at hnd
      by_cases hq : qty = 0
      · subst hq
        simp only [walkLevelsS, if_pos rfl, Option.some.injEq, Prod.mk.injEq] at h
        obtain ⟨-, h2, -⟩ := h
        omega
      · simp only [walkLevelsS, if_neg hq] at h
        by_cases he : (levels i).is_empty
        · rw [if_pos he] at h
          have hids : (levels i).ids = [] := by
            simpa [LevelSoA.is_empty, List.isEmpty_iff] using he
          have hqs : (levels i).quantities = [] := by
            have := hwf i (List.mem_cons_self _ _)
            rw [hids] at this
            simpa using List.length_eq_zero.1 (Nat.le_zero.1 (by simpa using this))
          have hrec := ih qty idx levels fills r lv ix hnd.2
            (fun j hj => hwf j (List.mem_cons_of_mem _ hj)) h hr
          have h0 : (levels i).total_quantity = 0 := by
            unfold LevelSoA.total_quantity
            rw [hqs]
            rfl
          simp only [List.map_cons, List.sum_cons, h0]
          omega
        · rw [if_neg he] at h
          cases hm : (levels i).match_orders (i * TICK_SIZE) qty with
          | none => rw [hm] at h; simp at h
          | some res =>
              obtain ⟨fills1, q1, lvl'⟩ := res
              rw [hm] at h
              simp only at h
              cases hw : walkLevelsS q1
                  (removeIds (fills1.map (fun fl => fl.maker_order_id)) idx)
                  (updateFnS levels i lvl') rest with
              | none => rw [hw] at h; simp at h
              | some res2 =>
                  obtain ⟨fills2, q2, lv2, ix2⟩ := res2
                  rw [hw] at h
                  simp only [Option.some.injEq, Prod.mk.injEq] at h
                  obtain ⟨-, hq2r, -, -⟩ := h
                  have hr1 : 0 < q1 := by
                    have := walkLevelsS_rem_le rest q1 _ _ fills2 q2 lv2 ix2 hw
                    omega
                  have hdr := (soaMatch_some (levels i) (i * TICK_SIZE) qty fills1 q1 lvl' hm).2 hr1
                  have hzs : (((levels i).ids.zip (levels i).quantities).map (fun e => e.2)).sum =
                      (levels i).quantities.sum :=
                    zip_snd_sum _ _ (hwf i (List.mem_cons_self _ _))
                  have hcons : qty = q1 + (levels i).total_quantity := by
                    unfold LevelSoA.total_quantity
                    omega
                  have hrest := ih q1 _ _ fills2 q2 lv2 ix2 hnd.2 ?hwf' hw (by omega)
                  case hwf' =>
                    intro j hj
                    have hji : j ≠ i := fun hji => hnd.1 (hji ▸ hj)
                    simp only [updateFnS, if_neg hji]
                    exact hwf j (List.mem_cons_of_mem _ hj)
                  have hmapeq : rest.map (fun j => (updateFnS levels i lvl' j).total_quantity)
                      = rest.map (fun j => (levels j).total_quantity) := by
                    apply List.map_congr_left
                    intro j hj
                    have hji : j ≠ i := fun hji => hnd.1 (hji ▸ hj)
                    simp [updateFnS, hji]
                  rw [hmapeq] at hrest
                  simp only [List.map_cons, List.sum_cons]
                  omega

/-- A market order against the empty SoA book walks empty levels only. -/
theorem walkLevelsS_all_empty (qty : Nat) (idx : OrderIndex) (levels : Nat → LevelSoA)
    (is : List Nat) (h : ∀ i ∈ is, levels i = ⟨[], [], [], []⟩) :
    walkLevelsS qty idx levels is = some ([], qty, levels, idx) := by
  induction is with
  | nil => rfl
  | cons i rest ih =>
      by_cases hq : qty = 0
      · subst hq
        simp [walkLevelsS]
      · have hi : levels i = ⟨[], [], [], []⟩ := h i (by simp)
        have hemp : (levels i).is_empty = true := by rw [hi]; rfl
        simp only [walkLevelsS, if_neg hq, hemp, if_true]
        exact ih (fun j hj => h j (by simp [hj]))

/-- A market order against the empty SoA book consumes nothing. -/
theorem execCoreS_new (side : Side) (q : Nat) :
    SoAOrderbook.new.execCore side q = some ([], q, SoAOrderbook.new) := by
  cases side with
  | Bid =>
      have hw := walkLevelsS_all_empty q SoAOrderbook.new.order_index SoAOrderbook.new.asks
        (List.range ELEMENT_NUM) (fun i _ => rfl)
      unfold SoAOrderbook.execCore
      simp only [hw, Option.map_some']
  | Ask =>
      have hw := walkLevelsS_all_empty q SoAOrderbook.new.order_index SoAOrderbook.new.bids
        (List.range ELEMENT_NUM).reverse (fun i _ => rfl)
      unfold SoAOrderbook.execCore
      simp only [hw, Option.map_some']

/-- A market order against the empty hybrid book walks the empty hot window
and the empty cold map, consuming nothing. -/
theorem execCoreH_new (side : Side) (q : Nat) (hq : 0 < q) :
    HybridOrderbook.new.execCore side q = some ([], q, HybridOrderbook.new) := by
  cases side with
  | Bid =>
      have hw := walkLevels_all_empty
        (fun i => HybridOrderbook.new.hot_zone_center - HOT_ZONE_RADIUS + i) q
        HybridOrderbook.new.order_index HybridOrderbook.new.hot_asks
        (List.range HOT_ZONE_SIZE) (fun i _ => rfl)
      unfold HybridOrderbook.execCore
      rw [hw]
      simp only [hq, if_pos, treeWalk]
      rfl
  | Ask =>
      have hw := walkLevels_all_empty
        (fun i => HybridOrderbook.new.hot_zone_center - HOT_ZONE_RADIUS + i) q
        HybridOrderbook.new.order_index HybridOrderbook.new.hot_bids
        (List.range HOT_ZONE_SIZE).reverse (fun i _ => rfl)
      unfold HybridOrderbook.execCore
      rw [hw]
      simp only [hq, if_pos, treeWalk]
      rfl

/-- C1 (amended).  When the walk of a market order ends with a positive
remaining quantity (the order could not be fully satisfied), each of the four
representations returns an error string carrying exactly that unfilled
remainder, equal to the requested quantity minus the entire opposing
liquidity; the book keeps the state mutated by the partial execution (the
consumed orders stay consumed — nothing is rolled back); but the `Result` type
is `Err(String)`, so the fills produced before exhaustion are discarded, not
returned to the caller alongside the error.  (The SoA book carries its
parallel-columns length invariant as a hypothesis; the dense error string
alone appends "(insufficient liquidity)".) -/
theorem C1_partial_error_discards_fills
    (bd : Orderbook) (bs : SoAOrderbook) (bt : TreeOrderbook) (bh : HybridOrderbook)
    (side : Side) (qty : Nat)
    (fd fs ft fh : List Fill) (rd rs rt rh : Nat)
    (bd' : Orderbook) (bs' : SoAOrderbook) (bt' : TreeOrderbook) (bh' : HybridOrderbook)
    (hd : bd.execCore side qty = some (fd, rd, bd')) (hrd : 0 < rd)
    (hs : bs.execCore side qty = some (fs, rs, bs')) (hrs : 0 < rs)
    (hswf : ∀ i, (bs.bids i).quantities.length ≤ (bs.bids i).ids.length
        ∧ (bs.asks i).quantities.length ≤ (bs.asks i).ids.length)
    (ht : bt.execCore side qty = some (ft, rt, bt')) (hrt : 0 < rt)
    (hh : bh.execCore side qty = some (fh, rh, bh')) (hrh : 0 < rh) :
    bd.execute_market_order side qty = some (.error (partialMsgDense rd), bd')
    ∧ rd = qty - sideLiquidity bd side
    ∧ sideLiquidity bd side < qty
    ∧ (bd.execute_market_order side qty).map (fun r => fillsOut r.1) = some none
    ∧ bs.execute_market_order side qty = some (.error (partialMsg rs), bs')
    ∧ rs = qty - soaSideLiquidity bs side
    ∧ soaSideLiquidity bs side < qty
    ∧ (bs.execute_market_order side qty).map (fun r => fillsOut r.1) = some none
    ∧ bt.execute_market_order side qty = some (.error (partialMsg rt), bt')
    ∧ rt = qty - treeSideLiquidity bt side
    ∧ treeSideLiquidity bt side < qty
    ∧ (bt.execute_market_order side qty).map (fun r => fillsOut r.1) = some none
    ∧ bh.execute_market_order side qty = some (.error (partialMsg rh), bh')
    ∧ rh = qty - hybridSideLiquidity bh side
    ∧ hybridSideLiquidity bh side < qty
    ∧ (bh.execute_market_order side qty).map (fun r => fillsOut r.1) = some none := by
  have hdexec : bd.execute_market_order side qty = some (.error (partialMsgDense rd), bd') := by
    unfold Orderbook.execute_market_order
    rw [hd]
    simp [hrd]
  have hsexec : bs.execute_market_order side qty = some (.error (partialMsg rs), bs') := by
    unfold SoAOrderbook.execute_market_order
    rw [hs]
    simp [hrs]
  have htexec : bt.execute_market_order side qty = some (.error (partialMsg rt), bt') := by
    unfold TreeOrderbook.execute_market_order
    rw [ht]
    simp [hrt]
  have hhexec : bh.execute_market_order side qty = some (.error (partialMsg rh), bh') := by
    unfold HybridOrderbook.execute_market_order
    rw [hh]
    simp [hrh]
  have hdliq : qty = rd + sideLiquidity bd side := by
    cases side with
    | Bid =>
        unfold Orderbook.execCore at hd
        cases hw : walkLevels (fun i => i * TICK_SIZE) qty bd.order_index bd.asks
            (List.range ELEMENT_NUM) with
        | none => rw [hw] at hd; simp at hd
        | some res =>
            obtain ⟨f0, r0, lv0, ix0⟩ := res
            rw [hw] at hd
            simp only [Option.map_some', Option.some.injEq, Prod.mk.injEq] at hd
            obtain ⟨-, hr, -⟩ := hd
            subst hr
            have := walkLevels_rem_pos _ _ qty _ bd.asks f0 r0 lv0 ix0
              (List.nodup_range _) hw hrd
            simpa [sideLiquidity] using this
    | Ask =>
        unfold Orderbook.execCore at hd
        cases hw : walkLevels (fun i => i * TICK_SIZE) qty bd.order_index bd.bids
            (List.range ELEMENT_NUM).reverse with
        | none => rw [hw] at hd; simp at hd
        | some res =>
            obtain ⟨f0, r0, lv0, ix0⟩ := res
            rw [hw] at hd
            simp only [Option.map_some', Option.some.injEq, Prod.mk.injEq] at hd
            obtain ⟨-, hr, -⟩ := hd
            subst hr
            have := walkLevels_rem_pos _ _ qty _ bd.bids f0 r0 lv0 ix0
              (List.nodup_reverse.2 (List.nodup_range _)) hw hrd
            rw [List.map_reverse, List.sum_reverse] at this
            simpa [sideLiquidity] using this
  have hsliq : qty = rs + soaSideLiquidity bs side := by
    cases side with
    | Bid =>
        unfold SoAOrderbook.execCore at hs
        cases hw : walkLevelsS qty bs.order_index bs.asks (List.range ELEMENT_NUM) with
        | none => rw [hw] at hs; simp at hs
        | some res =>
            obtain ⟨f0, r0, lv0, ix0⟩ := res
            rw [hw] at hs
            simp only [Option.map_some', Option.some.injEq, Prod.mk.injEq] at hs
            obtain ⟨-, hr, -⟩ := hs
            subst hr
            have := walkLevelsS_rem_pos _ qty _ bs.asks f0 r0 lv0 ix0
              (List.nodup_range _) (fun i _ => (hswf i).2) hw hrs
            simpa [soaSideLiquidity, LevelSoA.total_quantity] using this
    | Ask =>
        unfold SoAOrderbook.execCore at hs
        cases hw : walkLevelsS qty bs.order_index bs.bids (List.range ELEMENT_NUM).reverse with
        | none => rw [hw] at hs; simp at hs
        | some res =>
            obtain ⟨f0, r0, lv0, ix0⟩ := res
            rw [hw] at hs
            simp only [Option.map_some', Option.some.injEq, Prod.mk.injEq] at hs
            obtain ⟨-, hr, -⟩ := hs
            subst hr
            have := walkLevelsS_rem_pos _ qty _ bs.bids f0 r0 lv0 ix0
              (List.nodup_reverse.2 (List.nodup_range _))
              (fun i _ => (hswf i).1) hw hrs
            rw [List.map_reverse, List.sum_reverse] at this
            simpa [soaSideLiquidity, LevelSoA.total_quantity] using this
  have hhliq : qty = rh + hybridSideLiquidity bh side := by
    cases side with
    | Bid =>
        unfold HybridOrderbook.execCore at hh
        cases hw : walkLevels (fun i => bh.hot_zone_center - HOT_ZONE_RADIUS + i) qty
            bh.order_index bh.hot_asks (List.range HOT_ZONE_SIZE) with
        | none => rw [hw] at hh; simp at hh
        | some r1 =>
            obtain ⟨f0, q0, hot0, ix0⟩ := r1
            rw [hw] at hh
            simp only at hh
            by_cases hq0 : 0 < q0
            · rw [if_pos hq0] at hh
              cases hcw : treeWalk q0 ix0 bh.cold_asks with
              | none => rw [hcw] at hh; simp at hh
              | some r2 =>
                  obtain ⟨f2, q2, cold2, ix2⟩ := r2
                  rw [hcw] at hh
                  simp only [Option.some.injEq, Prod.mk.injEq] at hh
                  obtain ⟨-, hr, -⟩ := hh
                  subst hr
                  have h1 := walkLevels_rem_pos _ _ qty _ bh.hot_asks f0 q0 hot0 ix0
                    (List.nodup_range _) hw hq0
                  have h2 := treeWalk_rem_pos _ q0 _ f2 q2 cold2 ix2 hcw hrh
                  simp only [hybridSideLiquidity]
                  omega
            · rw [if_neg hq0] at hh
              simp only [Option.some.injEq, Prod.mk.injEq] at hh
              obtain ⟨-, hr, -⟩ := hh
              omega
    | Ask =>
        unfold HybridOrderbook.execCore at hh
        cases hw : walkLevels (fun i => bh.hot_zone_center - HOT_ZONE_RADIUS + i) qty
            bh.order_index bh.hot_bids (List.range HOT_ZONE_SIZE).reverse with
        | none => rw [hw] at hh; simp at hh
        | some r1 =>
            obtain ⟨f0, q0, hot0, ix0⟩ := r1
            rw [hw] at hh
            simp only at hh
            by_cases hq0 : 0 < q0
            · rw [if_pos hq0] at hh
              cases hcw : treeWalk q0 ix0 bh.cold_bids.reverse with
              | none => rw [hcw] at hh; simp at hh
              | some r2 =>
                  obtain ⟨f2, q2, cold2, ix2⟩ := r2
                  rw [hcw] at hh
                  simp only [Option.some.injEq, Prod.mk.injEq] at hh
                  obtain ⟨-, hr, -⟩ := hh
                  subst hr
                  have h1 := walkLevels_rem_pos _ _ qty _ bh.hot_bids f0 q0 hot0 ix0
                    (List.nodup_reverse.2 (List.nodup_range _)) hw hq0
                  have h2 := treeWalk_rem_pos _ q0 _ f2 q2 cold2 ix2 hcw hrh
                  rw [List.map_reverse, List.sum_reverse] at h1 h2
                  simp only [hybridSideLiquidity]
                  omega
            · rw [if_neg hq0] at hh
              simp only [Option.some.injEq, Prod.mk.injEq] at hh
              obtain ⟨-, hr, -⟩ := hh
              omega
  have htliq : qty = rt + treeSideLiquidity bt side := by
    cases side with
    | Bid =>
        unfold TreeOrderbook.execCore at ht
        cases hw : treeWalk qty bt.order_index bt.asks with
        | none => rw [hw] at ht; simp at ht
        | some res =>
            obtain ⟨f0, r0, ts0, ix0⟩ := res
            rw [hw] at ht
            simp only [Option.map_some', Option.some.injEq, Prod.mk.injEq] at ht
            obtain ⟨-, hr, -⟩ := ht
            subst hr
            have := treeWalk_rem_pos _ qty _ f0 r0 ts0 ix0 hw hrt
            simpa [treeSideLiquidity] using this
    | Ask =>
        unfold TreeOrderbook.execCore at ht
        cases hw : treeWalk qty bt.order_index bt.bids.reverse with
        | none => rw [hw] at ht; simp at ht
        | some res =>
            obtain ⟨f0, r0, ts0, ix0⟩ := res
            rw [hw] at ht
            simp only [Option.map_some', Option.some.injEq, Prod.mk.injEq] at ht
            obtain ⟨-, hr, -⟩ := ht
            subst hr
            have := treeWalk_rem_pos _ qty _ f0 r0 ts0 ix0 hw hrt
            rw [List.map_reverse, List.sum_reverse] at this
            simpa [treeSideLiquidity] using this
  refine ⟨hdexec, by omega, by omega, ?_, hsexec, by omega, by omega, ?_,
    htexec, by omega, by omega, ?_, hhexec, by omega, by omega, ?_⟩
  · rw [hdexec]
    rfl
  · rw [hsexec]
    rfl
  · rw [htexec]
    rfl
  · rw [hhexec]
    rfl

/-- Tree book holding one resting ask: id 0, price 50, quantity 5 (the spec's
boundary scenario 4). -/
def c1TreeBook : TreeOrderbook := (TreeOrderbook.new.add_order ⟨0, .Ask, 50, 5⟩).2

/-- C1 counterexample.  On the tree representation, a market buy of 10 against
the single resting ask (50, qty 5) produces a fill internally — the ask side
is drained and the maker is deleted from the order index — yet the operation
returns `Err("Market order partially filled: 5 remaining")` and the caller
receives no fill list at all (`fillsOut` of the result is `none`): the fills
are discarded together with the success channel, contradicting the claim that
they are returned to the caller with the error. -/
theorem C1_counterexample :
    c1TreeBook.asks = [(50, [⟨0, .Ask, 50, 5⟩])]
    ∧ (c1TreeBook.execute_market_order .Bid 10).map (fun r => r.1) =
        some (.error (partialMsg 5))
    ∧ (c1TreeBook.execute_market_order .Bid 10).map (fun r => fillsOut r.1) = some none
    ∧ (c1TreeBook.execute_market_order .Bid 10).map (fun r => r.2.asks) = some []
    ∧ (c1TreeBook.execute_market_order .Bid 10).map (fun r => r.2.order_index) = some [] :=
  ⟨rfl, rfl, rfl, rfl, rfl⟩

/-- Witness for C1: the empty dense, SoA and hybrid books (market buy of 10,
remainder 10) and the one-ask tree book (market buy of 10, remainder 5). -/
theorem C1_partial_error_discards_fills_witness :
    Orderbook.new.execute_market_order .Bid 10 =
        some (.error (partialMsgDense 10), Orderbook.new)
    ∧ 10 = 10 - sideLiquidity Orderbook.new .Bid
    ∧ sideLiquidity Orderbook.new .Bid < 10
    ∧ (Orderbook.new.execute_market_order .Bid 10).map (fun r => fillsOut r.1) = some none
    ∧ SoAOrderbook.new.execute_market_order .Bid 10 =
        some (.error (partialMsg 10), SoAOrderbook.new)
    ∧ 10 = 10 - soaSideLiquidity SoAOrderbook.new .Bid
    ∧ soaSideLiquidity SoAOrderbook.new .Bid < 10
    ∧ (SoAOrderbook.new.execute_market_order .Bid 10).map (fun r => fillsOut r.1) = some none
    ∧ c1TreeBook.execute_market_order .Bid 10 =
        some (.error (partialMsg 5), TreeOrderbook.new)
    ∧ 5 = 10 - treeSideLiquidity c1TreeBook .Bid
    ∧ treeSideLiquidity c1TreeBook .Bid < 10
    ∧ (c1TreeBook.execute_market_order .Bid 10).map (fun r => fillsOut r.1) = some none
    ∧ HybridOrderbook.new.execute_market_order .Bid 10 =
        some (.error (partialMsg 10), HybridOrderbook.new)
    ∧ 10 = 10 - hybridSideLiquidity HybridOrderbook.new .Bid
    ∧ hybridSideLiquidity HybridOrderbook.new .Bid < 10
    ∧ (HybridOrderbook.new.execute_market_order .Bid 10).map (fun r => fillsOut r.1)
        = some none :=
  C1_partial_error_discards_fills Orderbook.new SoAOrderbook.new c1TreeBook
    HybridOrderbook.new .Bid 10
    [] [] [⟨50, 5, 0⟩] [] 10 10 5 10
    Orderbook.new SoAOrderbook.new TreeOrderbook.new HybridOrderbook.new
    (execCoreD_new .Bid 10) (by decide)
    (execCoreS_new .Bid 10) (by decide)
    (fun i => ⟨Nat.le_refl 0, Nat.le_refl 0⟩)
    rfl (by decide)
    (execCoreH_new .Bid 10 (by decide)) (by decide)

/-! ## Claim C7: admit–cancel round trip -/

/-- C7 (amended).  Admitting a valid order whose id neither appears in the
order index nor identifies any resting order, then cancelling that id,
restores the dense book exactly: the resulting state (and hence best bid,
best ask, the whole depth histogram and the order-index cardinality) equals
the original one. -/
theorem C7_add_cancel_roundtrip (b : Orderbook) (o : Order)
    (hid : idxLookup o.id b.order_index = none)
    (hrest : ∀ p, (∀ x ∈ b.bids p, x.id ≠ o.id) ∧ (∀ x ∈ b.asks p, x.id ≠ o.id))
    (hp : ¬(o.price = 0 ∨ MAX_PRICE ≤ o.price)) (hq : ¬o.quantity = 0) :
    ((b.add_order o).1 = .ok ())
    ∧ (((b.add_order o).2).cancel_order o.id).1 = .ok ()
    ∧ (((b.add_order o).2).cancel_order o.id).2 = b
    ∧ ((((b.add_order o).2).cancel_order o.id).2).best_bid = b.best_bid
    ∧ ((((b.add_order o).2).cancel_order o.id).2).best_ask = b.best_ask
    ∧ (∀ p s, ((((b.add_order o).2).cancel_order o.id).2).depth_at_price p s =
        b.depth_at_price p s)
    ∧ ((((b.add_order o).2).cancel_order o.id).2).order_index.length =
        b.order_index.length := by
  have hchar := addD_characterization b o
  rw [if_neg hp, if_neg hq] at hchar
  have hfst : (b.add_order o).1 = .ok () := by rw [hchar]
  have hrt : (((b.add_order o).2).cancel_order o.id) = (.ok (), b) := by
    rw [hchar]
    cases hs : o.side with
    | Bid =>
        obtain ⟨bb, ba, bi⟩ := b
        simp only [Orderbook.cancel_order, idxLookup_insert_self, hs]
        have hlvl : levelCancel o.id
            (updateFn bb (o.price / TICK_SIZE) (bb (o.price / TICK_SIZE) ++ [o])
              (o.price / TICK_SIZE)) = bb (o.price / TICK_SIZE) := by
          simp only [updateFn, if_pos rfl]
          exact levelCancel_append_fresh o.id _ o rfl ((hrest (o.price / TICK_SIZE)).1)
        simp only [hlvl]
        have hfun : updateFn (updateFn bb (o.price / TICK_SIZE)
            (bb (o.price / TICK_SIZE) ++ [o])) (o.price / TICK_SIZE)
            (bb (o.price / TICK_SIZE)) = bb := by
          funext j
          by_cases hj : j = o.price / TICK_SIZE <;> simp [updateFn, hj]
        have hidx : idxRemove o.id (idxInsert o.id (Side.Bid, o.price) bi) = bi :=
          idxRemove_insert_fresh o.id _ bi hid
        rw [hfun, hidx]
    | Ask =>
        obtain ⟨bb, ba, bi⟩ := b
        simp only [Orderbook.cancel_order, idxLookup_insert_self, hs]
        have hlvl : levelCancel o.id
            (updateFn ba (o.price / TICK_SIZE) (ba (o.price / TICK_SIZE) ++ [o])
              (o.price / TICK_SIZE)) = ba (o.price / TICK_SIZE) := by
          simp only [updateFn, if_pos rfl]
          exact levelCancel_append_fresh o.id _ o rfl ((hrest (o.price / TICK_SIZE)).2)
        simp only [hlvl]
        have hfun : updateFn (updateFn ba (o.price / TICK_SIZE)
            (ba (o.price / TICK_SIZE) ++ [o])) (o.price / TICK_SIZE)
            (ba (o.price / TICK_SIZE)) = ba := by
          funext j
          by_cases hj : j = o.price / TICK_SIZE <;> simp [updateFn, hj]
        have hidx : idxRemove o.id (idxInsert o.id (Side.Ask, o.price) bi) = bi :=
          idxRemove_insert_fresh o.id _ bi hid
        rw [hfun, hidx]
  have hsnd : (((b.add_order o).2).cancel_order o.id).2 = b := by rw [hrt]
  refine ⟨hfst, by rw [hrt], hsnd, by rw [hsnd], by rw [hsnd],
    fun p s => by rw [hsnd], by rw [hsnd]⟩

/-- Dense book reached by admitting id 0 twice (Ask 100 qty 5, Ask 200 qty 7)
and cancelling id 0 once: the copy at (Ask, 100) keeps resting with no
order-index entry. -/
def c7Base : Orderbook :=
  (((Orderbook.new.add_order ⟨0, .Ask, 100, 5⟩).2.add_order
      ⟨0, .Ask, 200, 7⟩).2.cancel_order 0).2

/-- C7 counterexample.  In the reachable state `c7Base`, the id 0 is absent
from the order index (the original claim's only premise about the id), yet an
unindexed order with id 0 and quantity 5 is still resting at (Ask, 100).
Admitting ⟨0, Ask, 100, 9⟩ and cancelling id 0 then removes the *older* copy
(FIFO position search), leaving depth 9 where depth 5 stood: the round trip
does not restore the book. -/
theorem C7_counterexample :
    idxLookup 0 c7Base.order_index = none
    ∧ c7Base.depth_at_price 100 .Ask = 5
    ∧ ((c7Base.add_order ⟨0, .Ask, 100, 9⟩).1 = .ok ())
    ∧ (((c7Base.add_order ⟨0, .Ask, 100, 9⟩).2.cancel_order 0).1 = .ok ())
    ∧ (((c7Base.add_order ⟨0, .Ask, 100, 9⟩).2.cancel_order 0).2.depth_at_price 100 .Ask
        = 9) :=
  ⟨rfl, rfl, rfl, rfl, rfl⟩

/-- Witness for C7: the empty book and the order ⟨3, Bid, 100, 5⟩. -/
theorem C7_add_cancel_roundtrip_witness :
    ((Orderbook.new.add_order ⟨3, .Bid, 100, 5⟩).1 = .ok ())
    ∧ (((Orderbook.new.add_order ⟨3, .Bid, 100, 5⟩).2).cancel_order 3).1 = .ok ()
    ∧ (((Orderbook.new.add_order ⟨3, .Bid, 100, 5⟩).2).cancel_order 3).2 = Orderbook.new := by
  have h := C7_add_cancel_roundtrip Orderbook.new ⟨3, .Bid, 100, 5⟩ rfl
    (fun p => ⟨fun x hx => absurd hx (List.not_mem_nil x),
               fun x hx => absurd hx (List.not_mem_nil x)⟩)
    (by decide) (by decide)
  exact ⟨h.1, h.2.1, h.2.2.1⟩

/-! ## Claim C9: latency-tracker summary -/

theorem nbitsAux_zero (fuel : Nat) : nbitsAux fuel 0 = 0 := by
  cases fuel with
  | zero => rfl
  | succ f => simp [nbitsAux]

/-- Characterisation of the bit count: `2^(nbits n − 1) ≤ n < 2^(nbits n)`. -/
theorem nbitsAux_correct (fuel : Nat) : ∀ n : Nat, n ≤ fuel → 0 < n →
    2 ^ (nbitsAux fuel n - 1) ≤ n ∧ n < 2 ^ nbitsAux fuel n := by
  induction fuel with
  | zero => intro n hn h0; omega
  | succ f ih =>
      intro n hn h0
      have hne : ¬ n = 0 := by omega
      simp only [nbitsAux, if_neg hne]
      by_cases h1 : n / 2 = 0
      · have hn1 : n = 1 := by omega
        subst hn1
        rw [h1, nbitsAux_zero]
        norm_num
      · have hrec := ih (n / 2) (by omega) (by omega)
        set k := nbitsAux f (n / 2) with hk
        have hk1 : 1 ≤ k := by
          by_contra hc
        -- k = 0 would put n/2 below 2^0 = 1
          have hz : k = 0 := by omega
          rw [hz] at hrec
          simp at hrec
          omega
        have e1 : (2:Nat) ^ (k + 1 - 1) = 2 ^ k := by
          have hs : k + 1 - 1 = k := by omega
          rw [hs]
        have e2 : (2:Nat) ^ (k - 1) * 2 = 2 ^ k := by
          rw [← pow_succ]
          congr 1
          omega
        have e3 : (2:Nat) ^ (k + 1) = 2 ^ k * 2 := by rw [pow_succ]
        constructor
        · rw [e1]
          omega
        · rw [e3]
          omega

theorem nbits_correct (n : Nat) (h0 : 0 < n) :
    2 ^ (nbits n - 1) ≤ n ∧ n < 2 ^ nbits n :=
  nbitsAux_correct n n le_rfl h0

theorem cast_pow_toNat (t : Int) (h : 0 ≤ t) : ((2 ^ t.toNat : Nat) : ℚ) = (2 : ℚ) ^ t := by
  calc ((2 ^ t.toNat : Nat) : ℚ) = (2:ℚ) ^ t.toNat := by push_cast; ring
    _ = (2:ℚ) ^ (t.toNat : ℤ) := (zpow_natCast _ _).symm
    _ = (2:ℚ) ^ t := by rw [Int.toNat_of_nonneg h]

/-- From the Boolean test `2^t ≤ a/b` to the rational inequality. -/
theorem pow2LE_le (t : Int) (a b : Nat) (h : pow2LE t a b = true) :
    (2 : ℚ) ^ t * b ≤ a := by
  unfold pow2LE at h
  by_cases ht : 0 ≤ t
  · rw [if_pos ht, decide_eq_true_eq] at h
    have hq : ((b : ℚ)) * ((2 ^ t.toNat : Nat) : ℚ) ≤ (a : ℚ) := by exact_mod_cast h
    rw [cast_pow_toNat t ht] at hq
    calc (2:ℚ) ^ t * b = (b:ℚ) * (2:ℚ) ^ t := by ring
      _ ≤ a := hq
  · rw [if_neg ht, decide_eq_true_eq] at h
    have ht' : (0:ℤ) ≤ -t := by omega
    have hq : (b : ℚ) ≤ (a : ℚ) * ((2 ^ (-t).toNat : Nat) : ℚ) := by exact_mod_cast h
    rw [cast_pow_toNat _ ht'] at hq
    have hpt : (0:ℚ) < (2:ℚ) ^ t := zpow_pos (by norm_num) _
    have hinv : (2:ℚ) ^ t * (2:ℚ) ^ (-t) = 1 := by
      rw [← zpow_add₀ (by norm_num : (2:ℚ) ≠ 0)]
      simp
    have h2 := mul_le_mul_of_nonneg_left hq (le_of_lt hpt)
    calc (2:ℚ) ^ t * (b:ℚ) ≤ (2:ℚ) ^ t * ((a:ℚ) * (2:ℚ) ^ (-t)) := h2
      _ = (a:ℚ) * ((2:ℚ) ^ t * (2:ℚ) ^ (-t)) := by ring
      _ = a := by rw [hinv, mul_one]

/-- The chosen exponent satisfies the lower characterisation `2^t ≤ a/b`. -/
theorem texp_pow2LE (a b : Nat) (ha : 0 < a) (hb : 0 < b) :
    pow2LE (texp a b) a b = true := by
  unfold texp
  by_cases h : pow2LE ((nbits a : Int) - (nbits b : Int)) a b
  · rw [if_pos h]
    exact h
  · rw [if_neg h]
    obtain ⟨ha1, ha2⟩ := nbits_correct a ha
    obtain ⟨hb1, hb2⟩ := nbits_correct b hb
    have hna : 1 ≤ nbits a := by
      by_contra hc
      have hz : nbits a = 0 := by omega
      rw [hz] at ha2
      simp at ha2
      omega
    have hnb : 1 ≤ nbits b := by
      by_contra hc
      have hz : nbits b = 0 := by omega
      rw [hz] at hb2
      simp at hb2
      omega
    unfold pow2LE
    by_cases hs : (0:ℤ) ≤ (nbits a : Int) - (nbits b : Int) - 1
    · rw [if_pos hs, decide_eq_true_eq]
      have htn : ((nbits a : Int) - (nbits b : Int) - 1).toNat = nbits a - nbits b - 1 := by
        omega
      rw [htn]
      have hkey : (2:Nat) ^ (nbits b) * 2 ^ (nbits a - nbits b - 1) = 2 ^ (nbits a - 1) := by
        rw [← pow_add]
        congr 1
        omega
      have hlt : b * 2 ^ (nbits a - nbits b - 1) < 2 ^ (nbits b) * 2 ^ (nbits a - nbits b - 1) :=
        mul_lt_mul_of_pos_right hb2 (pow_pos (by norm_num) _)
      omega
    · rw [if_neg hs, decide_eq_true_eq]
      have htn : (-((nbits a : Int) - (nbits b : Int) - 1)).toNat = nbits b + 1 - nbits a := by
        omega
      rw [htn]
      have hkey : (2:Nat) ^ (nbits a - 1) * 2 ^ (nbits b + 1 - nbits a) = 2 ^ (nbits b) := by
        rw [← pow_add]
        congr 1
        omega
      have hle : (2:Nat) ^ (nbits a - 1) * 2 ^ (nbits b + 1 - nbits a)
          ≤ a * 2 ^ (nbits b + 1 - nbits a) :=
        Nat.mul_le_mul_right _ ha1
      omega

theorem texp_le (a b : Nat) (ha : 0 < a) (hb : 0 < b) :
    (2 : ℚ) ^ texp a b * b ≤ a :=
  pow2LE_le _ _ _ (texp_pow2LE a b ha hb)

/-- Rounding to the nearest integer moves a fraction by at most one half. -/
theorem roundNE_err (A B : Nat) (hB : 0 < B) :
    |((roundNE A B : Nat) : ℚ) - (A : ℚ) / B| ≤ 1 / 2 := by
  have hBq : (0:ℚ) < (B:ℚ) := by exact_mod_cast hB
  have hmod : (A:ℚ) = (B:ℚ) * ((A / B : Nat) : ℚ) + ((A % B : Nat) : ℚ) := by
    exact_mod_cast (Nat.div_add_mod A B).symm
  have hsplit : (A:ℚ) / B = ((A / B : Nat) : ℚ) + ((A % B : Nat) : ℚ) / B := by
    field_simp
    linear_combination hmod
  have hrlt : ((A % B : Nat) : ℚ) < B := by exact_mod_cast Nat.mod_lt _ hB
  have hr0 : (0:ℚ) ≤ ((A % B : Nat) : ℚ) := by positivity
  simp only [roundNE]
  by_cases h1 : 2 * (A % B) < B
  · rw [if_pos h1, hsplit]
    have h1q : (2:ℚ) * ((A % B : Nat) : ℚ) ≤ B := by exact_mod_cast Nat.le_of_lt h1
    have hdb : ((A % B : Nat) : ℚ) / B ≤ 1/2 := by
      rw [div_le_iff₀ hBq]
      linarith
    have hdb0 : (0:ℚ) ≤ ((A % B : Nat) : ℚ) / B := by positivity
    rw [abs_le]
    constructor <;> linarith
  · rw [if_neg h1]
    by_cases h2 : B < 2 * (A % B)
    · rw [if_pos h2, hsplit]
      push_cast
      have h2q : (B:ℚ) ≤ 2 * ((A % B : Nat) : ℚ) := by exact_mod_cast Nat.le_of_lt h2
      have hdb : (1:ℚ)/2 ≤ ((A % B : Nat) : ℚ) / B := by
        rw [le_div_iff₀ hBq]
        linarith
      have hdb1 : ((A % B : Nat) : ℚ) / B < 1 := by
        rw [div_lt_one hBq]
        exact hrlt
      rw [abs_le]
      constructor <;> linarith
    · have heq : 2 * (A % B) = B := by omega
      have heqq : (2:ℚ) * ((A % B : Nat) : ℚ) = B := by exact_mod_cast heq
      have hdb : ((A % B : Nat) : ℚ) / B = 1/2 := by
        rw [div_eq_iff (ne_of_gt hBq)]
        linarith
      rw [if_neg h2]
      by_cases h3 : A / B % 2 = 0
      · rw [if_pos h3, hsplit, hdb]
        rw [abs_le]
        constructor <;> linarith
      · rw [if_neg h3, hsplit, hdb]
        push_cast
        rw [abs_le]
        constructor <;> linarith

/-- 53-bit rounding has relative error at most `2^(−53)`. -/
theorem frac53_err (a b : Nat) (ha : 0 < a) (hb : 0 < b) :
    |f64Val (frac53 a b) - (a : ℚ) / b| ≤ ((a : ℚ) / b) / 2 ^ 53 := by
  have hbq : (0:ℚ) < (b:ℚ) := by exact_mod_cast hb
  have htle : (2:ℚ) ^ texp a b * b ≤ a := texp_le a b ha hb
  have htq : (2:ℚ) ^ texp a b ≤ (a:ℚ) / b := by
    rw [le_div_iff₀ hbq]
    exact htle
  have key : ∀ A B : Nat, 0 < B →
      (A : ℚ) / B = (a : ℚ) / b * (2:ℚ) ^ ((52:ℤ) - texp a b) →
      |f64Val (roundNE A B, texp a b - 52) - (a:ℚ)/b| ≤ ((a:ℚ)/b) / 2 ^ 53 := by
    intro A B hB hAB
    have h1 := roundNE_err A B hB
    have hpow : (0:ℚ) < (2:ℚ) ^ (texp a b - 52) := zpow_pos (by norm_num) _
    have h2 : |((roundNE A B : Nat) : ℚ) - (A:ℚ)/B| * (2:ℚ) ^ (texp a b - 52)
        ≤ (1/2) * (2:ℚ) ^ (texp a b - 52) :=
      mul_le_mul_of_nonneg_right h1 (le_of_lt hpow)
    have h3 : (A:ℚ)/B * (2:ℚ) ^ (texp a b - 52) = (a:ℚ)/b := by
      rw [hAB, mul_assoc, ← zpow_add₀ (by norm_num : (2:ℚ) ≠ 0)]
      have he : (52:ℤ) - texp a b + (texp a b - 52) = 0 := by ring
      rw [he, zpow_zero, mul_one]
    have h4 : f64Val (roundNE A B, texp a b - 52)
        = ((roundNE A B : Nat) : ℚ) * (2:ℚ) ^ (texp a b - 52) := rfl
    have h5 : |((roundNE A B : Nat) : ℚ) * (2:ℚ) ^ (texp a b - 52) - (a:ℚ)/b|
        = |((roundNE A B : Nat) : ℚ) - (A:ℚ)/B| * (2:ℚ) ^ (texp a b - 52) := by
      rw [← h3, ← sub_mul, abs_mul, abs_of_pos hpow]
    rw [h4, h5]
    refine le_trans h2 ?_
    have h6 : (1/2 : ℚ) * (2:ℚ) ^ (texp a b - 52) = (2:ℚ) ^ (texp a b - 53) := by
      have he : texp a b - 52 = 1 + (texp a b - 53) := by ring
      rw [he, zpow_add₀ (by norm_num : (2:ℚ) ≠ 0), zpow_one]
      ring
    rw [h6]
    have h7 : (2:ℚ) ^ (texp a b - 53) = (2:ℚ) ^ texp a b * (2:ℚ) ^ (-53 : ℤ) := by
      rw [show texp a b - 53 = texp a b + (-53 : ℤ) by ring,
        zpow_add₀ (by norm_num : (2:ℚ) ≠ 0)]
    have h8 : ((a:ℚ)/b) / 2 ^ 53 = ((a:ℚ)/b) * (2:ℚ) ^ (-53 : ℤ) := by
      rw [zpow_neg, div_eq_mul_inv]
      congr 1
      rw [← zpow_natCast (2:ℚ) 53]
      norm_num
    rw [h7, h8]
    exact mul_le_mul_of_nonneg_right htq (le_of_lt (zpow_pos (by norm_num) _))
  unfold frac53
  by_cases ht : (52:ℤ) ≤ texp a b
  · rw [if_pos ht]
    apply key
    · exact Nat.mul_pos hb (pow_pos (by norm_num) _)
    · have h52 : (0:ℤ) ≤ texp a b - 52 := by omega
      push_cast [cast_pow_toNat _ h52]
      rw [← div_div, div_eq_mul_inv ((a:ℚ)/b), ← zpow_neg,
        show -(texp a b - 52) = (52:ℤ) - texp a b by ring]
  · rw [if_neg ht]
    apply key
    · exact hb
    · have h52 : (0:ℤ) ≤ 52 - texp a b := by omega
      push_cast [cast_pow_toNat _ h52]
      rw [mul_div_right_comm]

/-- The exponent shift `(m, e + E)` scales the value by `2^E`. -/
theorem froundFrac_err (a b : Nat) (E : Int) (hb : 0 < b) :
    |f64Val (froundFrac a b E) - (a : ℚ) / b * (2:ℚ) ^ E|
      ≤ ((a : ℚ) / b * (2:ℚ) ^ E) / 2 ^ 53 := by
  by_cases ha : a = 0
  · subst ha
    simp [froundFrac, f64Val]
  · have hpos := Nat.pos_of_ne_zero ha
    have h := frac53_err a b hpos hb
    unfold froundFrac
    rw [if_neg ha]
    have hE : f64Val ((frac53 a b).1, (frac53 a b).2 + E) = f64Val (frac53 a b) * (2:ℚ)^E := by
      simp only [f64Val]
      rw [zpow_add₀ (by norm_num : (2:ℚ) ≠ 0)]
      ring
    rw [hE]
    have hpow : (0:ℚ) < (2:ℚ)^E := zpow_pos (by norm_num) _
    calc |f64Val (frac53 a b) * (2:ℚ)^E - (a:ℚ)/b * (2:ℚ)^E|
        = |f64Val (frac53 a b) - (a:ℚ)/b| * (2:ℚ)^E := by
          rw [← sub_mul, abs_mul, abs_of_pos hpow]
      _ ≤ (((a:ℚ)/b) / 2^53) * (2:ℚ)^E := mul_le_mul_of_nonneg_right h (le_of_lt hpow)
      _ = ((a:ℚ)/b * (2:ℚ)^E) / 2^53 := by ring

/-- `usize as f64` has relative error at most `2^(−53)`. -/
theorem fofNat_err (n : Nat) : |f64Val (fofNat n) - n| ≤ (n : ℚ) / 2 ^ 53 := by
  have h := froundFrac_err n 1 0 one_pos
  simpa using h

theorem f64Val_nonneg (x : F64) : 0 ≤ f64Val x := by
  unfold f64Val
  positivity

/-- The double of a positive natural has a positive mantissa. -/
theorem fofNat_mpos (n : Nat) (hn : 0 < n) : 0 < (fofNat n).1 := by
  by_contra hc
  have h0 : (fofNat n).1 = 0 := by omega
  have hval : f64Val (fofNat n) = 0 := by
    unfold f64Val
    rw [h0]
    simp
  have herr := fofNat_err n
  rw [hval] at herr
  have habs : |(0:ℚ) - (n:ℚ)| = (n:ℚ) := by
    rw [zero_sub, abs_neg, abs_of_nonneg (by positivity)]
  rw [habs] at herr
  have hq : (1:ℚ) ≤ (n:ℚ) := by exact_mod_cast hn
  have h2 := (le_div_iff₀ (by norm_num : (0:ℚ) < 2^53)).1 herr
  nlinarith [hq, h2]

/-- A relative error bound of `2^(−53)` confines the value to a
`(1 ± 2^(−53))` band. -/
theorem err_interval {v e : ℚ} (_he : 0 ≤ e) (h : |v - e| ≤ e / 2 ^ 53) :
    e * (1 - 1/2^53) ≤ v ∧ v ≤ e * (1 + 1/2^53) := by
  rw [abs_le] at h
  constructor <;> linarith [h.1, h.2]

/-- `f64` multiplication has relative error at most `2^(−53)`. -/
theorem fmul_err (x y : F64) :
    |f64Val (fmul x y) - f64Val x * f64Val y| ≤ (f64Val x * f64Val y) / 2 ^ 53 := by
  have h := froundFrac_err (x.1 * y.1) 1 (x.2 + y.2) one_pos
  have hval : ((x.1 * y.1 : Nat) : ℚ) / ((1 : Nat) : ℚ) * (2:ℚ) ^ (x.2 + y.2)
      = f64Val x * f64Val y := by
    simp only [f64Val]
    push_cast
    rw [zpow_add₀ (by norm_num : (2:ℚ) ≠ 0)]
    ring
  rw [hval] at h
  exact h

/-- `f64` division has relative error at most `2^(−53)`. -/
theorem fdiv_err (x y : F64) (hy : 0 < y.1) :
    |f64Val (fdiv x y) - f64Val x / f64Val y| ≤ (f64Val x / f64Val y) / 2 ^ 53 := by
  have h := froundFrac_err x.1 y.1 (x.2 - y.2) hy
  have hyq : (0:ℚ) < (y.1 : ℚ) := by exact_mod_cast hy
  have h1 : ((y.1:ℚ)) ≠ 0 := ne_of_gt hyq
  have h2 : (2:ℚ) ^ y.2 ≠ 0 := zpow_ne_zero _ (by norm_num)
  have hval : (x.1 : ℚ) / (y.1 : ℚ) * (2:ℚ) ^ (x.2 - y.2) = f64Val x / f64Val y := by
    simp only [f64Val]
    rw [zpow_sub₀ (by norm_num : (2:ℚ) ≠ 0)]
    field_simp
  rw [hval] at h
  exact h

/-- Truncation toward zero is the floor: it never exceeds the value. -/
theorem f64toUsize_le (x : F64) : ((f64toUsize x : Nat) : ℚ) ≤ f64Val x := by
  unfold f64toUsize f64Val
  by_cases he : 0 ≤ x.2
  · rw [if_pos he]
    refine le_of_eq ?_
    push_cast [cast_pow_toNat _ he]
    ring
  · rw [if_neg he]
    have hk : (0:ℤ) ≤ -x.2 := by omega
    have hdivle : ((x.1 / 2 ^ (-x.2).toNat : Nat) : ℚ) * ((2 ^ (-x.2).toNat : Nat) : ℚ)
        ≤ (x.1 : ℚ) := by
      exact_mod_cast Nat.div_mul_le_self x.1 _
    rw [cast_pow_toNat _ hk] at hdivle
    have hWq : (0:ℚ) < (2:ℚ) ^ (-x.2) := zpow_pos (by norm_num) _
    have hxe : (x.1 : ℚ) * (2:ℚ) ^ x.2 = (x.1 : ℚ) / (2:ℚ) ^ (-x.2) := by
      rw [div_eq_mul_inv, ← zpow_neg]
      norm_num
    rw [hxe]
    exact (le_div_iff₀ hWq).2 hdivle

/-- Truncation toward zero is the floor: the value is below the successor. -/
theorem lt_f64toUsize_succ (x : F64) : f64Val x < ((f64toUsize x : Nat) : ℚ) + 1 := by
  unfold f64toUsize f64Val
  by_cases he : 0 ≤ x.2
  · rw [if_pos he]
    push_cast [cast_pow_toNat _ he]
    linarith [le_of_eq (rfl : (x.1:ℚ) * (2:ℚ)^x.2 = (x.1:ℚ) * (2:ℚ)^x.2)]
  · rw [if_neg he]
    have hk : (0:ℤ) ≤ -x.2 := by omega
    have hWpos : (0:Nat) < 2 ^ (-x.2).toNat := pow_pos (by norm_num) _
    have hlt : x.1 < (x.1 / 2 ^ (-x.2).toNat + 1) * 2 ^ (-x.2).toNat := by
      have hdm := Nat.div_add_mod x.1 (2 ^ (-x.2).toNat)
      have hml := Nat.mod_lt x.1 hWpos
      calc x.1 = 2 ^ (-x.2).toNat * (x.1 / 2 ^ (-x.2).toNat) + x.1 % 2 ^ (-x.2).toNat :=
            hdm.symm
        _ < 2 ^ (-x.2).toNat * (x.1 / 2 ^ (-x.2).toNat) + 2 ^ (-x.2).toNat := by omega
        _ = (x.1 / 2 ^ (-x.2).toNat + 1) * 2 ^ (-x.2).toNat := by ring
    have hq : (x.1 : ℚ)
        < (((x.1 / 2 ^ (-x.2).toNat : Nat) : ℚ) + 1) * ((2 ^ (-x.2).toNat : Nat) : ℚ) := by
      exact_mod_cast hlt
    rw [cast_pow_toNat _ hk] at hq
    have hWq : (0:ℚ) < (2:ℚ) ^ (-x.2) := zpow_pos (by norm_num) _
    have hxe : (x.1 : ℚ) * (2:ℚ) ^ x.2 = (x.1 : ℚ) / (2:ℚ) ^ (-x.2) := by
      rw [div_eq_mul_inv, ← zpow_neg]
      norm_num
    rw [hxe, div_lt_iff₀ hWq]
    linarith

/-- The `f64`-computed percentile index: in bounds, and within
`(n−1)/2^50 + 1` of the exact nearest-rank index. -/
theorem floatIndex_close (p : F64) (pe : ℚ) (n : Nat) (_hn : 1 ≤ n)
    (hpe0 : 0 ≤ pe)
    (hlo : pe * (1 - 1/2^53) ≤ f64Val p) (hhi : f64Val p ≤ pe * (1 + 1/2^53))
    (hub : pe * ((1 + 1/2^53) * (1 + 1/2^53) * (1 + 1/2^53)) ≤ 1) :
    floatIndex p n ≤ n - 1
    ∧ |((floatIndex p n : Nat) : ℚ) - pe * ((n - 1 : Nat) : ℚ)|
        ≤ ((n - 1 : Nat) : ℚ) / 2 ^ 50 + 1 := by
  have hN0 : (0:ℚ) ≤ ((n - 1 : Nat) : ℚ) := by positivity
  have hF := err_interval hN0 (fofNat_err (n - 1))
  obtain ⟨hF1, hF2⟩ := hF
  have hFv0 : 0 ≤ f64Val (fofNat (n - 1)) := f64Val_nonneg _
  have hP0 : 0 ≤ f64Val p := f64Val_nonneg p
  have hPF0 : 0 ≤ f64Val p * f64Val (fofNat (n - 1)) := mul_nonneg hP0 hFv0
  have hM := err_interval hPF0 (fmul_err p (fofNat (n - 1)))
  obtain ⟨hM1, hM2⟩ := hM
  have hup : f64Val (fmul p (fofNat (n - 1)))
      ≤ pe * ((n - 1 : Nat) : ℚ) * ((1 + 1/2^53) * (1 + 1/2^53) * (1 + 1/2^53)) := by
    have s1 : f64Val p * f64Val (fofNat (n-1))
        ≤ (pe * (1 + 1/2^53)) * (((n - 1 : Nat) : ℚ) * (1 + 1/2^53)) :=
      mul_le_mul hhi hF2 hFv0 (by nlinarith [hpe0])
    have s2 : (f64Val p * f64Val (fofNat (n-1))) * (1 + 1/2^53)
        ≤ ((pe * (1 + 1/2^53)) * (((n - 1 : Nat) : ℚ) * (1 + 1/2^53))) * (1 + 1/2^53) :=
      mul_le_mul_of_nonneg_right s1 (by norm_num)
    calc f64Val (fmul p (fofNat (n - 1)))
        ≤ (f64Val p * f64Val (fofNat (n-1))) * (1 + 1/2^53) := hM2
      _ ≤ ((pe * (1 + 1/2^53)) * (((n - 1 : Nat) : ℚ) * (1 + 1/2^53))) * (1 + 1/2^53) := s2
      _ = pe * ((n - 1 : Nat) : ℚ) * ((1 + 1/2^53) * (1 + 1/2^53) * (1 + 1/2^53)) := by ring
  have hlow : pe * ((n - 1 : Nat) : ℚ) * ((1 - 1/2^53) * (1 - 1/2^53) * (1 - 1/2^53))
      ≤ f64Val (fmul p (fofNat (n - 1))) := by
    have s1 : (pe * (1 - 1/2^53)) * (((n - 1 : Nat) : ℚ) * (1 - 1/2^53))
        ≤ f64Val p * f64Val (fofNat (n-1)) :=
      mul_le_mul hlo hF1 (by nlinarith [hN0]) hP0
    have s2 : ((pe * (1 - 1/2^53)) * (((n - 1 : Nat) : ℚ) * (1 - 1/2^53))) * (1 - 1/2^53)
        ≤ (f64Val p * f64Val (fofNat (n-1))) * (1 - 1/2^53) :=
      mul_le_mul_of_nonneg_right s1 (by norm_num)
    calc pe * ((n - 1 : Nat) : ℚ) * ((1 - 1/2^53) * (1 - 1/2^53) * (1 - 1/2^53))
        = ((pe * (1 - 1/2^53)) * (((n - 1 : Nat) : ℚ) * (1 - 1/2^53))) * (1 - 1/2^53) := by
          ring
      _ ≤ (f64Val p * f64Val (fofNat (n-1))) * (1 - 1/2^53) := s2
      _ ≤ f64Val (fmul p (fofNat (n - 1))) := hM1
  have hvN : f64Val (fmul p (fofNat (n - 1))) ≤ ((n - 1 : Nat) : ℚ) := by
    calc f64Val (fmul p (fofNat (n - 1)))
        ≤ pe * ((n - 1 : Nat) : ℚ) * ((1 + 1/2^53) * (1 + 1/2^53) * (1 + 1/2^53)) := hup
      _ = (pe * ((1 + 1/2^53) * (1 + 1/2^53) * (1 + 1/2^53))) * ((n - 1 : Nat) : ℚ) := by
          ring
      _ ≤ 1 * ((n - 1 : Nat) : ℚ) := mul_le_mul_of_nonneg_right hub hN0
      _ = ((n - 1 : Nat) : ℚ) := one_mul _
  have hidxle : ((floatIndex p n : Nat) : ℚ) ≤ ((n - 1 : Nat) : ℚ) := by
    unfold floatIndex
    exact le_trans (f64toUsize_le _) hvN
  have hb1 : floatIndex p n ≤ n - 1 := by exact_mod_cast hidxle
  have hpe1 : pe ≤ 1 := by
    have hc : (1:ℚ) ≤ (1+1/2^53)*(1+1/2^53)*(1+1/2^53) := by norm_num
    calc pe = pe * 1 := (mul_one pe).symm
      _ ≤ pe * ((1+1/2^53)*(1+1/2^53)*(1+1/2^53)) := mul_le_mul_of_nonneg_left hc hpe0
      _ ≤ 1 := hub
  have hcube_up : ((1:ℚ)+1/2^53)*(1+1/2^53)*(1+1/2^53) ≤ 1 + 1/2^50 := by norm_num
  have hcube_lo : (1:ℚ) - 1/2^50 ≤ (1-1/2^53)*(1-1/2^53)*(1-1/2^53) := by norm_num
  have hpeN0 : 0 ≤ pe * ((n - 1 : Nat) : ℚ) := mul_nonneg hpe0 hN0
  refine ⟨hb1, ?_⟩
  rw [abs_le]
  constructor
  · have hgt : f64Val (fmul p (fofNat (n - 1))) - 1 < ((floatIndex p n : Nat) : ℚ) := by
      have hsucc := lt_f64toUsize_succ (fmul p (fofNat (n - 1)))
      unfold floatIndex
      linarith
    have hA : pe * ((n - 1 : Nat) : ℚ) * (1 - 1/2^50) ≤ f64Val (fmul p (fofNat (n - 1))) := by
      calc pe * ((n - 1 : Nat) : ℚ) * (1 - 1/2^50)
          ≤ pe * ((n - 1 : Nat) : ℚ) * ((1-1/2^53)*(1-1/2^53)*(1-1/2^53)) :=
            mul_le_mul_of_nonneg_left hcube_lo hpeN0
        _ ≤ f64Val (fmul p (fofNat (n - 1))) := hlow
    have hB : pe * ((n - 1 : Nat) : ℚ) - ((n - 1 : Nat) : ℚ) / 2^50
        ≤ pe * ((n - 1 : Nat) : ℚ) * (1 - 1/2^50) := by
      nlinarith [hpe1, hN0, hpe0]
    linarith
  · have hle : ((floatIndex p n : Nat) : ℚ) ≤ f64Val (fmul p (fofNat (n - 1))) := by
      unfold floatIndex
      exact f64toUsize_le _
    have hA : f64Val (fmul p (fofNat (n - 1))) ≤ pe * ((n - 1 : Nat) : ℚ) * (1 + 1/2^50) := by
      calc f64Val (fmul p (fofNat (n - 1)))
          ≤ pe * ((n - 1 : Nat) : ℚ) * ((1+1/2^53)*(1+1/2^53)*(1+1/2^53)) := hup
        _ ≤ pe * ((n - 1 : Nat) : ℚ) * (1 + 1/2^50) :=
            mul_le_mul_of_nonneg_left hcube_up hpeN0
    have hB : pe * ((n - 1 : Nat) : ℚ) * (1 + 1/2^50)
        ≤ pe * ((n - 1 : Nat) : ℚ) + ((n - 1 : Nat) : ℚ) / 2^50 := by
      nlinarith [hpe1, hN0, hpe0]
    linarith

/-- The `f64` mean of the sum of `n` samples stays within relative `2^(−50)`
of the exact mean. -/
theorem fdivNat_bounds (S n : Nat) (hn : 0 < n) :
    (S : ℚ) / (n : ℚ) * (1 - 1/2^50) ≤ f64Val (fdiv (fofNat S) (fofNat n))
    ∧ f64Val (fdiv (fofNat S) (fofNat n)) ≤ (S : ℚ) / (n : ℚ) * (1 + 1/2^50) := by
  have hnq : (0:ℚ) < (n:ℚ) := by exact_mod_cast hn
  have hn1 : (1:ℚ) ≤ (n:ℚ) := by exact_mod_cast hn
  have hS0 : (0:ℚ) ≤ (S:ℚ) := by positivity
  obtain ⟨hS1, hS2⟩ := err_interval hS0 (fofNat_err S)
  obtain ⟨hN1, hN2⟩ := err_interval (le_of_lt hnq) (fofNat_err n)
  have hb0 : (0:ℚ) < f64Val (fofNat n) := by nlinarith [hN1, hn1]
  have hd := fdiv_err (fofNat S) (fofNat n) (fofNat_mpos n hn)
  have ha0 : 0 ≤ f64Val (fofNat S) := f64Val_nonneg _
  have hquot0 : 0 ≤ f64Val (fofNat S) / f64Val (fofNat n) :=
    div_nonneg ha0 (le_of_lt hb0)
  obtain ⟨hD1, hD2⟩ := err_interval hquot0 hd
  have hq_up : f64Val (fofNat S) / f64Val (fofNat n)
      ≤ (S:ℚ) * (1+1/2^53) / ((n:ℚ) * (1-1/2^53)) :=
    div_le_div (by nlinarith [hS0]) hS2 (by nlinarith [hn1]) hN1
  have hq_lo : (S:ℚ) * (1-1/2^53) / ((n:ℚ) * (1+1/2^53))
      ≤ f64Val (fofNat S) / f64Val (fofNat n) :=
    div_le_div ha0 hS1 hb0 hN2
  constructor
  · have h1 : (S:ℚ) * (1-1/2^53) / ((n:ℚ) * (1+1/2^53)) * (1-1/2^53)
        ≤ f64Val (fdiv (fofNat S) (fofNat n)) := by
      calc (S:ℚ) * (1-1/2^53) / ((n:ℚ) * (1+1/2^53)) * (1-1/2^53)
          ≤ (f64Val (fofNat S) / f64Val (fofNat n)) * (1-1/2^53) :=
            mul_le_mul_of_nonneg_right hq_lo (by norm_num)
        _ ≤ f64Val (fdiv (fofNat S) (fofNat n)) := hD1
    have hc : ((1:ℚ) - 1/2^50) * (1 + 1/2^53) ≤ (1-1/2^53) * (1-1/2^53) := by norm_num
    have h2 : (S:ℚ)/(n:ℚ) * (1 - 1/2^50)
        ≤ (S:ℚ) * (1-1/2^53) / ((n:ℚ) * (1+1/2^53)) * (1-1/2^53) := by
      rw [div_mul_eq_mul_div, div_mul_eq_mul_div, div_le_div_iff hnq (by positivity)]
      nlinarith [mul_le_mul_of_nonneg_left hc (mul_nonneg hS0 (le_of_lt hnq))]
    linarith
  · have h1 : f64Val (fdiv (fofNat S) (fofNat n))
        ≤ (S:ℚ) * (1+1/2^53) / ((n:ℚ) * (1-1/2^53)) * (1+1/2^53) := by
      calc f64Val (fdiv (fofNat S) (fofNat n))
          ≤ (f64Val (fofNat S) / f64Val (fofNat n)) * (1+1/2^53) := hD2
        _ ≤ (S:ℚ) * (1+1/2^53) / ((n:ℚ) * (1-1/2^53)) * (1+1/2^53) :=
            mul_le_mul_of_nonneg_right hq_up (by norm_num)
    have hc : ((1:ℚ) + 1/2^53) * (1 + 1/2^53) ≤ (1 + 1/2^50) * (1 - 1/2^53) := by norm_num
    have h2 : (S:ℚ) * (1+1/2^53) / ((n:ℚ) * (1-1/2^53)) * (1+1/2^53)
        ≤ (S:ℚ)/(n:ℚ) * (1 + 1/2^50) := by
      rw [div_mul_eq_mul_div, div_mul_eq_mul_div, div_le_div_iff (by positivity) hnq]
      nlinarith [mul_le_mul_of_nonneg_left hc (mul_nonneg hS0 (le_of_lt hnq))]
    linarith

/-- The five percentile literals with the exact rationals they denote. -/
def percentileSpecs : List (F64 × ℚ) :=
  [(flit50, 50/100), (flit95, 95/100), (flit99, 99/100),
   (flit999, 999/1000), (flit9999, 9999/10000)]

theorem f64Val_neg53 (m : Nat) : f64Val (m, (-53 : Int)) = (m : ℚ) / 2 ^ 53 := by
  unfold f64Val
  rw [zpow_neg, div_eq_mul_inv]
  congr 1
  rw [← zpow_natCast (2:ℚ) 53]
  norm_num

/-- The five literals round their decimals to within relative `2^(−53)`, and
each stays below 1 even after three further roundings up. -/
theorem flit_bounds : ∀ pr ∈ percentileSpecs,
    0 ≤ pr.2
    ∧ pr.2 * (1 - 1/2^53) ≤ f64Val pr.1
    ∧ f64Val pr.1 ≤ pr.2 * (1 + 1/2^53)
    ∧ pr.2 * ((1 + 1/2^53) * (1 + 1/2^53) * (1 + 1/2^53)) ≤ 1 := by
  intro pr hpr
  have h50 : flit50 = (4503599627370496, (-53 : Int)) := by decide
  have h95 : flit95 = (8556839292003942, (-53 : Int)) := by decide
  have h99 : flit99 = (8917127262193582, (-53 : Int)) := by decide
  have h999 : flit999 = (8998192055486251, (-53 : Int)) := by decide
  have h9999 : flit9999 = (9006298534815518, (-53 : Int)) := by decide
  simp only [percentileSpecs, List.mem_cons, List.not_mem_nil, or_false] at hpr
  rcases hpr with rfl | rfl | rfl | rfl | rfl
  · rw [h50, f64Val_neg53]
    norm_num
  · rw [h95, f64Val_neg53]
    norm_num
  · rw [h99, f64Val_neg53]
    norm_num
  · rw [h999, f64Val_neg53]
    norm_num
  · rw [h9999, f64Val_neg53]
    norm_num

/-- C9 (amended).  The latency tracker's summary (`precentiles`) returns
`none` exactly when no samples were recorded; otherwise, with `sorted` the
ascending sorted permutation of the buffer, `min`/`max` are the least and
greatest samples; each percentile field p ∈ {0.50, 0.95, 0.99, 0.999, 0.9999}
is the sorted sample at the `f64`-computed index `(p * (n−1) as f64) as
usize` — an index that is always in bounds and within `(n−1)/2^50 + 1` of the
spec's nearest-rank index `⌊p·(n−1)⌋`, but not always equal to it — so every
percentile is itself a sample; and the mean is the `f64` quotient of the
wrapping `u64` sum by `n`, within relative `2^(−50)` of the exact arithmetic
mean whenever the sum does not wrap, but not in general equal to it. -/
theorem C9_latency_summary (samples : List Nat) :
    (precentiles samples = none ↔ samples = [])
    ∧ (∀ P, precentiles samples = some P →
        ∃ sorted, sorted.Perm samples ∧ List.Sorted (· ≤ ·) sorted
          ∧ (P.min ∈ samples ∧ ∀ x ∈ samples, P.min ≤ x)
          ∧ (P.max ∈ samples ∧ ∀ x ∈ samples, x ≤ P.max)
          ∧ P.mean = fdiv (fofNat (samples.sum % 2 ^ 64)) (fofNat samples.length)
          ∧ (samples.sum < 2 ^ 64 →
              (samples.sum : ℚ) / (samples.length : ℚ) * (1 - 1/2^50) ≤ f64Val P.mean
              ∧ f64Val P.mean ≤ (samples.sum : ℚ) / (samples.length : ℚ) * (1 + 1/2^50))
          ∧ P.p50 = sorted.getD (floatIndex flit50 samples.length) 0
          ∧ P.p95 = sorted.getD (floatIndex flit95 samples.length) 0
          ∧ P.p99 = sorted.getD (floatIndex flit99 samples.length) 0
          ∧ P.p999 = sorted.getD (floatIndex flit999 samples.length) 0
          ∧ P.p9999 = sorted.getD (floatIndex flit9999 samples.length) 0
          ∧ (∀ pr ∈ percentileSpecs,
              floatIndex pr.1 samples.length < samples.length
              ∧ |((floatIndex pr.1 samples.length : Nat) : ℚ)
                    - pr.2 * ((samples.length - 1 : Nat) : ℚ)|
                  ≤ ((samples.length - 1 : Nat) : ℚ) / 2 ^ 50 + 1)
          ∧ P.p50 ∈ samples ∧ P.p95 ∈ samples ∧ P.p99 ∈ samples
          ∧ P.p999 ∈ samples ∧ P.p9999 ∈ samples) := by
  constructor
  · unfold precentiles
    by_cases he : samples.isEmpty
    · simp [he, List.isEmpty_iff.1 he]
    · simp only [if_neg he]
      simp only [List.isEmpty_iff] at he
      simp [he]
  · intro P hP
    unfold precentiles at hP
    by_cases he : samples.isEmpty
    · simp [he] at hP
    · simp only [if_neg he] at hP
      simp only [List.isEmpty_iff] at he
      have hn : 1 ≤ samples.length := by
        cases samples with
        | nil => exact absurd rfl he
        | cons a l => simp
      set sorted := samples.insertionSort (fun a b => a ≤ b) with hsorted
      have hperm : sorted.Perm samples := List.perm_insertionSort _ _
      have hsort : List.Sorted (fun a b => a ≤ b) sorted := List.sorted_insertionSort _ _
      have hlen : sorted.length = samples.length := hperm.length_eq
      have hne : sorted ≠ [] := by
        intro hcon
        rw [hcon] at hlen
        simp at hlen
        omega
      obtain ⟨hd, tl, hcons⟩ := List.exists_cons_of_ne_nil hne
      have hPval := hP
      simp only [Option.some.injEq] at hPval
      subst hPval
      have hclose : ∀ pr ∈ percentileSpecs,
          floatIndex pr.1 samples.length < samples.length
          ∧ |((floatIndex pr.1 samples.length : Nat) : ℚ)
                - pr.2 * ((samples.length - 1 : Nat) : ℚ)|
              ≤ ((samples.length - 1 : Nat) : ℚ) / 2 ^ 50 + 1 := by
        intro pr hpr
        obtain ⟨hb0, hb1, hb2, hb3⟩ := flit_bounds pr hpr
        obtain ⟨hc1, hc2⟩ := floatIndex_close pr.1 pr.2 samples.length hn hb0 hb1 hb2 hb3
        exact ⟨by omega, hc2⟩
      have hmem : ∀ idx, idx < samples.length → sorted.getD idx 0 ∈ samples := by
        intro idx hidx
        have hidx' : idx < sorted.length := by rw [hlen]; exact hidx
        rw [List.getD_eq_getElem sorted 0 hidx']
        exact hperm.mem_iff.1 (sorted.getElem_mem hidx')
      refine ⟨sorted, hperm, hsort, ?_, ?_, rfl, ?_, ?_, ?_, ?_, ?_, ?_, hclose,
        ?_, ?_, ?_, ?_, ?_⟩
      · constructor
        · have hh : sorted.getD 0 0 = hd := by rw [hcons]; rfl
          simp only [hh]
          exact hperm.mem_iff.1 (by rw [hcons]; exact List.mem_cons_self _ _)
        · intro x hx
          have hxs : x ∈ sorted := hperm.mem_iff.2 hx
          have hh : sorted.getD 0 0 = hd := by rw [hcons]; rfl
          simp only [hh]
          rw [hcons] at hxs hsort
          rcases List.mem_cons.1 hxs with rfl | hxr
          · exact le_refl x
          · exact List.rel_of_sorted_cons hsort x hxr
      · constructor
        · have hidx : sorted.length - 1 < sorted.length := by omega
          rw [List.getD_eq_getElem sorted 0 hidx]
          exact hperm.mem_iff.1 (sorted.getElem_mem hidx)
        · intro x hx
          have hxs : x ∈ sorted := hperm.mem_iff.2 hx
          obtain ⟨i, hi, hix⟩ := List.getElem_of_mem hxs
          have hidx : sorted.length - 1 < sorted.length := by omega
          rw [List.getD_eq_getElem sorted 0 hidx]
          rcases lt_or_eq_of_le (Nat.le_of_lt_succ (by omega : i < sorted.length - 1 + 1))
            with hlt | heq
          · have := List.Sorted.rel_get_of_lt hsort
              (a := ⟨i, hi⟩) (b := ⟨sorted.length - 1, hidx⟩) (by simpa using hlt)
            simpa [hix] using this
          · subst heq
            simp [← hix]
      · intro hw
        have hmod : samples.sum % 2 ^ 64 = samples.sum := Nat.mod_eq_of_lt hw
        dsimp only
        rw [hmod]
        exact fdivNat_bounds samples.sum samples.length (by omega)
      · simp only [percentile_at, hlen]
      · simp only [percentile_at, hlen]
      · simp only [percentile_at, hlen]
      · simp only [percentile_at, hlen]
      · simp only [percentile_at, hlen]
      · simp only [percentile_at, hlen]
        exact hmem _ (hclose (flit50, 50/100) (by simp [percentileSpecs])).1
      · simp only [percentile_at, hlen]
        exact hmem _ (hclose (flit95, 95/100) (by simp [percentileSpecs])).1
      · simp only [percentile_at, hlen]
        exact hmem _ (hclose (flit99, 99/100) (by simp [percentileSpecs])).1
      · simp only [percentile_at, hlen]
        exact hmem _ (hclose (flit999, 999/1000) (by simp [percentileSpecs])).1
      · simp only [percentile_at, hlen]
        exact hmem _ (hclose (flit9999, 9999/10000) (by simp [percentileSpecs])).1

set_option maxRecDepth 100000 in
/-- C9 counterexample.  The `f64` arithmetic visibly diverges from the exact
arithmetic the original claim states: the summary of the buffer [1, 1, 2]
reports the double nearest 4/3 as mean, which is not the arithmetic mean 4/3;
and at p = 0.9999 with n − 1 = 10^13 + 1 sorted samples minus one the
`f64`-computed percentile index is 9999000000001, one above the nearest-rank
index ⌊p·(n−1)⌋ = 9999000000000. -/
theorem C9_counterexample :
    (precentiles [1, 1, 2]).map Percentiles.mean = some (6004799503160661, (-52 : Int))
    ∧ f64Val (6004799503160661, (-52 : Int))
        ≠ (([1, 1, 2] : List Nat).sum : ℚ) / (([1, 1, 2] : List Nat).length : ℚ)
    ∧ floatIndex flit9999 (10 ^ 13 + 2) = 9999000000001
    ∧ ⌊(9999 / 10000 : ℚ) * ((10 ^ 13 + 2 - 1 : Nat) : ℚ)⌋ = 9999000000000
    ∧ (9999000000001 : Nat) ≠ 9999000000000 := by
  refine ⟨by decide, ?_, by decide, ?_, by decide⟩
  · have hv : f64Val (6004799503160661, (-52 : Int)) = (6004799503160661 : ℚ) / 2 ^ 52 := by
      unfold f64Val
      rw [zpow_neg, div_eq_mul_inv]
      congr 1
      rw [← zpow_natCast (2:ℚ) 52]
      norm_num
    rw [hv]
    norm_num
  · have harg : ((10 ^ 13 + 2 - 1 : Nat) : ℚ) = 10 ^ 13 + 1 := by norm_num
    rw [harg, Int.floor_eq_iff]
    constructor <;> norm_num

set_option maxRecDepth 100000 in
/-- Witness for C9 at the concrete buffer [3, 1, 2] (sum 6, mean exactly 2,
all five percentile indices 1). -/
theorem C9_latency_summary_witness :
    precentiles [3, 1, 2] = some ⟨1, 3, (4503599627370496, (-51 : Int)), 2, 2, 2, 2, 2⟩
    ∧ ([3, 1, 2] : List Nat).sum < 2 ^ 64
    ∧ (([3, 1, 2] : List Nat).sum : ℚ) / (([3, 1, 2] : List Nat).length : ℚ) * (1 - 1/2^50)
        ≤ f64Val (4503599627370496, (-51 : Int))
    ∧ f64Val (4503599627370496, (-51 : Int))
        ≤ (([3, 1, 2] : List Nat).sum : ℚ) / (([3, 1, 2] : List Nat).length : ℚ) * (1 + 1/2^50)
    ∧ (1 : Nat) ∈ [3, 1, 2] ∧ (3 : Nat) ∈ [3, 1, 2] ∧ (2 : Nat) ∈ [3, 1, 2] := by
  have hpre : precentiles [3, 1, 2]
      = some ⟨1, 3, (4503599627370496, (-51 : Int)), 2, 2, 2, 2, 2⟩ := by decide
  have hsum : ([3, 1, 2] : List Nat).sum < 2 ^ 64 := by decide
  have h := (C9_latency_summary [3, 1, 2]).2 _ hpre
  obtain ⟨sorted, -, -, hmin, hmax, -, hmean, -, -, -, -, -, -, hm50, -, -, -, -⟩ := h
  obtain ⟨hlo, hhi⟩ := hmean hsum
  exact ⟨hpre, hsum, hlo, hhi, hmin.1, hmax.1, hm50⟩

/-! ## Claim C8: exact consumption and the panic branch -/

/-- The partial-resting-fill panic fires exactly when the quantity neither
covers the whole level nor lands on a whole-order (prefix-sum) boundary. -/
theorem matchOrders_none_iff (p q : Nat) (l : List Order) :
    matchOrders p q l = none ↔
      ¬(totalQuantity l ≤ q ∨ q ∈ prefixSums (l.map (fun o => o.quantity))) := by
  constructor
  · intro hnone hsat
    rcases hsat with hge | hpf
    · obtain ⟨fills, l', hsome⟩ := matchOrders_ge_total p q l hge
      rw [hsome] at hnone
      exact absurd hnone (by simp)
    · obtain ⟨fills, l', hsome⟩ := matchOrders_prefix p q l hpf
      rw [hsome] at hnone
      exact absurd hnone (by simp)
  · intro hnot
    induction l generalizing q with
    | nil =>
        exact absurd (Or.inl (by simp [totalQuantity])) hnot
    | cons o os ih =>
        have hq : q ≠ 0 := by
          intro hq0
          exact hnot (Or.inr (by simp [hq0, prefixSums]))
        by_cases hle : o.quantity ≤ q
        · have hrec : matchOrders p (q - o.quantity) os = none := by
            apply ih
            intro hc
            rcases hc with hge | hpf
            · refine hnot (Or.inl ?_)
              rw [totalQuantity_cons]
              omega
            · refine hnot (Or.inr ?_)
              simp only [List.map_cons, prefixSums, List.mem_cons, List.mem_map]
              exact Or.inr ⟨q - o.quantity, hpf, by omega⟩
          simp only [matchOrders, if_neg hq, if_pos hle, hrec]
        · simp only [matchOrders, if_neg hq, if_neg hle]

/-- SoA analogue of `matchOrders_ge_total` over the (id, quantity) columns. -/
theorem soaConsume_ge_total (p q : Nat) (pairs : List (Nat × Nat))
    (h : (pairs.map (fun e => e.2)).sum ≤ q) :
    ∃ fills k, soaConsume p q pairs = some (fills, q - (pairs.map (fun e => e.2)).sum, k) := by
  induction pairs generalizing q with
  | nil => exact ⟨[], 0, by simp [soaConsume]⟩
  | cons e rest ih =>
      obtain ⟨i, eq⟩ := e
      simp only [List.map_cons, List.sum_cons] at h ⊢
      by_cases hq : q = 0
      · subst hq
        refine ⟨[], 0, ?_⟩
        have h0 : (0 : Nat) - (eq + (rest.map (fun e => e.2)).sum) = 0 := by omega
        rw [h0]
        simp [soaConsume]
      · have hle : eq ≤ q := by omega
        obtain ⟨fills0, k0, hrec⟩ := ih (q - eq) (by omega)
        refine ⟨⟨p, eq, i⟩ :: fills0, k0 + 1, ?_⟩
        have harith : q - eq - (rest.map (fun e => e.2)).sum =
            q - (eq + (rest.map (fun e => e.2)).sum) := by omega
        rw [harith] at hrec
        simp only [soaConsume, if_neg hq, if_pos hle, hrec]

/-- SoA analogue of `matchOrders_prefix`. -/
theorem soaConsume_prefix (p q : Nat) (pairs : List (Nat × Nat))
    (h : q ∈ prefixSums (pairs.map (fun e => e.2))) :
    ∃ fills k, soaConsume p q pairs = some (fills, 0, k) := by
  induction pairs generalizing q with
  | nil =>
      simp only [List.map_nil, prefixSums, List.mem_singleton] at h
      exact ⟨[], 0, by simp [soaConsume, h]⟩
  | cons e rest ih =>
      obtain ⟨i, eq⟩ := e
      by_cases hq : q = 0
      · exact ⟨[], 0, by simp [soaConsume, hq]⟩
      · simp only [List.map_cons, prefixSums, List.mem_cons, List.mem_map] at h
        rcases h with rfl | ⟨r', hr', rfl⟩
        · exact absurd rfl hq
        · obtain ⟨fills0, k0, hrec⟩ := ih r' hr'
          refine ⟨⟨p, eq, i⟩ :: fills0, k0 + 1, ?_⟩
          have : eq + r' - eq = r' := by omega
          simp only [soaConsume, if_neg hq, if_pos (Nat.le_add_right _ _), this, hrec]

/-- Every surviving level of a dense walk is a suffix (`drop`) of the original
level: resting orders are consumed whole from the front or left untouched. -/
theorem walkLevels_levels_drop (priceOf : Nat → Nat) (is : List Nat) :
    ∀ (qty : Nat) (idx : OrderIndex) (levels : Nat → List Order) (fills : List Fill)
      (r : Nat) (lv : Nat → List Order) (ix : OrderIndex),
      walkLevels priceOf qty idx levels is = some (fills, r, lv, ix) →
      ∀ j, ∃ k, lv j = (levels j).drop k := by
  induction is with
  | nil =>
      intro qty idx levels fills r lv ix h j
      simp only [walkLevels, Option.some.injEq, Prod.mk.injEq] at h
      exact ⟨0, by rw [← h.2.2.1, List.drop_zero]⟩
  | cons i rest ih =>
      intro qty idx levels fills r lv ix h j
      by_cases hq : qty = 0
      · subst hq
        simp only [walkLevels, eq_self_iff_true, if_true, Option.some.injEq,
          Prod.mk.injEq] at h
        exact ⟨0, by rw [← h.2.2.1, List.drop_zero]⟩
      · simp only [walkLevels, if_neg hq] at h
        by_cases he : (levels i).isEmpty
        · rw [if_pos he] at h
          exact ih qty idx levels fills r lv ix h j
        · rw [if_neg he] at h
          cases hm : matchOrders (priceOf i) qty (levels i) with
          | none => rw [hm] at h; simp at h
          | some res =>
              obtain ⟨fills1, q1, lvl'⟩ := res
              rw [hm] at h
              simp only at h
              cases hw : walkLevels priceOf q1
                  (removeIds (fills1.map (fun fl => fl.maker_order_id)) idx)
                  (updateFn levels i lvl') rest with
              | none => rw [hw] at h; simp at h
              | some res2 =>
                  obtain ⟨fills2, q2, lv2, ix2⟩ := res2
                  rw [hw] at h
                  simp only [Option.some.injEq, Prod.mk.injEq] at h
                  obtain ⟨-, -, hlv, -⟩ := h
                  obtain ⟨k2, hk2⟩ := ih q1 _ _ fills2 q2 lv2 ix2 hw j
                  obtain ⟨k1, -, hdrop, -, -⟩ :=
                    matchOrders_some (priceOf i) qty (levels i) fills1 q1 lvl' hm
                  by_cases hj : j = i
                  · subst hj
                    refine ⟨k2 + k1, ?_⟩
                    rw [← hlv, hk2]
                    simp only [updateFn, eq_self_iff_true, if_true, hdrop, List.drop_drop]
                    rw [Nat.add_comm k1 k2]
                  · refine ⟨k2, ?_⟩
                    rw [← hlv, hk2]
                    simp [updateFn, hj]

theorem flatMap_congr_on (l : List Nat) (f g : Nat → List Nat)
    (h : ∀ j ∈ l, f j = g j) : l.flatMap f = l.flatMap g := by
  induction l with
  | nil => rfl
  | cons x xs ih =>
      rw [List.flatMap_cons, List.flatMap_cons, h x (by simp),
        ih (fun j hj => h j (by simp [hj]))]

theorem sum_flatMap_eq (l : List Nat) (f : Nat → List Nat) :
    (l.flatMap f).sum = (l.map (fun i => (f i).sum)).sum := by
  induction l with
  | nil => rfl
  | cons x xs ih => rw [List.flatMap_cons, List.sum_append, List.map_cons, List.sum_cons, ih]

theorem removeIds_append (a b : List Nat) (m : OrderIndex) :
    removeIds (a ++ b) m = removeIds b (removeIds a m) := by
  simp [removeIds, List.foldl_append]

/-- A walk with quantity 0 stops immediately. -/
theorem walkLevels_qty_zero (priceOf : Nat → Nat) (idx : OrderIndex)
    (levels : Nat → List Order) (is : List Nat) :
    walkLevels priceOf 0 idx levels is = some ([], 0, levels, idx) := by
  cases is <;> simp [walkLevels]

/-- A market quantity equal to a prefix sum of the walked levels' resting
quantities (taken in walk order) is consumed without reaching the panic:
the walk succeeds with remainder 0. -/
theorem walkLevels_prefix (priceOf : Nat → Nat) (is : List Nat) :
    ∀ (qty : Nat) (idx : OrderIndex) (levels : Nat → List Order), is.Nodup →
      qty ∈ prefixSums (is.flatMap (fun i => (levels i).map (fun o => o.quantity))) →
      ∃ fills lv ix, walkLevels priceOf qty idx levels is = some (fills, 0, lv, ix) := by
  induction is with
  | nil =>
      intro qty idx levels _ hq
      simp only [List.flatMap_nil, prefixSums, List.mem_singleton] at hq
      exact ⟨[], levels, idx, by simp [walkLevels, hq]⟩
  | cons i rest ih =>
      intro qty idx levels hnd hq
      rw [List.nodup_cons] at hnd
      by_cases hq0 : qty = 0
      · subst hq0
        exact ⟨[], levels, idx, walkLevels_qty_zero priceOf idx levels (i :: rest)⟩
      · rw [List.flatMap_cons, mem_prefixSums_append] at hq
        by_cases he : (levels i).isEmpty
        · have hlvl : levels i = [] := List.isEmpty_iff.1 he
          rw [hlvl] at hq
          simp only [List.map_nil, prefixSums, List.mem_singleton, List.sum_nil] at hq
          have hq' : qty ∈ prefixSums
              (rest.flatMap (fun i => (levels i).map (fun o => o.quantity))) := by
            rcases hq with hq | ⟨r, hr, rfl⟩
            · exact absurd hq hq0
            · simpa using hr
          obtain ⟨fills, lv, ix, hw⟩ := ih qty idx levels hnd.2 hq'
          exact ⟨fills, lv, ix, by simp only [walkLevels, if_neg hq0, if_pos he, hw]⟩
        · rcases hq with hq | ⟨r, hr, rfl⟩
          · obtain ⟨fills1, lvl', hm⟩ := matchOrders_prefix (priceOf i) qty (levels i) hq
            refine ⟨fills1 ++ [], updateFn levels i lvl',
              removeIds (fills1.map (fun fl => fl.maker_order_id)) idx, ?_⟩
            simp only [walkLevels, if_neg hq0, if_neg he, hm,
              walkLevels_qty_zero]
          · have hsum : (((levels i).map (fun o => o.quantity)).sum : Nat) =
                totalQuantity (levels i) := rfl
            have hge : totalQuantity (levels i) ≤
                ((levels i).map (fun o => o.quantity)).sum + r := by
              rw [hsum]
              omega
            obtain ⟨fills1, lvl', hm⟩ :=
              matchOrders_ge_total (priceOf i) (((levels i).map (fun o => o.quantity)).sum + r)
                (levels i) hge
            have hrem : ((levels i).map (fun o => o.quantity)).sum + r -
                totalQuantity (levels i) = r := by
              rw [← hsum]
              omega
            rw [hrem] at hm
            have hstream : rest.flatMap
                (fun j => ((updateFn levels i lvl' j).map (fun o => o.quantity))) =
                rest.flatMap (fun j => ((levels j).map (fun o => o.quantity))) := by
              apply flatMap_congr_on
              intro j hj
              have hji : ¬ j = i := fun hji => hnd.1 (hji ▸ hj)
              simp [updateFn, hji]
            obtain ⟨fills2, lv2, ix2, hw⟩ := ih r
              (removeIds (fills1.map (fun fl => fl.maker_order_id)) idx)
              (updateFn levels i lvl') hnd.2 (by rw [hstream]; exact hr)
            exact ⟨fills1 ++ fills2, lv2, ix2, by
              simp only [walkLevels, if_neg hq0, if_neg he, hm, hw]⟩

/-- A walk covering at least the walked levels' total liquidity succeeds and
leaves exactly the difference unfilled. -/
theorem walkLevels_ge_total_ex (priceOf : Nat → Nat) (is : List Nat) :
    ∀ (qty : Nat) (idx : OrderIndex) (levels : Nat → List Order), is.Nodup →
      (is.map (fun i => totalQuantity (levels i))).sum ≤ qty →
      ∃ fills lv ix, walkLevels priceOf qty idx levels is =
        some (fills, qty - (is.map (fun i => totalQuantity (levels i))).sum, lv, ix) := by
  induction is with
  | nil =>
      intro qty idx levels _ _
      exact ⟨[], levels, idx, by simp [walkLevels]⟩
  | cons i rest ih =>
      intro qty idx levels hnd hle
      rw [List.nodup_cons] at hnd
      simp only [List.map_cons, List.sum_cons] at hle ⊢
      by_cases hq0 : qty = 0
      · subst hq0
        refine ⟨[], levels, idx, ?_⟩
        have h0 : (0:Nat) - (totalQuantity (levels i) +
            (rest.map (fun i => totalQuantity (levels i))).sum) = 0 := by omega
        rw [h0]
        exact walkLevels_qty_zero priceOf idx levels (i :: rest)
      · by_cases he : (levels i).isEmpty
        · have hlvl : levels i = [] := List.isEmpty_iff.1 he
          rw [hlvl, totalQuantity_nil] at hle ⊢
          simp only [Nat.zero_add] at hle ⊢
          obtain ⟨fills, lv, ix, hw⟩ := ih qty idx levels hnd.2 hle
          exact ⟨fills, lv, ix, by simp only [walkLevels, if_neg hq0, if_pos he, hw]⟩
        · have hgel : totalQuantity (levels i) ≤ qty := by omega
          obtain ⟨fills1, lvl', hm⟩ := matchOrders_ge_total (priceOf i) qty (levels i) hgel
          have hrest : (rest.map (fun j => totalQuantity (updateFn levels i lvl' j))).sum =
              (rest.map (fun j => totalQuantity (levels j))).sum := by
            congr 1
            apply List.map_congr_left
            intro j hj
            have hji : ¬ j = i := fun hji => hnd.1 (hji ▸ hj)
            simp [updateFn, hji]
          obtain ⟨fills2, lv2, ix2, hw⟩ := ih (qty - totalQuantity (levels i))
            (removeIds (fills1.map (fun fl => fl.maker_order_id)) idx)
            (updateFn levels i lvl') hnd.2 (by rw [hrest]; omega)
          rw [hrest] at hw
          refine ⟨fills1 ++ fills2, lv2, ix2, ?_⟩
          have harith : qty - totalQuantity (levels i) -
              (rest.map (fun j => totalQuantity (levels j))).sum =
              qty - (totalQuantity (levels i) +
                (rest.map (fun j => totalQuantity (levels j))).sum) := by omega
          rw [harith] at hw
          simp only [walkLevels, if_neg hq0, if_neg he, hm, hw]

/-- A tree walk with quantity 0 stops immediately. -/
theorem treeWalk_qty_zero (idx : OrderIndex) (ts : TreeSide) :
    treeWalk 0 idx ts = some ([], 0, ts, idx) := by
  cases ts <;> simp [treeWalk]

/-- Tree-walk analogue of `walkLevels_prefix`. -/
theorem treeWalk_prefix (ts : TreeSide) :
    ∀ (qty : Nat) (idx : OrderIndex),
      qty ∈ prefixSums (ts.flatMap (fun e => e.2.map (fun o => o.quantity))) →
      ∃ fills ts' ix, treeWalk qty idx ts = some (fills, 0, ts', ix) := by
  induction ts with
  | nil =>
      intro qty idx hq
      simp only [List.flatMap_nil, prefixSums, List.mem_singleton] at hq
      exact ⟨[], [], idx, by simp [treeWalk, hq]⟩
  | cons e rest ih =>
      obtain ⟨p, lvl⟩ := e
      intro qty idx hq
      by_cases hq0 : qty = 0
      · subst hq0
        exact ⟨[], (p, lvl) :: rest, idx, treeWalk_qty_zero idx ((p, lvl) :: rest)⟩
      · rw [List.flatMap_cons, mem_prefixSums_append] at hq
        rcases hq with hq | ⟨r, hr, rfl⟩
        · obtain ⟨fills1, lvl', hm⟩ := matchOrders_prefix p qty lvl hq
          refine ⟨fills1 ++ [], (if lvl'.isEmpty then rest else (p, lvl') :: rest),
            removeIds (fills1.map (fun fl => fl.maker_order_id)) idx, ?_⟩
          simp only [treeWalk, if_neg hq0, hm, treeWalk_qty_zero]
        · have hsum : ((lvl.map (fun o => o.quantity)).sum : Nat) = totalQuantity lvl := rfl
          have hge : totalQuantity lvl ≤ (lvl.map (fun o => o.quantity)).sum + r := by
            rw [hsum]; omega
          obtain ⟨fills1, lvl', hm⟩ :=
            matchOrders_ge_total p ((lvl.map (fun o => o.quantity)).sum + r) lvl hge
          have hrem : (lvl.map (fun o => o.quantity)).sum + r - totalQuantity lvl = r := by
            rw [← hsum]; omega
          rw [hrem] at hm
          obtain ⟨fills2, ts2, ix2, hw⟩ := ih r
            (removeIds (fills1.map (fun fl => fl.maker_order_id)) idx) hr
          exact ⟨fills1 ++ fills2, (if lvl'.isEmpty then ts2 else (p, lvl') :: ts2), ix2, by
            simp only [treeWalk, if_neg hq0, hm, hw]⟩

/-- Tree-walk analogue of `walkLevels_ge_total_ex`. -/
theorem treeWalk_ge_total_ex (ts : TreeSide) :
    ∀ (qty : Nat) (idx : OrderIndex),
      (ts.map (fun e => totalQuantity e.2)).sum ≤ qty →
      ∃ fills ts' ix, treeWalk qty idx ts =
        some (fills, qty - (ts.map (fun e => totalQuantity e.2)).sum, ts', ix) := by
  induction ts with
  | nil =>
      intro qty idx _
      exact ⟨[], [], idx, by simp [treeWalk]⟩
  | cons e rest ih =>
      obtain ⟨p, lvl⟩ := e
      intro qty idx hle
      simp only [List.map_cons, List.sum_cons] at hle ⊢
      by_cases hq0 : qty = 0
      · subst hq0
        refine ⟨[], (p, lvl) :: rest, idx, ?_⟩
        have h0 : (0:Nat) - (totalQuantity lvl +
            (rest.map (fun e => totalQuantity e.2)).sum) = 0 := by omega
        rw [h0]
        exact treeWalk_qty_zero idx ((p, lvl) :: rest)
      · have hgel : totalQuantity lvl ≤ qty := by omega
        obtain ⟨fills1, lvl', hm⟩ := matchOrders_ge_total p qty lvl hgel
        obtain ⟨fills2, ts2, ix2, hw⟩ := ih (qty - totalQuantity lvl)
          (removeIds (fills1.map (fun fl => fl.maker_order_id)) idx) (by omega)
        have harith : qty - totalQuantity lvl - (rest.map (fun e => totalQuantity e.2)).sum =
            qty - (totalQuantity lvl + (rest.map (fun e => totalQuantity e.2)).sum) := by omega
        rw [harith] at hw
        exact ⟨fills1 ++ fills2, (if lvl'.isEmpty then ts2 else (p, lvl') :: ts2), ix2,
          by simp only [treeWalk, if_neg hq0, hm, hw]⟩

/-- Resting quantities of a SoA level in FIFO order, as consumed by
`match_orders` (the (id, quantity) columns zipped). -/
def soaLevelQtys (l : LevelSoA) : List Nat := (l.ids.zip l.quantities).map (fun e => e.2)

theorem soaMatch_ge_total (l : LevelSoA) (p q : Nat) (h : (soaLevelQtys l).sum ≤ q) :
    ∃ fills lvl', l.match_orders p q = some (fills, q - (soaLevelQtys l).sum, lvl') := by
  obtain ⟨fills, k, hc⟩ := soaConsume_ge_total p q (l.ids.zip l.quantities) h
  exact ⟨fills, ⟨l.ids.drop k, l.sides.drop k, l.prices.drop k, l.quantities.drop k⟩,
    by simp only [LevelSoA.match_orders, hc, soaLevelQtys]⟩

theorem soaMatch_prefix (l : LevelSoA) (p q : Nat) (h : q ∈ prefixSums (soaLevelQtys l)) :
    ∃ fills lvl', l.match_orders p q = some (fills, 0, lvl') := by
  obtain ⟨fills, k, hc⟩ := soaConsume_prefix p q (l.ids.zip l.quantities) h
  exact ⟨fills, ⟨l.ids.drop k, l.sides.drop k, l.prices.drop k, l.quantities.drop k⟩,
    by simp only [LevelSoA.match_orders, hc]⟩

/-- A SoA walk with quantity 0 stops immediately. -/
theorem walkLevelsS_qty_zero (idx : OrderIndex) (levels : Nat → LevelSoA) (is : List Nat) :
    walkLevelsS 0 idx levels is = some ([], 0, levels, idx) := by
  cases is <;> simp [walkLevelsS]

/-- SoA analogue of `walkLevels_prefix`. -/
theorem walkLevelsS_prefix (is : List Nat) :
    ∀ (qty : Nat) (idx : OrderIndex) (levels : Nat → LevelSoA), is.Nodup →
      qty ∈ prefixSums (is.flatMap (fun i => soaLevelQtys (levels i))) →
      ∃ fills lv ix, walkLevelsS qty idx levels is = some (fills, 0, lv, ix) := by
  induction is with
  | nil =>
      intro qty idx levels _ hq
      simp only [List.flatMap_nil, prefixSums, List.mem_singleton] at hq
      exact ⟨[], levels, idx, by simp [walkLevelsS, hq]⟩
  | cons i rest ih =>
      intro qty idx levels hnd hq
      rw [List.nodup_cons] at hnd
      by_cases hq0 : qty = 0
      · subst hq0
        exact ⟨[], levels, idx, walkLevelsS_qty_zero idx levels (i :: rest)⟩
      · rw [List.flatMap_cons, mem_prefixSums_append] at hq
        by_cases he : (levels i).is_empty
        · have hids : (levels i).ids = [] := by
            simpa [LevelSoA.is_empty, List.isEmpty_iff] using he
          have hstream0 : soaLevelQtys (levels i) = [] := by
            simp [soaLevelQtys, hids]
          rw [hstream0] at hq
          simp only [prefixSums, List.mem_singleton, List.sum_nil] at hq
          have hq' : qty ∈ prefixSums (rest.flatMap (fun i => soaLevelQtys (levels i))) := by
            rcases hq with hq | ⟨r, hr, rfl⟩
            · exact absurd hq hq0
            · simpa using hr
          obtain ⟨fills, lv, ix, hw⟩ := ih qty idx levels hnd.2 hq'
          exact ⟨fills, lv, ix, by simp only [walkLevelsS, if_neg hq0, if_pos he, hw]⟩
        · rcases hq with hq | ⟨r, hr, rfl⟩
          · obtain ⟨fills1, lvl', hm⟩ := soaMatch_prefix (levels i) (i * TICK_SIZE) qty hq
            refine ⟨fills1 ++ [], updateFnS levels i lvl',
              removeIds (fills1.map (fun fl => fl.maker_order_id)) idx, ?_⟩
            simp only [walkLevelsS, if_neg hq0, if_neg he, hm, walkLevelsS_qty_zero]
          · have hge : (soaLevelQtys (levels i)).sum ≤ (soaLevelQtys (levels i)).sum + r :=
              Nat.le_add_right _ _
            obtain ⟨fills1, lvl', hm⟩ :=
              soaMatch_ge_total (levels i) (i * TICK_SIZE) ((soaLevelQtys (levels i)).sum + r) hge
            have hrem : (soaLevelQtys (levels i)).sum + r - (soaLevelQtys (levels i)).sum = r := by
              omega
            rw [hrem] at hm
            have hstream : rest.flatMap (fun j => soaLevelQtys (updateFnS levels i lvl' j)) =
                rest.flatMap (fun j => soaLevelQtys (levels j)) := by
              apply flatMap_congr_on
              intro j hj
              have hji : ¬ j = i := fun hji => hnd.1 (hji ▸ hj)
              simp [updateFnS, hji]
            obtain ⟨fills2, lv2, ix2, hw⟩ := ih r
              (removeIds (fills1.map (fun fl => fl.maker_order_id)) idx)
              (updateFnS levels i lvl') hnd.2 (by rw [hstream]; exact hr)
            exact ⟨fills1 ++ fills2, lv2, ix2, by
              simp only [walkLevelsS, if_neg hq0, if_neg he, hm, hw]⟩

/-- A successful walk deleted from the order index exactly the ids of the
makers of the fills it produced. -/
theorem walkLevels_index (priceOf : Nat → Nat) (is : List Nat) :
    ∀ (qty : Nat) (idx : OrderIndex) (levels : Nat → List Order) (fills : List Fill)
      (r : Nat) (lv : Nat → List Order) (ix : OrderIndex),
      walkLevels priceOf qty idx levels is = some (fills, r, lv, ix) →
      ix = removeIds (fills.map (fun fl => fl.maker_order_id)) idx := by
  induction is with
  | nil =>
      intro qty idx levels fills r lv ix h
      simp only [walkLevels, Option.some.injEq, Prod.mk.injEq] at h
      rw [← h.1, ← h.2.2.2]
      rfl
  | cons i rest ih =>
      intro qty idx levels fills r lv ix h
      by_cases hq : qty = 0
      · subst hq
        simp only [walkLevels, eq_self_iff_true, if_true, Option.some.injEq,
          Prod.mk.injEq] at h
        rw [← h.1, ← h.2.2.2]
        rfl
      · simp only [walkLevels, if_neg hq] at h
        by_cases he : (levels i).isEmpty
        · rw [if_pos he] at h
          exact ih qty idx levels fills r lv ix h
        · rw [if_neg he] at h
          cases hm : matchOrders (priceOf i) qty (levels i) with
          | none => rw [hm] at h; simp at h
          | some res =>
              obtain ⟨fills1, q1, lvl'⟩ := res
              rw [hm] at h
              simp only at h
              cases hw : walkLevels priceOf q1
                  (removeIds (fills1.map (fun fl => fl.maker_order_id)) idx)
                  (updateFn levels i lvl') rest with
              | none => rw [hw] at h; simp at h
              | some res2 =>
                  obtain ⟨fills2, q2, lv2, ix2⟩ := res2
                  rw [hw] at h
                  simp only [Option.some.injEq, Prod.mk.injEq] at h
                  obtain ⟨hf, -, -, hix⟩ := h
                  have := ih q1 _ _ fills2 q2 lv2 ix2 hw
                  rw [← hix, this, ← hf]
                  rw [List.map_append, removeIds_append]

/-- Resting quantities of the side a market order consumes, in consumption
order, dense representation. -/
def denseConsumedQtys (b : Orderbook) (side : Side) : List Nat :=
  match side with
  | .Bid => (List.range ELEMENT_NUM).flatMap (fun i => (b.asks i).map (fun o => o.quantity))
  | .Ask =>
      (List.range ELEMENT_NUM).reverse.flatMap (fun i => (b.bids i).map (fun o => o.quantity))

/-- Resting quantities in consumption order, SoA representation. -/
def soaConsumedQtys (b : SoAOrderbook) (side : Side) : List Nat :=
  match side with
  | .Bid => (List.range ELEMENT_NUM).flatMap (fun i => soaLevelQtys (b.asks i))
  | .Ask => (List.range ELEMENT_NUM).reverse.flatMap (fun i => soaLevelQtys (b.bids i))

/-- Resting quantities in consumption order, tree representation. -/
def treeConsumedQtys (b : TreeOrderbook) (side : Side) : List Nat :=
  match side with
  | .Bid => b.asks.flatMap (fun e => e.2.map (fun o => o.quantity))
  | .Ask => b.bids.reverse.flatMap (fun e => e.2.map (fun o => o.quantity))

/-- Resting quantities in consumption order (hot window first, then the cold
map), hybrid representation. -/
def hybridConsumedQtys (b : HybridOrderbook) (side : Side) : List Nat :=
  match side with
  | .Bid =>
      (List.range HOT_ZONE_SIZE).flatMap (fun i => (b.hot_asks i).map (fun o => o.quantity))
        ++ b.cold_asks.flatMap (fun e => e.2.map (fun o => o.quantity))
  | .Ask =>
      (List.range HOT_ZONE_SIZE).reverse.flatMap
          (fun i => (b.hot_bids i).map (fun o => o.quantity))
        ++ b.cold_bids.reverse.flatMap (fun e => e.2.map (fun o => o.quantity))

/-- C8.  (i) A successful `matchOrders` run consumes a whole prefix of the
level: each fill carries the full quantity and id of one consumed order and
the untouched suffix remains; (ii) the `panic!` branch (partial fill of a
resting order) is taken exactly when the incoming quantity neither covers the
level nor equals a whole-order prefix sum; (iii) at book level, a successful
dense market order leaves every level of the consumed side a suffix of its
previous contents, deletes exactly the makers' ids from the order index, and
does not touch the other side; (iv)–(vii) in each of the four representations
the panic is unreachable whenever the market quantity equals a prefix sum of
the consumed side's resting quantities in consumption order. -/
theorem C8_exact_consumption_no_partial :
    (∀ (p q : Nat) (l : List Order) (fills : List Fill) (r : Nat) (l' : List Order),
        matchOrders p q l = some (fills, r, l') →
        ∃ k, fills = ((l.take k).map (fun o => ⟨p, o.quantity, o.id⟩))
          ∧ l' = l.drop k ∧ q = totalQuantity (l.take k) + r)
    ∧ (∀ (p q : Nat) (l : List Order),
        matchOrders p q l = none ↔
          ¬(totalQuantity l ≤ q ∨ q ∈ prefixSums (l.map (fun o => o.quantity))))
    ∧ (∀ (b : Orderbook) (q : Nat) (fills : List Fill) (r : Nat) (b' : Orderbook),
        b.execCore .Bid q = some (fills, r, b') →
          b'.order_index = removeIds (fills.map (fun fl => fl.maker_order_id)) b.order_index
          ∧ (∀ i, ∃ k, b'.asks i = (b.asks i).drop k)
          ∧ b'.bids = b.bids)
    ∧ (∀ (b : Orderbook) (q : Nat) (fills : List Fill) (r : Nat) (b' : Orderbook),
        b.execCore .Ask q = some (fills, r, b') →
          b'.order_index = removeIds (fills.map (fun fl => fl.maker_order_id)) b.order_index
          ∧ (∀ i, ∃ k, b'.bids i = (b.bids i).drop k)
          ∧ b'.asks = b.asks)
    ∧ (∀ (b : Orderbook) (side : Side) (q : Nat),
        q ∈ prefixSums (denseConsumedQtys b side) → b.execute_market_order side q ≠ none)
    ∧ (∀ (b : SoAOrderbook) (side : Side) (q : Nat),
        q ∈ prefixSums (soaConsumedQtys b side) → b.execute_market_order side q ≠ none)
    ∧ (∀ (b : TreeOrderbook) (side : Side) (q : Nat),
        q ∈ prefixSums (treeConsumedQtys b side) → b.execute_market_order side q ≠ none)
    ∧ (∀ (b : HybridOrderbook) (side : Side) (q : Nat),
        q ∈ prefixSums (hybridConsumedQtys b side) → b.execute_market_order side q ≠ none) := by
  refine ⟨?_, ?_, ?_, ?_, ?_, ?_, ?_, ?_⟩
  · intro p q l fills r l' h
    obtain ⟨k, h1, h2, h3, -⟩ := matchOrders_some p q l fills r l' h
    exact ⟨k, h1, h2, h3⟩
  · exact matchOrders_none_iff
  · intro b q fills r b' h
    unfold Orderbook.execCore at h
    cases hw : walkLevels (fun i => i * TICK_SIZE) q b.order_index b.asks
        (List.range ELEMENT_NUM) with
    | none => rw [hw] at h; simp at h
    | some res =>
        obtain ⟨f0, r0, lv0, ix0⟩ := res
        rw [hw] at h
        simp only [Option.map_some', Option.some.injEq, Prod.mk.injEq] at h
        obtain ⟨hf, -, hb⟩ := h
        subst hf
        subst hb
        refine ⟨?_, ?_, rfl⟩
        · exact walkLevels_index _ _ q b.order_index b.asks f0 r0 lv0 ix0 hw
        · intro i
          exact walkLevels_levels_drop _ _ q b.order_index b.asks f0 r0 lv0 ix0 hw i
  · intro b q fills r b' h
    unfold Orderbook.execCore at h
    cases hw : walkLevels (fun i => i * TICK_SIZE) q b.order_index b.bids
        (List.range ELEMENT_NUM).reverse with
    | none => rw [hw] at h; simp at h
    | some res =>
        obtain ⟨f0, r0, lv0, ix0⟩ := res
        rw [hw] at h
        simp only [Option.map_some', Option.some.injEq, Prod.mk.injEq] at h
        obtain ⟨hf, -, hb⟩ := h
        subst hf
        subst hb
        refine ⟨?_, ?_, rfl⟩
        · exact walkLevels_index _ _ q b.order_index b.bids f0 r0 lv0 ix0 hw
        · intro i
          exact walkLevels_levels_drop _ _ q b.order_index b.bids f0 r0 lv0 ix0 hw i
  · intro b side q hq
    cases side with
    | Bid =>
        obtain ⟨fills, lv, ix, hw⟩ := walkLevels_prefix (fun i => i * TICK_SIZE)
          (List.range ELEMENT_NUM) q b.order_index b.asks (List.nodup_range _) hq
        unfold Orderbook.execute_market_order Orderbook.execCore
        rw [hw]
        simp
    | Ask =>
        obtain ⟨fills, lv, ix, hw⟩ := walkLevels_prefix (fun i => i * TICK_SIZE)
          (List.range ELEMENT_NUM).reverse q b.order_index b.bids
          (List.nodup_reverse.2 (List.nodup_range _)) hq
        unfold Orderbook.execute_market_order Orderbook.execCore
        rw [hw]
        simp
  · intro b side q hq
    cases side with
    | Bid =>
        obtain ⟨fills, lv, ix, hw⟩ := walkLevelsS_prefix
          (List.range ELEMENT_NUM) q b.order_index b.asks (List.nodup_range _) hq
        unfold SoAOrderbook.execute_market_order SoAOrderbook.execCore
        rw [hw]
        simp
    | Ask =>
        obtain ⟨fills, lv, ix, hw⟩ := walkLevelsS_prefix
          (List.range ELEMENT_NUM).reverse q b.order_index b.bids
          (List.nodup_reverse.2 (List.nodup_range _)) hq
        unfold SoAOrderbook.execute_market_order SoAOrderbook.execCore
        rw [hw]
        simp
  · intro b side q hq
    cases side with
    | Bid =>
        obtain ⟨fills, ts, ix, hw⟩ := treeWalk_prefix b.asks q b.order_index hq
        unfold TreeOrderbook.execute_market_order TreeOrderbook.execCore
        rw [hw]
        simp
    | Ask =>
        obtain ⟨fills, ts, ix, hw⟩ := treeWalk_prefix b.bids.reverse q b.order_index hq
        unfold TreeOrderbook.execute_market_order TreeOrderbook.execCore
        rw [hw]
        simp
  · intro b side q hq
    cases side with
    | Bid =>
        rw [hybridConsumedQtys, mem_prefixSums_append] at hq
        unfold HybridOrderbook.execute_market_order HybridOrderbook.execCore
        rcases hq with hq | ⟨r, hr, rfl⟩
        · obtain ⟨fills, lv, ix, hw⟩ := walkLevels_prefix
            (fun i => b.hot_zone_center - HOT_ZONE_RADIUS + i)
            (List.range HOT_ZONE_SIZE) q b.order_index b.hot_asks (List.nodup_range _) hq
          rw [hw]
          simp
        · have hsum : ((List.range HOT_ZONE_SIZE).flatMap
              (fun i => (b.hot_asks i).map (fun o => o.quantity))).sum =
              ((List.range HOT_ZONE_SIZE).map (fun i => totalQuantity (b.hot_asks i))).sum :=
            sum_flatMap_eq _ _
          obtain ⟨fills, lv, ix, hw⟩ := walkLevels_ge_total_ex
            (fun i => b.hot_zone_center - HOT_ZONE_RADIUS + i)
            (List.range HOT_ZONE_SIZE)
            (((List.range HOT_ZONE_SIZE).flatMap
              (fun i => (b.hot_asks i).map (fun o => o.quantity))).sum + r)
            b.order_index b.hot_asks (List.nodup_range _) (by omega)
          have hrem : ((List.range HOT_ZONE_SIZE).flatMap
              (fun i => (b.hot_asks i).map (fun o => o.quantity))).sum + r -
              ((List.range HOT_ZONE_SIZE).map (fun i => totalQuantity (b.hot_asks i))).sum
              = r := by omega
          rw [hrem] at hw
          rw [hw]
          by_cases hr0 : 0 < r
          · obtain ⟨fills2, ts2, ix2, hw2⟩ := treeWalk_prefix b.cold_asks r ix hr
            simp only [if_pos hr0, hw2]
            simp
          · simp only [if_neg hr0]
            simp
    | Ask =>
        rw [hybridConsumedQtys, mem_prefixSums_append] at hq
        unfold HybridOrderbook.execute_market_order HybridOrderbook.execCore
        rcases hq with hq | ⟨r, hr, rfl⟩
        · obtain ⟨fills, lv, ix, hw⟩ := walkLevels_prefix
            (fun i => b.hot_zone_center - HOT_ZONE_RADIUS + i)
            (List.range HOT_ZONE_SIZE).reverse q b.order_index b.hot_bids
            (List.nodup_reverse.2 (List.nodup_range _)) hq
          rw [hw]
          simp
        · have hsum : (((List.range HOT_ZONE_SIZE).reverse).flatMap
              (fun i => (b.hot_bids i).map (fun o => o.quantity))).sum =
              (((List.range HOT_ZONE_SIZE).reverse).map
                (fun i => totalQuantity (b.hot_bids i))).sum :=
            sum_flatMap_eq _ _
          obtain ⟨fills, lv, ix, hw⟩ := walkLevels_ge_total_ex
            (fun i => b.hot_zone_center - HOT_ZONE_RADIUS + i)
            (List.range HOT_ZONE_SIZE).reverse
            ((((List.range HOT_ZONE_SIZE).reverse).flatMap
              (fun i => (b.hot_bids i).map (fun o => o.quantity))).sum + r)
            b.order_index b.hot_bids (List.nodup_reverse.2 (List.nodup_range _)) (by omega)
          have hrem : (((List.range HOT_ZONE_SIZE).reverse).flatMap
              (fun i => (b.hot_bids i).map (fun o => o.quantity))).sum + r -
              (((List.range HOT_ZONE_SIZE).reverse).map
                (fun i => totalQuantity (b.hot_bids i))).sum = r := by omega
          rw [hrem] at hw
          rw [hw]
          by_cases hr0 : 0 < r
          · obtain ⟨fills2, ts2, ix2, hw2⟩ := treeWalk_prefix b.cold_bids.reverse r ix hr
            simp only [if_pos hr0, hw2]
            simp
          · simp only [if_neg hr0]
            simp

/-- Tree book with one resting ask (price 60, quantity 4) for the C8
witness. -/
def c8TreeBook : TreeOrderbook := (TreeOrderbook.new.add_order ⟨2, .Ask, 60, 4⟩).2

/-- Hybrid book with one resting hot-zone ask (price 4950, quantity 5) for
the C8 witness. -/
def c8HybridBook : HybridOrderbook := (HybridOrderbook.new.add_order ⟨3, .Ask, 4950, 5⟩).2

set_option maxRecDepth 4000 in
/-- Witness for C8: concrete one-level match (whole-order consumption), the
panic-iff at a concrete level, and panic-freedom at prefix-sum quantities for
all four representations (quantity 0 on the empty dense/SoA books, quantity 4
on the one-ask tree book, quantity 5 on the one-ask hybrid book). -/
theorem C8_exact_consumption_no_partial_witness :
    (∃ k, ([⟨60, 4, 2⟩] : List Fill) =
        (([⟨2, .Ask, 60, 4⟩] : List Order).take k).map (fun o => ⟨60, o.quantity, o.id⟩)
      ∧ ([] : List Order) = ([⟨2, .Ask, 60, 4⟩] : List Order).drop k
      ∧ 4 = totalQuantity (([⟨2, .Ask, 60, 4⟩] : List Order).take k) + 0)
    ∧ (matchOrders 60 3 [⟨2, .Ask, 60, 4⟩] = none ↔
        ¬(totalQuantity [⟨2, .Ask, 60, 4⟩] ≤ 3 ∨
          3 ∈ prefixSums (([⟨2, .Ask, 60, 4⟩] : List Order).map (fun o => o.quantity))))
    ∧ Orderbook.new.execute_market_order .Bid 0 ≠ none
    ∧ SoAOrderbook.new.execute_market_order .Bid 0 ≠ none
    ∧ c8TreeBook.execute_market_order .Bid 4 ≠ none
    ∧ c8HybridBook.execute_market_order .Bid 5 ≠ none := by
  have h := C8_exact_consumption_no_partial
  refine ⟨?_, h.2.1 60 3 [⟨2, .Ask, 60, 4⟩], ?_, ?_, ?_, ?_⟩
  · exact h.1 60 4 [⟨2, .Ask, 60, 4⟩] [⟨60, 4, 2⟩] 0 [] (by decide)
  · exact h.2.2.2.2.1 Orderbook.new .Bid 0
      (zero_mem_prefixSums (denseConsumedQtys Orderbook.new .Bid))
  · exact h.2.2.2.2.2.1 SoAOrderbook.new .Bid 0
      (zero_mem_prefixSums (soaConsumedQtys SoAOrderbook.new .Bid))
  · exact h.2.2.2.2.2.2.1 c8TreeBook .Bid 4 (by decide)
  · exact h.2.2.2.2.2.2.2 c8HybridBook .Bid 5 (by decide)

/-! ## Well-formedness of reachable dense books -/

/-- Invariants of every dense book reachable from `Orderbook.new`:
levels beyond the array bound are empty; every resting order sits in the
level of its own side and price; the order index has no duplicate keys and
every entry points at a level that holds an order with that id at a validated
price. -/
structure DWF (b : Orderbook) : Prop where
  boundsB : ∀ p, ELEMENT_NUM ≤ p → b.bids p = []
  boundsA : ∀ p, ELEMENT_NUM ≤ p → b.asks p = []
  zeroB : b.bids 0 = []
  zeroA : b.asks 0 = []
  sideB : ∀ p, ∀ o ∈ b.bids p, o.side = Side.Bid ∧ o.price = p
  sideA : ∀ p, ∀ o ∈ b.asks p, o.side = Side.Ask ∧ o.price = p
  posB : ∀ p, ∀ o ∈ b.bids p, 0 < o.quantity
  posA : ∀ p, ∀ o ∈ b.asks p, 0 < o.quantity
  nodup : IdxNodup b.order_index
  soundB : ∀ id p, idxLookup id b.order_index = some (Side.Bid, p) →
    1 ≤ p ∧ p < MAX_PRICE ∧ ∃ o ∈ b.bids p, o.id = id
  soundA : ∀ id p, idxLookup id b.order_index = some (Side.Ask, p) →
    1 ≤ p ∧ p < MAX_PRICE ∧ ∃ o ∈ b.asks p, o.id = id

theorem DWF_new : DWF Orderbook.new := by
  refine ⟨fun p _ => rfl, fun p _ => rfl, rfl, rfl,
    fun p o h => absurd h (List.not_mem_nil o),
    fun p o h => absurd h (List.not_mem_nil o),
    fun p o h => absurd h (List.not_mem_nil o),
    fun p o h => absurd h (List.not_mem_nil o), idxNodup_nil, fun id p h => ?_,
    fun id p h => ?_⟩ <;> exact absurd h (by simp [Orderbook.new, idxLookup])

theorem DWF_add (b : Orderbook) (o : Order) (h : DWF b) : DWF ((b.add_order o).2) := by
  rw [addD_characterization]
  by_cases hp : o.price = 0 ∨ MAX_PRICE ≤ o.price
  · simpa [hp] using h
  · by_cases hq : o.quantity = 0
    · simpa [hp, hq] using h
    · simp only [if_neg hp, if_neg hq]
      have hplt : o.price < MAX_PRICE := by omega
      have hp1 : 1 ≤ o.price := by omega
      have hdiv : o.price / TICK_SIZE = o.price := Nat.div_one o.price
      have hEM : ELEMENT_NUM = MAX_PRICE := by decide
      cases hs : o.side with
      | Bid =>
          refine ⟨?_, h.boundsA, ?_, h.zeroA, ?_, h.sideA, ?_, h.posA,
            idxNodup_insert _ _ _ h.nodup, ?_, ?_⟩
          · intro p hple
            have hne : ¬ p = o.price / TICK_SIZE := by
              rw [hdiv]
              omega
            simp only [updateFn, if_neg hne]
            exact h.boundsB p hple
          · have hne : ¬ (0 : Nat) = o.price / TICK_SIZE := by
              rw [hdiv]
              omega
            simp only [updateFn, if_neg hne]
            exact h.zeroB
          · intro p o' ho'
            by_cases hpe : p = o.price / TICK_SIZE
            · subst hpe
              simp only [updateFn, if_pos rfl] at ho'
              rcases List.mem_append.1 ho' with hmem | hmem
              · exact h.sideB _ o' hmem
              · simp only [List.mem_singleton] at hmem
                subst hmem
                exact ⟨hs, hdiv.symm⟩
            · simp only [updateFn, if_neg hpe] at ho'
              exact h.sideB p o' ho'
          · intro p o' ho'
            by_cases hpe : p = o.price / TICK_SIZE
            · subst hpe
              simp only [updateFn, if_pos rfl] at ho'
              rcases List.mem_append.1 ho' with hmem | hmem
              · exact h.posB _ o' hmem
              · simp only [List.mem_singleton] at hmem
                subst hmem
                exact Nat.pos_of_ne_zero hq
            · simp only [updateFn, if_neg hpe] at ho'
              exact h.posB p o' ho'
          · intro id p hl
            by_cases hid : id = o.id
            · subst hid
              rw [idxLookup_insert_self] at hl
              simp only [Option.some.injEq, Prod.mk.injEq, hs] at hl
              obtain ⟨-, hpp⟩ := hl
              subst hpp
              refine ⟨hp1, hplt, o, ?_, rfl⟩
              have : o.price = o.price / TICK_SIZE := hdiv.symm
              rw [← this]  -- level index
              simp only [updateFn, hdiv, if_pos rfl]
              simp
            · rw [idxLookup_insert_ne _ _ _ _ hid] at hl
              obtain ⟨h1, h2, o', hmem, hido⟩ := h.soundB id p hl
              refine ⟨h1, h2, o', ?_, hido⟩
              by_cases hpe : p = o.price / TICK_SIZE
              · subst hpe
                simp only [updateFn, if_pos rfl]
                exact List.mem_append.2 (Or.inl hmem)
              · simpa [updateFn, hpe] using hmem
          · intro id p hl
            by_cases hid : id = o.id
            · subst hid
              rw [idxLookup_insert_self] at hl
              simp only [Option.some.injEq, Prod.mk.injEq, hs] at hl
              exact absurd hl.1 (by simp)
            · rw [idxLookup_insert_ne _ _ _ _ hid] at hl
              exact h.soundA id p hl
      | Ask =>
          refine ⟨h.boundsB, ?_, h.zeroB, ?_, h.sideB, ?_, h.posB, ?_,
            idxNodup_insert _ _ _ h.nodup, ?_, ?_⟩
          · intro p hple
            have hne : ¬ p = o.price / TICK_SIZE := by
              rw [hdiv]
              omega
            simp only [updateFn, if_neg hne]
            exact h.boundsA p hple
          · have hne : ¬ (0 : Nat) = o.price / TICK_SIZE := by
              rw [hdiv]
              omega
            simp only [updateFn, if_neg hne]
            exact h.zeroA
          · intro p o' ho'
            by_cases hpe : p = o.price / TICK_SIZE
            · subst hpe
              simp only [updateFn, if_pos rfl] at ho'
              rcases List.mem_append.1 ho' with hmem | hmem
              · exact h.sideA _ o' hmem
              · simp only [List.mem_singleton] at hmem
                subst hmem
                exact ⟨hs, hdiv.symm⟩
            · simp only [updateFn, if_neg hpe] at ho'
              exact h.sideA p o' ho'
          · intro p o' ho'
            by_cases hpe : p = o.price / TICK_SIZE
            · subst hpe
              simp only [updateFn, if_pos rfl] at ho'
              rcases List.mem_append.1 ho' with hmem | hmem
              · exact h.posA _ o' hmem
              · simp only [List.mem_singleton] at hmem
                subst hmem
                exact Nat.pos_of_ne_zero hq
            · simp only [updateFn, if_neg hpe] at ho'
              exact h.posA p o' ho'
          · intro id p hl
            by_cases hid : id = o.id
            · subst hid
              rw [idxLookup_insert_self] at hl
              simp only [Option.some.injEq, Prod.mk.injEq, hs] at hl
              exact absurd hl.1 (by simp)
            · rw [idxLookup_insert_ne _ _ _ _ hid] at hl
              exact h.soundB id p hl
          · intro id p hl
            by_cases hid : id = o.id
            · subst hid
              rw [idxLookup_insert_self] at hl
              simp only [Option.some.injEq, Prod.mk.injEq, hs] at hl
              obtain ⟨-, hpp⟩ := hl
              subst hpp
              refine ⟨hp1, hplt, o, ?_, rfl⟩
              have : o.price = o.price / TICK_SIZE := hdiv.symm
              rw [← this]
              simp only [updateFn, hdiv, if_pos rfl]
              simp
            · rw [idxLookup_insert_ne _ _ _ _ hid] at hl
              obtain ⟨h1, h2, o', hmem, hido⟩ := h.soundA id p hl
              refine ⟨h1, h2, o', ?_, hido⟩
              by_cases hpe : p = o.price / TICK_SIZE
              · subst hpe
                simp only [updateFn, if_pos rfl]
                exact List.mem_append.2 (Or.inl hmem)
              · simpa [updateFn, hpe] using hmem

theorem DWF_cancel (b : Orderbook) (id : Nat) (h : DWF b) : DWF ((b.cancel_order id).2) := by
  unfold Orderbook.cancel_order
  cases hl : idxLookup id b.order_index with
  | none => exact h
  | some v =>
      obtain ⟨s, p⟩ := v
      have hnodup' := idxNodup_remove id _ h.nodup
      have hlookup_rm : ∀ id' (v' : Side × Nat),
          idxLookup id' (idxRemove id b.order_index) = some v' →
          id' ≠ id ∧ idxLookup id' b.order_index = some v' := by
        intro id' v' hl'
        rcases eq_or_ne id' id with rfl | hne
        · rw [idxLookup_remove_self _ _ h.nodup] at hl'
          exact absurd hl' (by simp)
        · exact ⟨hne, by rwa [idxLookup_remove_ne _ _ _ hne] at hl'⟩
      cases s with
      | Bid =>
          refine ⟨?_, h.boundsA, ?_, h.zeroA, ?_, h.sideA, ?_, h.posA, hnodup', ?_, ?_⟩
          · intro q hq
            by_cases hqe : q = p / TICK_SIZE
            · subst hqe
              simp only [updateFn, if_pos rfl]
              rw [h.boundsB _ hq]
              rfl
            · simp only [updateFn, if_neg hqe]
              exact h.boundsB q hq
          · simp only [updateFn]
            by_cases h0 : (0 : Nat) = p / TICK_SIZE
            · rw [if_pos h0, ← h0, h.zeroB]
              rfl
            · rw [if_neg h0]
              exact h.zeroB
          · intro q o' ho'
            by_cases hqe : q = p / TICK_SIZE
            · subst hqe
              simp only [updateFn, if_pos rfl] at ho'
              exact h.sideB _ o' (mem_of_mem_levelCancel id _ o' ho')
            · simp only [updateFn, if_neg hqe] at ho'
              exact h.sideB q o' ho'
          · intro q o' ho'
            by_cases hqe : q = p / TICK_SIZE
            · subst hqe
              simp only [updateFn, if_pos rfl] at ho'
              exact h.posB _ o' (mem_of_mem_levelCancel id _ o' ho')
            · simp only [updateFn, if_neg hqe] at ho'
              exact h.posB q o' ho'
          · intro id' q hl'
            obtain ⟨hne, hl0⟩ := hlookup_rm id' (Side.Bid, q) hl'
            obtain ⟨h1, h2, o', hmem, hido⟩ := h.soundB id' q hl0
            refine ⟨h1, h2, o', ?_, hido⟩
            by_cases hqe : q = p / TICK_SIZE
            · subst hqe
              simp only [updateFn, if_pos rfl]
              exact mem_levelCancel_of_ne id _ o' hmem (by rw [hido]; exact hne)
            · simpa [updateFn, hqe] using hmem
          · intro id' q hl'
            obtain ⟨-, hl0⟩ := hlookup_rm id' (Side.Ask, q) hl'
            exact h.soundA id' q hl0
      | Ask =>
          refine ⟨h.boundsB, ?_, h.zeroB, ?_, h.sideB, ?_, h.posB, ?_, hnodup', ?_, ?_⟩
          · intro q hq
            by_cases hqe : q = p / TICK_SIZE
            · subst hqe
              simp only [updateFn, if_pos rfl]
              rw [h.boundsA _ hq]
              rfl
            · simp only [updateFn, if_neg hqe]
              exact h.boundsA q hq
          · simp only [updateFn]
            by_cases h0 : (0 : Nat) = p / TICK_SIZE
            · rw [if_pos h0, ← h0, h.zeroA]
              rfl
            · rw [if_neg h0]
              exact h.zeroA
          · intro q o' ho'
            by_cases hqe : q = p / TICK_SIZE
            · subst hqe
              simp only [updateFn, if_pos rfl] at ho'
              exact h.sideA _ o' (mem_of_mem_levelCancel id _ o' ho')
            · simp only [updateFn, if_neg hqe] at ho'
              exact h.sideA q o' ho'
          · intro q o' ho'
            by_cases hqe : q = p / TICK_SIZE
            · subst hqe
              simp only [updateFn, if_pos rfl] at ho'
              exact h.posA _ o' (mem_of_mem_levelCancel id _ o' ho')
            · simp only [updateFn, if_neg hqe] at ho'
              exact h.posA q o' ho'
          · intro id' q hl'
            obtain ⟨-, hl0⟩ := hlookup_rm id' (Side.Bid, q) hl'
            exact h.soundB id' q hl0
          · intro id' q hl'
            obtain ⟨hne, hl0⟩ := hlookup_rm id' (Side.Ask, q) hl'
            obtain ⟨h1, h2, o', hmem, hido⟩ := h.soundA id' q hl0
            refine ⟨h1, h2, o', ?_, hido⟩
            by_cases hqe : q = p / TICK_SIZE
            · subst hqe
              simp only [updateFn, if_pos rfl]
              exact mem_levelCancel_of_ne id _ o' hmem (by rw [hido]; exact hne)
            · simpa [updateFn, hqe] using hmem

/-- Consumed orders leave their ids among the fills' makers; the rest of each
level survives as a suffix. -/
theorem walkLevels_consumed (priceOf : Nat → Nat) (is : List Nat) :
    ∀ (qty : Nat) (idx : OrderIndex) (levels : Nat → List Order) (fills : List Fill)
      (r : Nat) (lv : Nat → List Order) (ix : OrderIndex),
      walkLevels priceOf qty idx levels is = some (fills, r, lv, ix) →
      ∀ j, ∃ k, lv j = (levels j).drop k ∧
        ∀ o ∈ (levels j).take k, o.id ∈ fills.map (fun fl => fl.maker_order_id) := by
  induction is with
  | nil =>
      intro qty idx levels fills r lv ix h j
      simp only [walkLevels, Option.some.injEq, Prod.mk.injEq] at h
      refine ⟨0, by rw [← h.2.2.1, List.drop_zero], ?_⟩
      intro o ho
      simp at ho
  | cons i rest ih =>
      intro qty idx levels fills r lv ix h j
      by_cases hq : qty = 0
      · subst hq
        simp only [walkLevels, eq_self_iff_true, if_true, Option.some.injEq,
          Prod.mk.injEq] at h
        refine ⟨0, by rw [← h.2.2.1, List.drop_zero], ?_⟩
        intro o ho
        simp at ho
      · simp only [walkLevels, if_neg hq] at h
        by_cases he : (levels i).isEmpty
        · rw [if_pos he] at h
          exact ih qty idx levels fills r lv ix h j
        · rw [if_neg he] at h
          cases hm : matchOrders (priceOf i) qty (levels i) with
          | none => rw [hm] at h; simp at h
          | some res =>
              obtain ⟨fills1, q1, lvl'⟩ := res
              rw [hm] at h
              simp only at h
              cases hw : walkLevels priceOf q1
                  (removeIds (fills1.map (fun fl => fl.maker_order_id)) idx)
                  (updateFn levels i lvl') rest with
              | none => rw [hw] at h; simp at h
              | some res2 =>
                  obtain ⟨fills2, q2, lv2, ix2⟩ := res2
                  rw [hw] at h
                  simp only [Option.some.injEq, Prod.mk.injEq] at h
                  obtain ⟨hf, -, hlv, -⟩ := h
                  obtain ⟨k2, hk2, hids2⟩ := ih q1 _ _ fills2 q2 lv2 ix2 hw j
                  obtain ⟨k1, hfill1, hdrop, -, -⟩ :=
                    matchOrders_some (priceOf i) qty (levels i) fills1 q1 lvl' hm
                  have hmk1 : ∀ o ∈ (levels i).take k1,
                      o.id ∈ fills1.map (fun fl => fl.maker_order_id) := by
                    intro o ho
                    rw [hfill1]
                    simp only [List.map_map, List.mem_map]
                    exact ⟨o, ho, rfl⟩
                  by_cases hj : j = i
                  · subst hj
                    refine ⟨k1 + k2, ?_, ?_⟩
                    · rw [← hlv, hk2]
                      simp only [updateFn, eq_self_iff_true, if_true, hdrop, List.drop_drop]
                    · intro o ho
                      rw [List.take_add] at ho
                      rw [← hf, List.map_append]
                      rcases List.mem_append.1 ho with ho | ho
                      · exact List.mem_append.2 (Or.inl (hmk1 o ho))
                      · refine List.mem_append.2 (Or.inr ?_)
                        apply hids2 o
                        simpa [updateFn, hdrop] using ho
                  · refine ⟨k2, ?_, ?_⟩
                    · rw [← hlv, hk2]
                      simp [updateFn, hj]
                    · intro o ho
                      rw [← hf, List.map_append]
                      refine List.mem_append.2 (Or.inr ?_)
                      apply hids2 o
                      simpa [updateFn, hj] using ho

theorem DWF_exec (b : Orderbook) (side : Side) (q : Nat) (res : Except String (List Fill))
    (b' : Orderbook) (hx : b.execute_market_order side q = some (res, b'))
    (h : DWF b) : DWF b' := by
  unfold Orderbook.execute_market_order at hx
  cases hc : b.execCore side q with
  | none => rw [hc] at hx; simp at hx
  | some r0 =>
      obtain ⟨fills, rem, b2⟩ := r0
      rw [hc] at hx
      simp only [Option.map_some', Option.some.injEq, Prod.mk.injEq] at hx
      obtain ⟨-, hb2⟩ := hx
      subst hb2
      cases side with
      | Bid =>
          unfold Orderbook.execCore at hc
          cases hw : walkLevels (fun i => i * TICK_SIZE) q b.order_index b.asks
              (List.range ELEMENT_NUM) with
          | none => rw [hw] at hc; simp at hc
          | some r1 =>
              obtain ⟨f0, r0, lv0, ix0⟩ := r1
              rw [hw] at hc
              simp only [Option.map_some', Option.some.injEq, Prod.mk.injEq] at hc
              obtain ⟨hf, -, hb⟩ := hc
              subst hf
              subst hb
              have hix := walkLevels_index _ _ q b.order_index b.asks f0 r0 lv0 ix0 hw
              have hcons := walkLevels_consumed _ _ q b.order_index b.asks f0 r0 lv0 ix0 hw
              refine ⟨h.boundsB, ?_, h.zeroB, ?_, h.sideB, ?_, h.posB, ?_, ?_, ?_, ?_⟩
              · intro p hp
                dsimp only
                obtain ⟨k, hk, -⟩ := hcons p
                rw [hk, h.boundsA p hp, List.drop_nil]
              · dsimp only
                obtain ⟨k, hk, -⟩ := hcons 0
                rw [hk, h.zeroA, List.drop_nil]
              · intro p o' ho'
                dsimp only at ho'
                obtain ⟨k, hk, -⟩ := hcons p
                rw [hk] at ho'
                exact h.sideA p o' (List.mem_of_mem_drop ho')
              · intro p o' ho'
                dsimp only at ho'
                obtain ⟨k, hk, -⟩ := hcons p
                rw [hk] at ho'
                exact h.posA p o' (List.mem_of_mem_drop ho')
              · dsimp only
                rw [hix]
                exact idxNodup_removeIds _ _ h.nodup
              · intro id p hl
                dsimp only at hl ⊢
                rw [hix] at hl
                have hl0 := idxLookup_removeIds _ _ id _ h.nodup hl
                obtain ⟨h1, h2, o', hmem, hido⟩ := h.soundB id p hl0
                exact ⟨h1, h2, o', hmem, hido⟩
              · intro id p hl
                dsimp only at hl ⊢
                rw [hix] at hl
                have hnot := not_mem_of_lookup_removeIds _ _ id _ h.nodup hl
                have hl0 := idxLookup_removeIds _ _ id _ h.nodup hl
                obtain ⟨h1, h2, o', hmem, hido⟩ := h.soundA id p hl0
                refine ⟨h1, h2, o', ?_, hido⟩
                obtain ⟨k, hk, hids⟩ := hcons p
                rw [hk]
                have hsplit := List.take_append_drop k (b.asks p)
                rcases List.mem_append.1 (hsplit ▸ hmem) with hmem' | hmem'
                · exact absurd (hido ▸ hids o' hmem') hnot
                · exact hmem'
      | Ask =>
          unfold Orderbook.execCore at hc
          cases hw : walkLevels (fun i => i * TICK_SIZE) q b.order_index b.bids
              (List.range ELEMENT_NUM).reverse with
          | none => rw [hw] at hc; simp at hc
          | some r1 =>
              obtain ⟨f0, r0, lv0, ix0⟩ := r1
              rw [hw] at hc
              simp only [Option.map_some', Option.some.injEq, Prod.mk.injEq] at hc
              obtain ⟨hf, -, hb⟩ := hc
              subst hf
              subst hb
              have hix := walkLevels_index _ _ q b.order_index b.bids f0 r0 lv0 ix0 hw
              have hcons := walkLevels_consumed _ _ q b.order_index b.bids f0 r0 lv0 ix0 hw
              refine ⟨?_, h.boundsA, ?_, h.zeroA, ?_, h.sideA, ?_, h.posA, ?_, ?_, ?_⟩
              · intro p hp
                dsimp only
                obtain ⟨k, hk, -⟩ := hcons p
                rw [hk, h.boundsB p hp, List.drop_nil]
              · dsimp only
                obtain ⟨k, hk, -⟩ := hcons 0
                rw [hk, h.zeroB, List.drop_nil]
              · intro p o' ho'
                dsimp only at ho'
                obtain ⟨k, hk, -⟩ := hcons p
                rw [hk] at ho'
                exact h.sideB p o' (List.mem_of_mem_drop ho')
              · intro p o' ho'
                dsimp only at ho'
                obtain ⟨k, hk, -⟩ := hcons p
                rw [hk] at ho'
                exact h.posB p o' (List.mem_of_mem_drop ho')
              · dsimp only
                rw [hix]
                exact idxNodup_removeIds _ _ h.nodup
              · intro id p hl
                dsimp only at hl ⊢
                rw [hix] at hl
                have hnot := not_mem_of_lookup_removeIds _ _ id _ h.nodup hl
                have hl0 := idxLookup_removeIds _ _ id _ h.nodup hl
                obtain ⟨h1, h2, o', hmem, hido⟩ := h.soundB id p hl0
                refine ⟨h1, h2, o', ?_, hido⟩
                obtain ⟨k, hk, hids⟩ := hcons p
                rw [hk]
                have hsplit := List.take_append_drop k (b.bids p)
                rcases List.mem_append.1 (hsplit ▸ hmem) with hmem' | hmem'
                · exact absurd (hido ▸ hids o' hmem') hnot
                · exact hmem'
              · intro id p hl
                dsimp only at hl ⊢
                rw [hix] at hl
                have hl0 := idxLookup_removeIds _ _ id _ h.nodup hl
                exact h.soundA id p hl0

/-- Every dense step preserves well-formedness. -/
theorem DWF_step (b : Orderbook) (op : Op) (fo : Option (List Fill)) (b' : Orderbook)
    (h : DWF b) (hs : stepD b op = some (fo, b')) : DWF b' := by
  cases op with
  | add o =>
      simp only [stepD, Option.some.injEq, Prod.mk.injEq] at hs
      rw [← hs.2]
      exact DWF_add b o h
  | cancel id =>
      simp only [stepD, Option.some.injEq, Prod.mk.injEq] at hs
      rw [← hs.2]
      exact DWF_cancel b id h
  | market side q =>
      simp only [stepD] at hs
      cases hx : b.execute_market_order side q with
      | none => rw [hx] at hs; simp at hs
      | some r =>
          obtain ⟨res, b2⟩ := r
          rw [hx] at hs
          simp only [Option.map_some', Option.some.injEq, Prod.mk.injEq] at hs
          rw [← hs.2]
          exact DWF_exec b side q res b2 hx h

/-- Every dense book reached from the empty book is well-formed. -/
theorem DWF_run (ops : List Op) : ∀ (b b' : Orderbook), DWF b →
    execOpsD b ops = some b' → DWF b' := by
  induction ops with
  | nil =>
      intro b b' h hrun
      simp only [execOpsD, Option.some.injEq] at hrun
      rwa [← hrun]
  | cons op rest ih =>
      intro b b' h hrun
      simp only [execOpsD] at hrun
      cases hs : stepD b op with
      | none => rw [hs] at hrun; simp at hrun
      | some r =>
          obtain ⟨fo, b1⟩ := r
          rw [hs] at hrun
          exact ih b1 b' (DWF_step b op fo b1 h hs) hrun

/-! ## SoA refinement: the SoA book as the columnwise image of the dense book -/

/-- Columnwise image of an AoS level. -/
def soaOfLevel (l : List Order) : LevelSoA :=
  ⟨l.map (fun o => o.id), l.map (fun o => o.side), l.map (fun o => o.price),
    l.map (fun o => o.quantity)⟩

/-- Columnwise image of a dense book. -/
def soaBookOf (d : Orderbook) : SoAOrderbook :=
  { bids := fun p => soaOfLevel (d.bids p), asks := fun p => soaOfLevel (d.asks p),
    order_index := d.order_index }

theorem soaOfLevel_is_empty (l : List Order) : (soaOfLevel l).is_empty = l.isEmpty := by
  cases l <;> rfl

theorem soaOfLevel_add (l : List Order) (o : Order) :
    (soaOfLevel l).add_order o = soaOfLevel (l ++ [o]) := by
  simp [soaOfLevel, LevelSoA.add_order]

theorem eraseIdx_map (f : Order → Nat) (l : List Order) :
    ∀ n, (l.map f).eraseIdx n = (l.eraseIdx n).map f := by
  induction l with
  | nil => intro n; rfl
  | cons a rest ih =>
      intro n
      cases n with
      | zero => rfl
      | succ m =>
          simp only [List.map_cons, List.eraseIdx_cons_succ, ih m]

theorem eraseIdx_map_side (f : Order → Side) (l : List Order) :
    ∀ n, (l.map f).eraseIdx n = (l.eraseIdx n).map f := by
  induction l with
  | nil => intro n; rfl
  | cons a rest ih =>
      intro n
      cases n with
      | zero => rfl
      | succ m =>
          simp only [List.map_cons, List.eraseIdx_cons_succ, ih m]

theorem levelCancel_findIdx_none (id : Nat) (l : List Order)
    (h : l.findIdx? (fun o => o.id = id) = none) : levelCancel id l = l := by
  induction l with
  | nil => rfl
  | cons o rest ih =>
      rw [List.findIdx?_cons] at h
      by_cases ho : o.id = id
      · rw [if_pos (by simp [ho])] at h
        exact absurd h (by simp)
      · rw [if_neg (by simp [ho]), List.findIdx?_succ] at h
        simp only [levelCancel, if_neg ho]
        rw [ih (by simpa using h)]

theorem levelCancel_findIdx_some (id : Nat) (l : List Order) :
    ∀ pos, l.findIdx? (fun o => o.id = id) = some pos →
      levelCancel id l = l.eraseIdx pos := by
  induction l with
  | nil => intro pos h; exact absurd h (by simp [List.findIdx?])
  | cons o rest ih =>
      intro pos h
      rw [List.findIdx?_cons] at h
      by_cases ho : o.id = id
      · rw [if_pos (by simp [ho])] at h
        simp only [Option.some.injEq] at h
        subst h
        simp [levelCancel, ho]
      · rw [if_neg (by simp [ho]), List.findIdx?_succ] at h
        cases hf : rest.findIdx? (fun o => o.id = id) with
        | none => rw [hf] at h; exact absurd h (by simp)
        | some m =>
            rw [hf] at h
            simp only [Option.map_some', Option.some.injEq] at h
            subst h
            simp only [levelCancel, if_neg ho, List.eraseIdx_cons_succ]
            rw [ih m hf]

theorem soaOfLevel_cancel (id : Nat) (l : List Order) :
    (soaOfLevel l).cancel_order id = soaOfLevel (levelCancel id l) := by
  unfold LevelSoA.cancel_order
  have hids : (soaOfLevel l).ids = l.map (fun o => o.id) := rfl
  rw [hids, List.findIdx?_map]
  have hcomp : ((fun i => decide (i = id)) ∘ fun o : Order => o.id) =
      (fun o : Order => decide (o.id = id)) := rfl
  rw [hcomp]
  cases hf : l.findIdx? (fun o => o.id = id) with
  | none => rw [levelCancel_findIdx_none id l hf]
  | some pos =>
      rw [levelCancel_findIdx_some id l pos hf]
      show (⟨((soaOfLevel l).ids).eraseIdx pos, ((soaOfLevel l).sides).eraseIdx pos,
        ((soaOfLevel l).prices).eraseIdx pos, ((soaOfLevel l).quantities).eraseIdx pos⟩ :
          LevelSoA) = soaOfLevel (l.eraseIdx pos)
      rw [show (soaOfLevel l).ids = l.map (fun o => o.id) from rfl,
        show (soaOfLevel l).sides = l.map (fun o => o.side) from rfl,
        show (soaOfLevel l).prices = l.map (fun o => o.price) from rfl,
        show (soaOfLevel l).quantities = l.map (fun o => o.quantity) from rfl,
        eraseIdx_map _ l pos, eraseIdx_map_side _ l pos, eraseIdx_map _ l pos,
        eraseIdx_map _ l pos]
      rfl

theorem soaConsume_eq_matchOrders (p : Nat) (l : List Order) :
    ∀ q, soaConsume p q (l.map (fun o => (o.id, o.quantity))) =
      (matchOrders p q l).map (fun r => (r.1, r.2.1, l.length - r.2.2.length)) := by
  induction l with
  | nil => intro q; rfl
  | cons o rest ih =>
      intro q
      by_cases hq : q = 0
      · subst hq
        simp [soaConsume, matchOrders]
      · by_cases hle : o.quantity ≤ q
        · simp only [List.map_cons, soaConsume, if_neg hq, if_pos hle, matchOrders]
          rw [ih (q - o.quantity)]
          cases hm : matchOrders p (q - o.quantity) rest with
          | none => rfl
          | some r =>
              obtain ⟨fills, r', os'⟩ := r
              obtain ⟨k, -, hdrop, -, -⟩ :=
                matchOrders_some p (q - o.quantity) rest fills r' os' hm
              have hlen : os'.length ≤ rest.length := by
                rw [hdrop, List.length_drop]
                omega
              simp only [Option.map_some', List.length_cons]
              have hnat : rest.length - os'.length + 1 = rest.length + 1 - os'.length := by
                omega
              rw [hnat]
        · simp [soaConsume, matchOrders, hq, hle]

theorem soaMatch_of_aos (p q : Nat) (l : List Order) :
    (soaOfLevel l).match_orders p q =
      (matchOrders p q l).map (fun r => (r.1, r.2.1, soaOfLevel r.2.2)) := by
  unfold LevelSoA.match_orders
  have hzip : ((soaOfLevel l).ids).zip ((soaOfLevel l).quantities) =
      l.map (fun o => (o.id, o.quantity)) := List.zip_map' _ _ l
  rw [hzip, soaConsume_eq_matchOrders]
  cases hm : matchOrders p q l with
  | none => rfl
  | some r =>
      obtain ⟨fills, r', os'⟩ := r
      obtain ⟨k, -, hdrop, -, -⟩ := matchOrders_some p q l fills r' os' hm
      have hdk : l.drop (l.length - os'.length) = os' := by
        rw [hdrop, List.length_drop]
        rcases le_or_lt k l.length with hk | hk
        · have : l.length - (l.length - k) = k := by omega
          rw [this]
        · have h1 : l.drop k = [] := List.drop_eq_nil_of_le (le_of_lt hk)
          have h2 : l.length - (l.length - k) = l.length := by omega
          rw [h2, h1, List.drop_eq_nil_of_le (le_refl _)]
      simp only [Option.map_some']
      refine congrArg some (congrArg (fun z => (fills, r', z)) ?_)
      show (⟨((soaOfLevel l).ids).drop (l.length - os'.length),
        ((soaOfLevel l).sides).drop (l.length - os'.length),
        ((soaOfLevel l).prices).drop (l.length - os'.length),
        ((soaOfLevel l).quantities).drop (l.length - os'.length)⟩ : LevelSoA) = soaOfLevel os'
      rw [show (soaOfLevel l).ids = l.map (fun o => o.id) from rfl,
        show (soaOfLevel l).sides = l.map (fun o => o.side) from rfl,
        show (soaOfLevel l).prices = l.map (fun o => o.price) from rfl,
        show (soaOfLevel l).quantities = l.map (fun o => o.quantity) from rfl,
        ← List.map_drop, ← List.map_drop, ← List.map_drop, ← List.map_drop, hdk]
      rfl

theorem walkS_of_walkD (is : List Nat) :
    ∀ (qty : Nat) (idx : OrderIndex) (levels : Nat → List Order),
      walkLevelsS qty idx (fun j => soaOfLevel (levels j)) is =
        (walkLevels (fun i => i * TICK_SIZE) qty idx levels is).map
          (fun r => (r.1, r.2.1, fun j => soaOfLevel (r.2.2.1 j), r.2.2.2)) := by
  induction is with
  | nil => intro qty idx levels; rfl
  | cons i rest ih =>
      intro qty idx levels
      by_cases hq : qty = 0
      · subst hq
        simp [walkLevelsS, walkLevels]
      · simp only [walkLevelsS, walkLevels, if_neg hq]
        rw [soaOfLevel_is_empty]
        by_cases he : (levels i).isEmpty
        · rw [if_pos he, if_pos he]
          exact ih qty idx levels
        · rw [if_neg he, if_neg he]
          rw [soaMatch_of_aos]
          cases hm : matchOrders (i * TICK_SIZE) qty (levels i) with
          | none => rfl
          | some r =>
              obtain ⟨fills, q', lvl'⟩ := r
              simp only [Option.map_some']
              have hupd : updateFnS (fun j => soaOfLevel (levels j)) i (soaOfLevel lvl') =
                  (fun j => soaOfLevel (updateFn levels i lvl' j)) := by
                funext j
                by_cases hj : j = i <;> simp [updateFnS, updateFn, hj]
              rw [hupd, ih q' (removeIds (fills.map (fun fl => fl.maker_order_id)) idx)
                (updateFn levels i lvl')]
              cases walkLevels (fun i => i * TICK_SIZE) q'
                  (removeIds (fills.map (fun fl => fl.maker_order_id)) idx)
                  (updateFn levels i lvl') rest with
              | none => rfl
              | some r2 => rfl

theorem soaBookOf_new : soaBookOf Orderbook.new = SoAOrderbook.new := rfl

theorem updateFnS_soa (levels : Nat → List Order) (i : Nat) (l : List Order) :
    updateFnS (fun p => soaOfLevel (levels p)) i (soaOfLevel l) =
      (fun p => soaOfLevel (updateFn levels i l p)) := by
  funext j
  by_cases hj : j = i <;> simp [updateFnS, updateFn, hj]

theorem soaAdd_of_dense (d : Orderbook) (o : Order) :
    (soaBookOf d).add_order o = ((d.add_order o).1, soaBookOf (d.add_order o).2) := by
  by_cases hp : o.price = 0 ∨ MAX_PRICE ≤ o.price
  · simp [SoAOrderbook.add_order, addD_characterization, TICK_SIZE, LOT_SIZE,
      Nat.mod_one, hp]
  · by_cases hq : o.quantity = 0
    · simp [SoAOrderbook.add_order, addD_characterization, TICK_SIZE, LOT_SIZE,
        Nat.mod_one, hp, hq]
    · cases hs : o.side <;>
        simp [SoAOrderbook.add_order, addD_characterization, soaBookOf, TICK_SIZE,
          LOT_SIZE, Nat.mod_one, hp, hq, hs, soaOfLevel_add, updateFnS_soa]

theorem soaCancel_of_dense (d : Orderbook) (id : Nat) :
    (soaBookOf d).cancel_order id = ((d.cancel_order id).1, soaBookOf (d.cancel_order id).2) := by
  unfold SoAOrderbook.cancel_order Orderbook.cancel_order
  have hidx : (soaBookOf d).order_index = d.order_index := rfl
  rw [hidx]
  cases hl : idxLookup id d.order_index with
  | none => rfl
  | some v =>
      obtain ⟨side, price⟩ := v
      cases side <;>
        simp [soaBookOf, soaOfLevel_cancel, updateFnS_soa]

theorem soaExecCore_of_dense (d : Orderbook) (side : Side) (q : Nat) :
    (soaBookOf d).execCore side q =
      (d.execCore side q).map (fun r => (r.1, r.2.1, soaBookOf r.2.2)) := by
  cases side with
  | Bid =>
      unfold SoAOrderbook.execCore Orderbook.execCore
      have hb : (soaBookOf d).asks = fun j => soaOfLevel (d.asks j) := rfl
      have hi : (soaBookOf d).order_index = d.order_index := rfl
      rw [hb, hi, walkS_of_walkD]
      cases walkLevels (fun i => i * TICK_SIZE) q d.order_index d.asks
          (List.range ELEMENT_NUM) with
      | none => rfl
      | some r => rfl
  | Ask =>
      unfold SoAOrderbook.execCore Orderbook.execCore
      have hb : (soaBookOf d).bids = fun j => soaOfLevel (d.bids j) := rfl
      have hi : (soaBookOf d).order_index = d.order_index := rfl
      rw [hb, hi, walkS_of_walkD]
      cases walkLevels (fun i => i * TICK_SIZE) q d.order_index d.bids
          (List.range ELEMENT_NUM).reverse with
      | none => rfl
      | some r => rfl

/-- The partial-fill error strings differ between the representations
(`partialMsgDense` vs `partialMsg`), but `fillsOut` maps both error paths to
`none`, so one step of the SoA book mirrors one step of the dense book. -/
theorem stepS_of_stepD (d : Orderbook) (op : Op) :
    stepS (soaBookOf d) op = (stepD d op).map (fun r => (r.1, soaBookOf r.2)) := by
  cases op with
  | add o =>
      simp only [stepS, stepD, Option.map_some']
      rw [soaAdd_of_dense]
  | cancel id =>
      simp only [stepS, stepD, Option.map_some']
      rw [soaCancel_of_dense]
  | market side q =>
      simp only [stepS, stepD]
      unfold SoAOrderbook.execute_market_order Orderbook.execute_market_order
      rw [soaExecCore_of_dense]
      cases d.execCore side q with
      | none => rfl
      | some r =>
          obtain ⟨fills, rem, d2⟩ := r
          simp only [Option.map_some', fillsOut]
          by_cases hr : 0 < rem
          · simp [hr]
          · simp [hr]

theorem soaBookOf_best_bid (d : Orderbook) : (soaBookOf d).best_bid = d.best_bid := by
  unfold SoAOrderbook.best_bid Orderbook.best_bid
  have h : (fun i => !((soaBookOf d).bids i).is_empty) = (fun i => !(d.bids i).isEmpty) := by
    funext i
    rw [show (soaBookOf d).bids i = soaOfLevel (d.bids i) from rfl, soaOfLevel_is_empty]
  rw [h]

theorem soaBookOf_best_ask (d : Orderbook) : (soaBookOf d).best_ask = d.best_ask := by
  unfold SoAOrderbook.best_ask Orderbook.best_ask
  have h : (fun i => !((soaBookOf d).asks i).is_empty) = (fun i => !(d.asks i).isEmpty) := by
    funext i
    rw [show (soaBookOf d).asks i = soaOfLevel (d.asks i) from rfl, soaOfLevel_is_empty]
  rw [h]

theorem soaBookOf_depth (d : Orderbook) (p : Nat) (sd : Side) :
    (soaBookOf d).depth_at_price p sd = d.depth_at_price p sd := by
  unfold SoAOrderbook.depth_at_price Orderbook.depth_at_price
  split_ifs
  · rfl
  · rfl
  · cases sd <;> rfl

/-- Observation trace of the SoA image of a dense book equals the dense trace. -/
theorem runObsS_of_dense (ops : List Op) : ∀ d : Orderbook,
    runObsS (soaBookOf d) ops = runObsD d ops := by
  induction ops with
  | nil => intro d; rfl
  | cons op rest ih =>
      intro d
      simp only [runObsS, runObsD]
      rw [stepS_of_stepD]
      cases hs : stepD d op with
      | none => rfl
      | some r =>
          obtain ⟨fo, d'⟩ := r
          simp only [Option.map_some']
          rw [ih d']
          cases runObsD d' rest with
          | none => simp only [Option.map_none']
          | some os =>
              have hd : (fun p s => (soaBookOf d').depth_at_price p s) =
                  (fun p s => d'.depth_at_price p s) := by
                funext p s
                exact soaBookOf_depth d' p s
              simp only [Option.map_some', Option.some.injEq]
              rw [soaBookOf_best_bid, soaBookOf_best_ask, hd]

/-- Final state of an SoA run started from the image of a dense book. -/
theorem execOpsS_of_dense (ops : List Op) : ∀ d : Orderbook,
    execOpsS (soaBookOf d) ops = (execOpsD d ops).map soaBookOf := by
  induction ops with
  | nil => intro d; rfl
  | cons op rest ih =>
      intro d
      simp only [execOpsS, execOpsD]
      rw [stepS_of_stepD]
      cases hs : stepD d op with
      | none => rfl
      | some r =>
          obtain ⟨fo, d'⟩ := r
          simp only [Option.map_some']
          exact ih d'

/-! ## Tree refinement: the tree book as the filtered image of the dense book -/

/-- The sorted association list a dense side induces on a list of slots: one
entry per non-empty level, in slot order. -/
def filterLevels (levels : Nat → List Order) (is : List Nat) : TreeSide :=
  is.filterMap (fun i => if (levels i).isEmpty then none else some (i, levels i))

theorem filterLevels_nil (f : Nat → List Order) : filterLevels f [] = [] := rfl

theorem filterLevels_cons_empty (f : Nat → List Order) (i : Nat) (rest : List Nat)
    (h : (f i).isEmpty = true) : filterLevels f (i :: rest) = filterLevels f rest := by
  have h' : f i = [] := List.isEmpty_iff.1 h
  simp [filterLevels, List.filterMap_cons, h']

theorem filterLevels_cons_ne (f : Nat → List Order) (i : Nat) (rest : List Nat)
    (h : (f i).isEmpty = false) :
    filterLevels f (i :: rest) = (i, f i) :: filterLevels f rest := by
  have h' : ¬ f i = [] := by simpa using h
  simp [filterLevels, List.filterMap_cons, h']

theorem filterLevels_congr (f g : Nat → List Order) (is : List Nat)
    (h : ∀ i ∈ is, f i = g i) : filterLevels f is = filterLevels g is := by
  induction is with
  | nil => rfl
  | cons i rest ih =>
      have hi : f i = g i := h i (by simp)
      have hrest : ∀ j ∈ rest, f j = g j := fun j hj => h j (List.mem_cons_of_mem _ hj)
      cases he : (f i).isEmpty with
      | true =>
          rw [filterLevels_cons_empty f i rest he,
            filterLevels_cons_empty g i rest (hi ▸ he), ih hrest]
      | false =>
          rw [filterLevels_cons_ne f i rest he,
            filterLevels_cons_ne g i rest (hi ▸ he), ih hrest, hi]

theorem filterLevels_reverse (f : Nat → List Order) (is : List Nat) :
    filterLevels f is.reverse = (filterLevels f is).reverse :=
  List.filterMap_reverse _ is

theorem mem_filterLevels (f : Nat → List Order) (is : List Nat) (e : Nat × List Order)
    (h : e ∈ filterLevels f is) : e.1 ∈ is ∧ e.2 = f e.1 ∧ (f e.1).isEmpty = false := by
  obtain ⟨i, hi, hfi⟩ := List.mem_filterMap.1 h
  by_cases he : (f i).isEmpty
  · rw [if_pos he] at hfi
    exact absurd hfi (by simp)
  · rw [if_neg he] at hfi
    obtain rfl : (i, f i) = e := by simpa using hfi
    exact ⟨hi, rfl, by simpa using he⟩

theorem treeAdd_prepend (p : Nat) (o : Order) (ts : TreeSide)
    (h : ∀ e ∈ ts, p < e.1) : treeAdd p o ts = (p, [o]) :: ts := by
  cases ts with
  | nil => rfl
  | cons e rest =>
      obtain ⟨k, lvl⟩ := e
      have hk : p < k := h (k, lvl) (by simp)
      simp [treeAdd, hk]

theorem treeAdd_filterLevels (f : Nat → List Order) (p : Nat) (o : Order) (is : List Nat) :
    List.Pairwise (· < ·) is → p ∈ is →
      treeAdd p o (filterLevels f is) = filterLevels (updateFn f p (f p ++ [o])) is := by
  induction is with
  | nil => intro _ hp; simp at hp
  | cons i rest ih =>
      intro hsort hp
      have hlt : ∀ b ∈ rest, i < b := (List.pairwise_cons.1 hsort).1
      have hrest : List.Pairwise (· < ·) rest := (List.pairwise_cons.1 hsort).2
      by_cases hpi : p = i
      · subst hpi
        have hnot : p ∉ rest := fun hmem => absurd (hlt p hmem) (lt_irrefl p)
        have hg : ∀ j ∈ rest, updateFn f p (f p ++ [o]) j = f j := by
          intro j hj
          have : j ≠ p := fun hje => hnot (hje ▸ hj)
          simp [updateFn, this]
        have hgrest : filterLevels (updateFn f p (f p ++ [o])) rest = filterLevels f rest :=
          filterLevels_congr _ _ rest hg
        have hne : ((updateFn f p (f p ++ [o])) p).isEmpty = false := by
          simp [updateFn]
        cases he : (f p).isEmpty with
        | true =>
            rw [filterLevels_cons_empty f p rest he]
            have hkeys : ∀ e ∈ filterLevels f rest, p < e.1 := by
              intro e hmem
              exact hlt e.1 (mem_filterLevels f rest e hmem).1
            rw [treeAdd_prepend p o _ hkeys,
              filterLevels_cons_ne _ p rest hne, hgrest]
            have : f p = [] := List.isEmpty_iff.1 he
            simp [updateFn, this]
        | false =>
            rw [filterLevels_cons_ne f p rest he]
            simp only [treeAdd, lt_irrefl, if_neg (lt_irrefl p), eq_self_iff_true, if_true]
            rw [filterLevels_cons_ne _ p rest hne, hgrest]
            simp [updateFn]
      · have hp' : p ∈ rest := by
          rcases List.mem_cons.1 hp with h | h
          · exact absurd h hpi
          · exact h
        have hip : i < p := hlt p hp'
        have hgi : updateFn f p (f p ++ [o]) i = f i := by
          have hip' : i ≠ p := Ne.symm hpi
          simp [updateFn, hip']
        cases he : (f i).isEmpty with
        | true =>
            rw [filterLevels_cons_empty f i rest he,
              filterLevels_cons_empty _ i rest (by rw [hgi]; exact he)]
            exact ih hrest hp'
        | false =>
            rw [filterLevels_cons_ne f i rest he,
              filterLevels_cons_ne _ i rest (by rw [hgi]; exact he), hgi]
            have h1 : ¬ p < i := by omega
            have h2 : ¬ p = i := hpi
            simp only [treeAdd, if_neg h1, if_neg h2]
            rw [ih hrest hp']

theorem treeGet_filterLevels_not_mem (f : Nat → List Order) (p : Nat) (is : List Nat)
    (h : p ∉ is) : treeGet p (filterLevels f is) = none := by
  induction is with
  | nil => rfl
  | cons i rest ih =>
      simp only [List.mem_cons, not_or] at h
      cases he : (f i).isEmpty with
      | true =>
          rw [filterLevels_cons_empty f i rest he]
          exact ih h.2
      | false =>
          rw [filterLevels_cons_ne f i rest he]
          simp only [treeGet, if_neg (Ne.symm h.1)]
          exact ih h.2

theorem treeGet_filterLevels (f : Nat → List Order) (p : Nat) (is : List Nat)
    (hnd : is.Nodup) (hp : p ∈ is) :
    treeGet p (filterLevels f is) =
      if (f p).isEmpty then none else some (f p) := by
  induction is with
  | nil => simp at hp
  | cons i rest ih =>
      obtain ⟨hni, hndr⟩ := List.nodup_cons.1 hnd
      by_cases hpi : p = i
      · subst hpi
        cases he : (f p).isEmpty with
        | true =>
            rw [filterLevels_cons_empty f p rest he,
              treeGet_filterLevels_not_mem f p rest hni]
            simp [he]
        | false =>
            rw [filterLevels_cons_ne f p rest he]
            simp [treeGet, he]
      · have hp' : p ∈ rest := by
          rcases List.mem_cons.1 hp with h | h
          · exact absurd h hpi
          · exact h
        cases he : (f i).isEmpty with
        | true =>
            rw [filterLevels_cons_empty f i rest he]
            exact ih hndr hp'
        | false =>
            rw [filterLevels_cons_ne f i rest he]
            have hip : i ≠ p := Ne.symm hpi
            simp only [treeGet, if_neg hip]
            exact ih hndr hp'

theorem treeRemoveKey_absent (p : Nat) (ts : TreeSide)
    (h : ∀ e ∈ ts, e.1 ≠ p) : treeRemoveKey p ts = ts := by
  induction ts with
  | nil => rfl
  | cons e rest ih =>
      obtain ⟨k, lvl⟩ := e
      have hk : k ≠ p := h (k, lvl) (by simp)
      simp only [treeRemoveKey, if_neg hk]
      exact congrArg ((k, lvl) :: ·) (ih (fun e he => h e (List.mem_cons_of_mem _ he)))

theorem treeRemoveKey_filterLevels (f : Nat → List Order) (p : Nat) (is : List Nat)
    (hnd : is.Nodup) :
    treeRemoveKey p (filterLevels f is) = filterLevels (updateFn f p []) is := by
  induction is with
  | nil => rfl
  | cons i rest ih =>
      obtain ⟨hni, hndr⟩ := List.nodup_cons.1 hnd
      by_cases hpi : p = i
      · subst hpi
        have hg : ∀ j ∈ rest, f j = updateFn f p [] j := by
          intro j hj
          have : j ≠ p := fun hje => hni (hje ▸ hj)
          simp [updateFn, this]
        have hge : ((updateFn f p []) p).isEmpty = true := by simp [updateFn]
        rw [filterLevels_cons_empty _ p rest hge]
        cases he : (f p).isEmpty with
        | true =>
            rw [filterLevels_cons_empty f p rest he]
            rw [← filterLevels_congr _ _ rest hg]
            refine treeRemoveKey_absent p _ ?_
            intro e hmem hep
            exact hni (hep ▸ (mem_filterLevels f rest e hmem).1)
        | false =>
            rw [filterLevels_cons_ne f p rest he]
            simp only [treeRemoveKey, eq_self_iff_true, if_true]
            exact filterLevels_congr _ _ rest hg
      · have hgi : updateFn f p [] i = f i := by
          have : i ≠ p := Ne.symm hpi
          simp [updateFn, this]
        cases he : (f i).isEmpty with
        | true =>
            rw [filterLevels_cons_empty f i rest he,
              filterLevels_cons_empty _ i rest (by rw [hgi]; exact he)]
            exact ih hndr
        | false =>
            rw [filterLevels_cons_ne f i rest he,
              filterLevels_cons_ne _ i rest (by rw [hgi]; exact he), hgi]
            simp only [treeRemoveKey, if_neg (Ne.symm hpi)]
            rw [ih hndr]

theorem treeSet_filterLevels (f : Nat → List Order) (p : Nat) (l' : List Order) (is : List Nat)
    (hnd : is.Nodup) (hne : (f p).isEmpty = false) (hl' : l'.isEmpty = false) :
    treeSet p l' (filterLevels f is) = filterLevels (updateFn f p l') is := by
  induction is with
  | nil => rfl
  | cons i rest ih =>
      obtain ⟨hni, hndr⟩ := List.nodup_cons.1 hnd
      by_cases hpi : p = i
      · subst hpi
        have hg : ∀ j ∈ rest, f j = updateFn f p l' j := by
          intro j hj
          have : j ≠ p := fun hje => hni (hje ▸ hj)
          simp [updateFn, this]
        have hge : ((updateFn f p l') p).isEmpty = false := by simpa [updateFn] using hl'
        rw [filterLevels_cons_ne f p rest hne, filterLevels_cons_ne _ p rest hge]
        simp only [treeSet, eq_self_iff_true, if_true]
        rw [← filterLevels_congr _ _ rest hg]
        simp [updateFn]
      · have hgi : updateFn f p l' i = f i := by
          have : i ≠ p := Ne.symm hpi
          simp [updateFn, this]
        cases he : (f i).isEmpty with
        | true =>
            rw [filterLevels_cons_empty f i rest he,
              filterLevels_cons_empty _ i rest (by rw [hgi]; exact he)]
            exact ih hndr
        | false =>
            rw [filterLevels_cons_ne f i rest he,
              filterLevels_cons_ne _ i rest (by rw [hgi]; exact he), hgi]
            simp only [treeSet, if_neg (Ne.symm hpi)]
            rw [ih hndr]

/-- Slots not on the walk's itinerary are untouched. -/
theorem walkLevels_untouched (priceOf : Nat → Nat) (is : List Nat) :
    ∀ (qty : Nat) (idx : OrderIndex) (levels : Nat → List Order) (fills : List Fill)
      (r : Nat) (lv : Nat → List Order) (ix : OrderIndex),
      walkLevels priceOf qty idx levels is = some (fills, r, lv, ix) →
      ∀ j, j ∉ is → lv j = levels j := by
  induction is with
  | nil =>
      intro qty idx levels fills r lv ix h j _
      simp only [walkLevels, Option.some.injEq, Prod.mk.injEq] at h
      rw [← h.2.2.1]
  | cons i rest ih =>
      intro qty idx levels fills r lv ix h j hj
      simp only [List.mem_cons, not_or] at hj
      by_cases hq : qty = 0
      · subst hq
        simp only [walkLevels, eq_self_iff_true, if_true, Option.some.injEq,
          Prod.mk.injEq] at h
        rw [← h.2.2.1]
      · simp only [walkLevels, if_neg hq] at h
        by_cases he : (levels i).isEmpty
        · rw [if_pos he] at h
          exact ih qty idx levels fills r lv ix h j hj.2
        · rw [if_neg he] at h
          cases hm : matchOrders (priceOf i) qty (levels i) with
          | none => rw [hm] at h; simp at h
          | some res =>
              obtain ⟨fills1, q1, lvl'⟩ := res
              rw [hm] at h
              simp only at h
              cases hw : walkLevels priceOf q1
                  (removeIds (fills1.map (fun fl => fl.maker_order_id)) idx)
                  (updateFn levels i lvl') rest with
              | none => rw [hw] at h; simp at h
              | some res2 =>
                  obtain ⟨fills2, q2, lv2, ix2⟩ := res2
                  rw [hw] at h
                  simp only [Option.some.injEq, Prod.mk.injEq] at h
                  obtain ⟨-, -, hlv, -⟩ := h
                  rw [← hlv, ih q1 _ _ fills2 q2 lv2 ix2 hw j hj.2]
                  simp [updateFn, hj.1]

/-- The tree walk over the filtered image of a dense side is the dense walk
(with slot-index prices) followed by filtering. -/
theorem treeWalk_filterLevels (is : List Nat) :
    ∀ (qty : Nat) (idx : OrderIndex) (levels : Nat → List Order),
      is.Nodup →
      treeWalk qty idx (filterLevels levels is) =
        (walkLevels (fun i => i) qty idx levels is).map
          (fun r => (r.1, r.2.1, filterLevels r.2.2.1 is, r.2.2.2)) := by
  induction is with
  | nil => intro qty idx levels _; rfl
  | cons i rest ih =>
      intro qty idx levels hnd
      obtain ⟨hni, hndr⟩ := List.nodup_cons.1 hnd
      by_cases hq : qty = 0
      · subst hq
        rw [treeWalk_qty_zero]
        simp [walkLevels]
      · simp only [walkLevels, if_neg hq]
        by_cases he : (levels i).isEmpty
        · rw [if_pos he, filterLevels_cons_empty levels i rest (by simpa using he),
            ih qty idx levels hndr]
          cases hw : walkLevels (fun i => i) qty idx levels rest with
          | none => rfl
          | some r =>
              obtain ⟨f2, q2, lv2, ix2⟩ := r
              simp only [Option.map_some', Option.some.injEq, Prod.mk.injEq]
              refine ⟨trivial, trivial, ?_, trivial⟩
              rw [filterLevels_cons_empty lv2 i rest ?_]
              rw [walkLevels_untouched _ rest qty idx levels f2 q2 lv2 ix2 hw i hni]
              simpa using he
        · rw [if_neg he, filterLevels_cons_ne levels i rest (by simpa using he)]
          simp only [treeWalk, if_neg hq]
          cases hm : matchOrders i qty (levels i) with
          | none => rfl
          | some res =>
              obtain ⟨fills1, q1, lvl'⟩ := res
              simp only
              have hcongr : filterLevels levels rest =
                  filterLevels (updateFn levels i lvl') rest := by
                refine filterLevels_congr _ _ rest ?_
                intro j hj
                have : j ≠ i := fun hje => hni (hje ▸ hj)
                simp [updateFn, this]
              rw [hcongr, ih q1 (removeIds (fills1.map (fun fl => fl.maker_order_id)) idx)
                (updateFn levels i lvl') hndr]
              cases hw : walkLevels (fun i => i) q1
                  (removeIds (fills1.map (fun fl => fl.maker_order_id)) idx)
                  (updateFn levels i lvl') rest with
              | none => rfl
              | some r =>
                  obtain ⟨f2, q2, lv2, ix2⟩ := r
                  simp only [Option.map_some', Option.some.injEq, Prod.mk.injEq]
                  refine ⟨trivial, trivial, ?_, trivial⟩
                  have hunt : lv2 i = lvl' := by
                    rw [walkLevels_untouched _ rest q1 _ _ f2 q2 lv2 ix2 hw i hni]
                    simp [updateFn]
                  cases hle : lvl'.isEmpty with
                  | true =>
                      rw [if_pos (by simp [hle]),
                        filterLevels_cons_empty lv2 i rest (by rw [hunt]; exact hle)]
                  | false =>
                      rw [if_neg (by simp [hle]),
                        filterLevels_cons_ne lv2 i rest (by rw [hunt]; exact hle), hunt]

theorem mulTick_id : (fun i : Nat => i * TICK_SIZE) = (fun i : Nat => i) := by
  funext i
  show i * TICK_SIZE = i
  simp [TICK_SIZE]

/-- The slot list of the dense arrays, kept irreducible so that unification
never evaluates the 10000-element range. -/
@[irreducible] def SLOTS : List Nat := List.range ELEMENT_NUM

theorem SLOTS_eq : SLOTS = List.range ELEMENT_NUM := by
  unfold SLOTS
  rfl

theorem SLOTS_nodup : SLOTS.Nodup := by
  rw [SLOTS_eq]
  exact List.nodup_range _

theorem SLOTS_rev_nodup : SLOTS.reverse.Nodup := List.nodup_reverse.2 SLOTS_nodup

theorem SLOTS_sorted : List.Pairwise (· < ·) SLOTS := by
  rw [SLOTS_eq]
  exact List.pairwise_lt_range _

theorem mem_SLOTS (p : Nat) : p ∈ SLOTS ↔ p < ELEMENT_NUM := by
  rw [SLOTS_eq]
  exact List.mem_range

/-- The tree image of a dense book. -/
def treeBookOf (d : Orderbook) : TreeOrderbook :=
  { bids := filterLevels d.bids SLOTS,
    asks := filterLevels d.asks SLOTS,
    order_index := d.order_index }

theorem filterLevels_empty_fun (is : List Nat) :
    filterLevels (fun _ => []) is = [] := by
  induction is with
  | nil => rfl
  | cons i rest ih => rw [filterLevels_cons_empty (fun _ => []) i rest rfl, ih]

theorem treeBookOf_new : treeBookOf Orderbook.new = TreeOrderbook.new := by
  unfold treeBookOf TreeOrderbook.new Orderbook.new
  simp [filterLevels_empty_fun]

theorem treeAdd_of_dense (d : Orderbook) (o : Order) :
    (treeBookOf d).add_order o = ((d.add_order o).1, treeBookOf (d.add_order o).2) := by
  rw [addT_characterization, addD_characterization]
  by_cases hp : o.price = 0 ∨ MAX_PRICE ≤ o.price
  · simp [hp]
  · by_cases hq : o.quantity = 0
    · simp [hp, hq]
    · simp only [if_neg hp, if_neg hq]
      have hEM : ELEMENT_NUM = MAX_PRICE := by decide
      have hdiv : o.price / TICK_SIZE = o.price := Nat.div_one o.price
      have hmem : o.price ∈ SLOTS := by
        rw [mem_SLOTS]
        omega
      have hbidsEq : ∀ f : Nat → List Order,
          treeAdd o.price o (filterLevels f SLOTS) =
            filterLevels (updateFn f (o.price / TICK_SIZE)
              (f (o.price / TICK_SIZE) ++ [o])) SLOTS := by
        intro f
        rw [hdiv]
        exact treeAdd_filterLevels f o.price o _ SLOTS_sorted hmem
      cases hs : o.side <;>
        simp [treeBookOf, hbidsEq]

theorem findIdx_some_of_mem (id : Nat) (l : List Order) (o : Order) (hmem : o ∈ l)
    (ho : o.id = id) : ∃ pos, l.findIdx? (fun o => o.id = id) = some pos := by
  induction l with
  | nil => simp at hmem
  | cons y rest ih =>
      by_cases hy : y.id = id
      · exact ⟨0, by rw [List.findIdx?_cons, if_pos (by simp [hy])]⟩
      · have hor : o ∈ rest := by
          rcases List.mem_cons.1 hmem with rfl | h
          · exact absurd ho hy
          · exact h
        obtain ⟨pos, hpos⟩ := ih hor
        refine ⟨pos + 1, ?_⟩
        rw [List.findIdx?_cons, if_neg (by simp [hy]), List.findIdx?_succ, hpos]
        rfl

theorem treeCancel_of_dense (d : Orderbook) (id : Nat) (h : DWF d) :
    (treeBookOf d).cancel_order id =
      ((d.cancel_order id).1, treeBookOf (d.cancel_order id).2) := by
  unfold TreeOrderbook.cancel_order Orderbook.cancel_order
  simp only [treeBookOf]
  cases hl : idxLookup id d.order_index with
  | none => rfl
  | some v =>
      obtain ⟨side, price⟩ := v
      have hEM : ELEMENT_NUM = MAX_PRICE := by decide
      have hdiv : price / TICK_SIZE = price := Nat.div_one price
      cases side with
      | Bid =>
          obtain ⟨h1, h2, o, hmem, hido⟩ := h.soundB id price hl
          have hmemR : price ∈ SLOTS := by
            rw [mem_SLOTS]
            omega
          have hne : (d.bids price).isEmpty = false := by
            cases hbl : d.bids price with
            | nil => rw [hbl] at hmem; simp at hmem
            | cons a l => rfl
          have hget : treeGet price (filterLevels d.bids SLOTS) =
              some (d.bids price) := by
            rw [treeGet_filterLevels d.bids price _ SLOTS_nodup hmemR, hne]
            rfl
          obtain ⟨pos, hpos⟩ := findIdx_some_of_mem id (d.bids price) o hmem hido
          have hcancel : levelCancel id (d.bids price) = (d.bids price).eraseIdx pos :=
            levelCancel_findIdx_some id (d.bids price) pos hpos
          simp only
          rw [hget]
          simp only [hpos]
          cases hle : ((d.bids price).eraseIdx pos).isEmpty with
          | true =>
              have hnil : (d.bids price).eraseIdx pos = [] := List.isEmpty_iff.1 hle
              rw [if_pos rfl, treeRemoveKey_filterLevels d.bids price _ SLOTS_nodup]
              simp [hcancel, hdiv, hnil]
          | false =>
              rw [if_neg (by simp),
                treeSet_filterLevels d.bids price _ _ SLOTS_nodup hne hle]
              simp [hcancel, hdiv]
      | Ask =>
          obtain ⟨h1, h2, o, hmem, hido⟩ := h.soundA id price hl
          have hmemR : price ∈ SLOTS := by
            rw [mem_SLOTS]
            omega
          have hne : (d.asks price).isEmpty = false := by
            cases hbl : d.asks price with
            | nil => rw [hbl] at hmem; simp at hmem
            | cons a l => rfl
          have hget : treeGet price (filterLevels d.asks SLOTS) =
              some (d.asks price) := by
            rw [treeGet_filterLevels d.asks price _ SLOTS_nodup hmemR, hne]
            rfl
          obtain ⟨pos, hpos⟩ := findIdx_some_of_mem id (d.asks price) o hmem hido
          have hcancel : levelCancel id (d.asks price) = (d.asks price).eraseIdx pos :=
            levelCancel_findIdx_some id (d.asks price) pos hpos
          simp only
          rw [hget]
          simp only [hpos]
          cases hle : ((d.asks price).eraseIdx pos).isEmpty with
          | true =>
              have hnil : (d.asks price).eraseIdx pos = [] := List.isEmpty_iff.1 hle
              rw [if_pos rfl, treeRemoveKey_filterLevels d.asks price _ SLOTS_nodup]
              simp [hcancel, hdiv, hnil]
          | false =>
              rw [if_neg (by simp),
                treeSet_filterLevels d.asks price _ _ SLOTS_nodup hne hle]
              simp [hcancel, hdiv]

theorem treeExecCore_of_dense (d : Orderbook) (side : Side) (q : Nat) :
    (treeBookOf d).execCore side q =
      (d.execCore side q).map (fun r => (r.1, r.2.1, treeBookOf r.2.2)) := by
  cases side with
  | Bid =>
      unfold TreeOrderbook.execCore Orderbook.execCore
      simp only [treeBookOf]
      rw [← SLOTS_eq,
        treeWalk_filterLevels SLOTS q d.order_index d.asks SLOTS_nodup, mulTick_id]
      cases walkLevels (fun i => i) q d.order_index d.asks SLOTS with
      | none => rfl
      | some r => rfl
  | Ask =>
      unfold TreeOrderbook.execCore Orderbook.execCore
      simp only [treeBookOf]
      rw [← SLOTS_eq, ← filterLevels_reverse,
        treeWalk_filterLevels SLOTS.reverse q d.order_index d.bids SLOTS_rev_nodup,
        mulTick_id]
      cases walkLevels (fun i => i) q d.order_index d.bids SLOTS.reverse with
      | none => rfl
      | some r =>
          obtain ⟨fills, rem, lv, ix⟩ := r
          simp only [Option.map_some', Option.some.injEq, Prod.mk.injEq]
          refine ⟨trivial, trivial, ?_⟩
          simp [filterLevels_reverse]

theorem stepT_of_stepD (d : Orderbook) (op : Op) (h : DWF d) :
    stepT (treeBookOf d) op = (stepD d op).map (fun r => (r.1, treeBookOf r.2)) := by
  cases op with
  | add o =>
      simp only [stepT, stepD, Option.map_some']
      rw [treeAdd_of_dense]
  | cancel id =>
      simp only [stepT, stepD, Option.map_some']
      rw [treeCancel_of_dense d id h]
  | market side q =>
      simp only [stepT, stepD]
      unfold TreeOrderbook.execute_market_order Orderbook.execute_market_order
      rw [treeExecCore_of_dense]
      cases d.execCore side q with
      | none => rfl
      | some r =>
          obtain ⟨fills, rem, d2⟩ := r
          simp only [Option.map_some', fillsOut]
          by_cases hr : 0 < rem
          · simp [hr]
          · simp [hr]

theorem head_filterLevels_find (f : Nat → List Order) (is : List Nat) :
    (filterLevels f is).head?.map (fun e => e.1) = is.find? (fun i => !(f i).isEmpty) := by
  induction is with
  | nil => rfl
  | cons i rest ih =>
      cases he : (f i).isEmpty with
      | true =>
          rw [filterLevels_cons_empty f i rest he, ih]
          simp [List.find?, he]
      | false =>
          rw [filterLevels_cons_ne f i rest he]
          simp [List.find?, he]

theorem treeBookOf_best_ask (d : Orderbook) : (treeBookOf d).best_ask = d.best_ask := by
  unfold TreeOrderbook.best_ask Orderbook.best_ask
  simp only [treeBookOf]
  rw [← SLOTS_eq, head_filterLevels_find, mulTick_id, Option.map_id']

theorem treeBookOf_best_bid (d : Orderbook) : (treeBookOf d).best_bid = d.best_bid := by
  unfold TreeOrderbook.best_bid Orderbook.best_bid
  simp only [treeBookOf]
  rw [← SLOTS_eq, List.getLast?_eq_head?_reverse, ← filterLevels_reverse,
    head_filterLevels_find, mulTick_id, Option.map_id']

theorem treeBookOf_depth (d : Orderbook) (p : Nat) (sd : Side) :
    (treeBookOf d).depth_at_price p sd = d.depth_at_price p sd := by
  unfold TreeOrderbook.depth_at_price Orderbook.depth_at_price
  simp only [treeBookOf]
  by_cases h1 : p = 0 ∨ MAX_PRICE ≤ p
  · simp [h1]
  · have hEM : ELEMENT_NUM = MAX_PRICE := by decide
    have hdiv : p / TICK_SIZE = p := Nat.div_one p
    have hmem : p ∈ SLOTS := by
      rw [mem_SLOTS]
      omega
    have hmod : ¬ p % TICK_SIZE ≠ 0 := by
      simp [TICK_SIZE, Nat.mod_one]
    simp only [if_neg h1, if_neg hmod]
    cases sd with
    | Bid =>
        simp only
        rw [treeGet_filterLevels d.bids p _ SLOTS_nodup hmem, hdiv]
        cases he : (d.bids p).isEmpty with
        | true =>
            have hnil : d.bids p = [] := List.isEmpty_iff.1 he
            simp [hnil, totalQuantity]
        | false =>
            simp [he]
    | Ask =>
        simp only
        rw [treeGet_filterLevels d.asks p _ SLOTS_nodup hmem, hdiv]
        cases he : (d.asks p).isEmpty with
        | true =>
            have hnil : d.asks p = [] := List.isEmpty_iff.1 he
            simp [hnil, totalQuantity]
        | false =>
            simp [he]

/-- Observation trace of the tree image of a well-formed dense book equals the
dense trace. -/
theorem runObsT_of_dense (ops : List Op) : ∀ d : Orderbook, DWF d →
    runObsT (treeBookOf d) ops = runObsD d ops := by
  induction ops with
  | nil => intro d _; rfl
  | cons op rest ih =>
      intro d h
      simp only [runObsT, runObsD]
      rw [stepT_of_stepD d op h]
      cases hs : stepD d op with
      | none => rfl
      | some r =>
          obtain ⟨fo, d'⟩ := r
          simp only [Option.map_some']
          rw [ih d' (DWF_step d op fo d' h hs)]
          cases runObsD d' rest with
          | none => simp only [Option.map_none']
          | some os =>
              have hd : (fun p s => (treeBookOf d').depth_at_price p s) =
                  (fun p s => d'.depth_at_price p s) := by
                funext p s
                exact treeBookOf_depth d' p s
              simp only [Option.map_some', Option.some.injEq]
              rw [treeBookOf_best_bid, treeBookOf_best_ask, hd]

/-- Final state of a tree run started from the image of a well-formed dense
book. -/
theorem execOpsT_of_dense (ops : List Op) : ∀ d : Orderbook, DWF d →
    execOpsT (treeBookOf d) ops = (execOpsD d ops).map treeBookOf := by
  induction ops with
  | nil => intro d _; rfl
  | cons op rest ih =>
      intro d h
      simp only [execOpsT, execOpsD]
      rw [stepT_of_stepD d op h]
      cases hs : stepD d op with
      | none => rfl
      | some r =>
          obtain ⟨fo, d'⟩ := r
          simp only [Option.map_some']
          exact ih d' (DWF_step d op fo d' h hs)

/-! ## Claim C2: cross-representation equivalence -/

/-- Observation trace of a run on the hybrid book. -/
def runObsH (b : HybridOrderbook) : List Op → Option (List Obs)
  | [] => some []
  | op :: rest =>
      match stepH b op with
      | none => none
      | some (fo, b') =>
          (runObsH b' rest).map
            (fun os => ⟨b'.best_bid, b'.best_ask, fun p s => b'.depth_at_price p s, fo⟩ :: os)

/-- The best-ask column of an observation trace. -/
def basOf (r : Option (List Obs)) : Option (List (Option Nat)) :=
  r.map (fun os => os.map (fun o => o.ba))

/-- C2.  For every operation sequence from the empty book, the dense-array,
SoA and tree representations produce identical observation traces (best_bid,
best_ask, the full depth histogram after each operation, and each returned
fill list; a panic at the same point in each).  The hybrid representation is
excluded: it does not coincide with the other three (see the
counterexample). -/
theorem C2_representation_equivalence (ops : List Op) :
    runObsS SoAOrderbook.new ops = runObsD Orderbook.new ops ∧
    runObsT TreeOrderbook.new ops = runObsD Orderbook.new ops := by
  constructor
  · rw [← soaBookOf_new, runObsS_of_dense]
  · rw [← treeBookOf_new, runObsT_of_dense ops Orderbook.new DWF_new]

/-- Two admissible asks, at 100 (cold for the hybrid book) and 4950 (inside
the hybrid hot window [4900, 5100)). -/
def c2Ops : List Op := [.add ⟨0, .Ask, 100, 1⟩, .add ⟨1, .Ask, 4950, 1⟩]

/-- C2 counterexample: after the same two admissible adds, the hybrid book
reports best_ask 4950 (the hot window is consulted first) while the tree book
reports 100, so the four representations do not all agree. -/
theorem C2_counterexample :
    basOf (runObsH HybridOrderbook.new c2Ops) = some [some 100, some 4950] ∧
    basOf (runObsT TreeOrderbook.new c2Ops) = some [some 100, some 100] ∧
    runObsH HybridOrderbook.new c2Ops ≠ runObsT TreeOrderbook.new c2Ops := by
  have h1 : basOf (runObsH HybridOrderbook.new c2Ops) = some [some 100, some 4950] := by
    decide
  have h2 : basOf (runObsT TreeOrderbook.new c2Ops) = some [some 100, some 100] := by
    decide
  refine ⟨h1, h2, ?_⟩
  intro h
  rw [h, h2] at h1
  exact absurd h1 (by decide)

/-! ## Claim C3: best_bid / best_ask extremality -/

theorem bestAskD_eq (b : Orderbook) :
    b.best_ask = (List.range ELEMENT_NUM).find? (fun i => !(b.asks i).isEmpty) := by
  unfold Orderbook.best_ask
  rw [mulTick_id, Option.map_id']

theorem bestBidD_eq (b : Orderbook) :
    b.best_bid = (List.range ELEMENT_NUM).reverse.find? (fun i => !(b.bids i).isEmpty) := by
  unfold Orderbook.best_bid
  rw [mulTick_id, Option.map_id']

theorem depthA_zero_iff (d : Orderbook) (h : DWF d) (p : Nat) :
    d.depth_at_price p Side.Ask = 0 ↔ d.asks p = [] := by
  unfold Orderbook.depth_at_price
  have hEM : ELEMENT_NUM = MAX_PRICE := by decide
  by_cases h1 : p = 0 ∨ MAX_PRICE ≤ p
  · simp only [if_pos h1]
    constructor
    · intro _
      rcases h1 with h1 | h1
      · rw [h1]
        exact h.zeroA
      · exact h.boundsA p (by omega)
    · intro _
      trivial
  · have hmod : ¬ p % TICK_SIZE ≠ 0 := by simp [TICK_SIZE, Nat.mod_one]
    have hdiv : p / TICK_SIZE = p := Nat.div_one p
    simp only [if_neg h1, if_neg hmod, hdiv]
    show totalQuantity (d.asks p) = 0 ↔ d.asks p = []
    constructor
    · intro hz
      cases hal : d.asks p with
      | nil => rfl
      | cons o rest =>
          exfalso
          have hqo : 0 < o.quantity := h.posA p o (by rw [hal]; exact List.mem_cons_self _ _)
          rw [hal, totalQuantity_cons] at hz
          omega
    · intro hz
      rw [hz]
      rfl

theorem depthB_zero_iff (d : Orderbook) (h : DWF d) (p : Nat) :
    d.depth_at_price p Side.Bid = 0 ↔ d.bids p = [] := by
  unfold Orderbook.depth_at_price
  have hEM : ELEMENT_NUM = MAX_PRICE := by decide
  by_cases h1 : p = 0 ∨ MAX_PRICE ≤ p
  · simp only [if_pos h1]
    constructor
    · intro _
      rcases h1 with h1 | h1
      · rw [h1]
        exact h.zeroB
      · exact h.boundsB p (by omega)
    · intro _
      trivial
  · have hmod : ¬ p % TICK_SIZE ≠ 0 := by simp [TICK_SIZE, Nat.mod_one]
    have hdiv : p / TICK_SIZE = p := Nat.div_one p
    simp only [if_neg h1, if_neg hmod, hdiv]
    show totalQuantity (d.bids p) = 0 ↔ d.bids p = []
    constructor
    · intro hz
      cases hal : d.bids p with
      | nil => rfl
      | cons o rest =>
          exfalso
          have hqo : 0 < o.quantity := h.posB p o (by rw [hal]; exact List.mem_cons_self _ _)
          rw [hal, totalQuantity_cons] at hz
          omega
    · intro hz
      rw [hz]
      rfl

/-- The first hit of `find?` on a `Pairwise R` list is R-below every other
hit. -/
theorem find?_first_rel (R : Nat → Nat → Prop) (p : Nat → Bool) (is : List Nat)
    (hs : List.Pairwise R is) :
    ∀ i, is.find? p = some i → p i = true ∧ ∀ j ∈ is, p j = true → i = j ∨ R i j := by
  induction is with
  | nil => intro i h; simp at h
  | cons a rest ih =>
      intro i h
      obtain ⟨ha, hrest⟩ := List.pairwise_cons.1 hs
      by_cases hpa : p a = true
      · rw [List.find?_cons_of_pos _ hpa] at h
        obtain rfl : a = i := by simpa using h
        refine ⟨hpa, ?_⟩
        intro j hj _
        rcases List.mem_cons.1 hj with rfl | hj
        · exact Or.inl rfl
        · exact Or.inr (ha j hj)
      · rw [List.find?_cons_of_neg _ hpa] at h
        obtain ⟨hpi, hmin⟩ := ih hrest i h
        refine ⟨hpi, ?_⟩
        intro j hj hpj
        rcases List.mem_cons.1 hj with rfl | hj
        · exact absurd hpj hpa
        · exact hmin j hj hpj

theorem bestAskD_extremal (d : Orderbook) (h : DWF d) :
    (d.best_ask = none ↔ ∀ p, d.depth_at_price p Side.Ask = 0) ∧
    (∀ q, d.best_ask = some q → d.depth_at_price q Side.Ask ≠ 0 ∧
      ∀ p, d.depth_at_price p Side.Ask ≠ 0 → q ≤ p) := by
  have hEM : ELEMENT_NUM = MAX_PRICE := by decide
  constructor
  · rw [bestAskD_eq]
    constructor
    · intro hn p
      rw [depthA_zero_iff d h p]
      by_cases hp : p < ELEMENT_NUM
      · have := List.find?_eq_none.1 hn p (List.mem_range.2 hp)
        simpa [List.isEmpty_iff] using this
      · exact h.boundsA p (by omega)
    · intro hall
      apply List.find?_eq_none.2
      intro i _
      have := (depthA_zero_iff d h i).1 (hall i)
      simp [this]
  · intro q hq
    rw [bestAskD_eq] at hq
    obtain ⟨hpq, hmin⟩ := find?_first_rel (· < ·) _ _ (List.pairwise_lt_range _) q hq
    constructor
    · rw [Ne, depthA_zero_iff d h q]
      intro hnil
      rw [hnil] at hpq
      simp at hpq
    · intro p hp
      rw [Ne, depthA_zero_iff d h p] at hp
      have hplt : p < ELEMENT_NUM := by
        by_contra hge
        exact hp (h.boundsA p (by omega))
      have hm := hmin p (List.mem_range.2 hplt) (by simpa [List.isEmpty_iff] using hp)
      rcases hm with rfl | hlt
      · exact le_refl _
      · exact le_of_lt hlt

theorem bestBidD_extremal (d : Orderbook) (h : DWF d) :
    (d.best_bid = none ↔ ∀ p, d.depth_at_price p Side.Bid = 0) ∧
    (∀ q, d.best_bid = some q → d.depth_at_price q Side.Bid ≠ 0 ∧
      ∀ p, d.depth_at_price p Side.Bid ≠ 0 → p ≤ q) := by
  have hEM : ELEMENT_NUM = MAX_PRICE := by decide
  have hrev : List.Pairwise (fun a b => b < a) (List.range ELEMENT_NUM).reverse :=
    List.pairwise_reverse.2 (List.pairwise_lt_range _)
  constructor
  · rw [bestBidD_eq]
    constructor
    · intro hn p
      rw [depthB_zero_iff d h p]
      by_cases hp : p < ELEMENT_NUM
      · have := List.find?_eq_none.1 hn p (List.mem_reverse.2 (List.mem_range.2 hp))
        simpa [List.isEmpty_iff] using this
      · exact h.boundsB p (by omega)
    · intro hall
      apply List.find?_eq_none.2
      intro i _
      have := (depthB_zero_iff d h i).1 (hall i)
      simp [this]
  · intro q hq
    rw [bestBidD_eq] at hq
    obtain ⟨hpq, hmin⟩ := find?_first_rel (fun a b => b < a) _ _ hrev q hq
    constructor
    · rw [Ne, depthB_zero_iff d h q]
      intro hnil
      rw [hnil] at hpq
      simp at hpq
    · intro p hp
      rw [Ne, depthB_zero_iff d h p] at hp
      have hplt : p < ELEMENT_NUM := by
        by_contra hge
        exact hp (h.boundsB p (by omega))
      have hm := hmin p (List.mem_reverse.2 (List.mem_range.2 hplt))
        (by simpa [List.isEmpty_iff] using hp)
      rcases hm with rfl | hlt
      · exact le_refl _
      · exact le_of_lt hlt

/-- C3.  In every dense, SoA or tree book reached from the empty book,
best_ask is the lowest price with non-zero ask depth (none exactly when all
ask depths are zero) and best_bid is the highest price with non-zero bid
depth (none exactly when all bid depths are zero).  The claim's fourth
representation (hybrid) is excluded: its best prices are not extremal (see
the counterexample). -/
theorem C3_best_prices_extremal (ops : List Op) (d : Orderbook) (s : SoAOrderbook)
    (t : TreeOrderbook)
    (hd : execOpsD Orderbook.new ops = some d)
    (hs : execOpsS SoAOrderbook.new ops = some s)
    (ht : execOpsT TreeOrderbook.new ops = some t) :
    ((d.best_ask = none ↔ ∀ p, d.depth_at_price p Side.Ask = 0) ∧
      (∀ q, d.best_ask = some q → d.depth_at_price q Side.Ask ≠ 0 ∧
        ∀ p, d.depth_at_price p Side.Ask ≠ 0 → q ≤ p) ∧
      (d.best_bid = none ↔ ∀ p, d.depth_at_price p Side.Bid = 0) ∧
      (∀ q, d.best_bid = some q → d.depth_at_price q Side.Bid ≠ 0 ∧
        ∀ p, d.depth_at_price p Side.Bid ≠ 0 → p ≤ q)) ∧
    ((s.best_ask = none ↔ ∀ p, s.depth_at_price p Side.Ask = 0) ∧
      (∀ q, s.best_ask = some q → s.depth_at_price q Side.Ask ≠ 0 ∧
        ∀ p, s.depth_at_price p Side.Ask ≠ 0 → q ≤ p) ∧
      (s.best_bid = none ↔ ∀ p, s.depth_at_price p Side.Bid = 0) ∧
      (∀ q, s.best_bid = some q → s.depth_at_price q Side.Bid ≠ 0 ∧
        ∀ p, s.depth_at_price p Side.Bid ≠ 0 → p ≤ q)) ∧
    ((t.best_ask = none ↔ ∀ p, t.depth_at_price p Side.Ask = 0) ∧
      (∀ q, t.best_ask = some q → t.depth_at_price q Side.Ask ≠ 0 ∧
        ∀ p, t.depth_at_price p Side.Ask ≠ 0 → q ≤ p) ∧
      (t.best_bid = none ↔ ∀ p, t.depth_at_price p Side.Bid = 0) ∧
      (∀ q, t.best_bid = some q → t.depth_at_price q Side.Bid ≠ 0 ∧
        ∀ p, t.depth_at_price p Side.Bid ≠ 0 → p ≤ q)) := by
  have hwf : DWF d := DWF_run ops Orderbook.new d DWF_new hd
  have hdense := And.intro (bestAskD_extremal d hwf) (bestBidD_extremal d hwf)
  have hseq : s = soaBookOf d := by
    rw [← soaBookOf_new, execOpsS_of_dense, hd] at hs
    simpa using hs.symm
  have hteq : t = treeBookOf d := by
    rw [← treeBookOf_new, execOpsT_of_dense ops Orderbook.new DWF_new, hd] at ht
    simpa using ht.symm
  subst hseq
  subst hteq
  refine ⟨⟨hdense.1.1, hdense.1.2, hdense.2.1, hdense.2.2⟩, ?_, ?_⟩
  · simp only [soaBookOf_best_ask, soaBookOf_best_bid, soaBookOf_depth]
    exact ⟨hdense.1.1, hdense.1.2, hdense.2.1, hdense.2.2⟩
  · simp only [treeBookOf_best_ask, treeBookOf_best_bid, treeBookOf_depth]
    exact ⟨hdense.1.1, hdense.1.2, hdense.2.1, hdense.2.2⟩

/-- The hybrid book after the two adds of `c2Ops` (ask at 100 cold, ask at
4950 hot). -/
def c3HybridBook : HybridOrderbook :=
  ((HybridOrderbook.new.add_order ⟨0, .Ask, 100, 1⟩).2.add_order ⟨1, .Ask, 4950, 1⟩).2

/-- C3 counterexample: a hybrid book reachable by two admissible adds reports
best_ask 4950 although an ask is resting at the lower price 100 (non-zero
depth), so the hybrid best_ask is not the lowest resting ask price. -/
theorem C3_counterexample :
    execOpsH HybridOrderbook.new c2Ops = some c3HybridBook ∧
    c3HybridBook.best_ask = some 4950 ∧
    c3HybridBook.depth_at_price 100 Side.Ask = 1 ∧
    ¬ (4950 : Nat) ≤ 100 := by
  refine ⟨rfl, by decide, by decide, by decide⟩

def c3Ops : List Op := [.add ⟨0, .Ask, 100, 1⟩]

def c3D : Orderbook := (Orderbook.new.add_order ⟨0, .Ask, 100, 1⟩).2

def c3S : SoAOrderbook := (SoAOrderbook.new.add_order ⟨0, .Ask, 100, 1⟩).2

def c3T : TreeOrderbook := (TreeOrderbook.new.add_order ⟨0, .Ask, 100, 1⟩).2

theorem C3_best_prices_extremal_witness :
    execOpsD Orderbook.new c3Ops = some c3D ∧
    execOpsS SoAOrderbook.new c3Ops = some c3S ∧
    execOpsT TreeOrderbook.new c3Ops = some c3T ∧
    ((c3D.best_ask = none ↔ ∀ p, c3D.depth_at_price p Side.Ask = 0) ∧
      (∀ q, c3D.best_ask = some q → c3D.depth_at_price q Side.Ask ≠ 0 ∧
        ∀ p, c3D.depth_at_price p Side.Ask ≠ 0 → q ≤ p) ∧
      (c3D.best_bid = none ↔ ∀ p, c3D.depth_at_price p Side.Bid = 0) ∧
      (∀ q, c3D.best_bid = some q → c3D.depth_at_price q Side.Bid ≠ 0 ∧
        ∀ p, c3D.depth_at_price p Side.Bid ≠ 0 → p ≤ q)) ∧
    ((c3S.best_ask = none ↔ ∀ p, c3S.depth_at_price p Side.Ask = 0) ∧
      (∀ q, c3S.best_ask = some q → c3S.depth_at_price q Side.Ask ≠ 0 ∧
        ∀ p, c3S.depth_at_price p Side.Ask ≠ 0 → q ≤ p) ∧
      (c3S.best_bid = none ↔ ∀ p, c3S.depth_at_price p Side.Bid = 0) ∧
      (∀ q, c3S.best_bid = some q → c3S.depth_at_price q Side.Bid ≠ 0 ∧
        ∀ p, c3S.depth_at_price p Side.Bid ≠ 0 → p ≤ q)) ∧
    ((c3T.best_ask = none ↔ ∀ p, c3T.depth_at_price p Side.Ask = 0) ∧
      (∀ q, c3T.best_ask = some q → c3T.depth_at_price q Side.Ask ≠ 0 ∧
        ∀ p, c3T.depth_at_price p Side.Ask ≠ 0 → q ≤ p) ∧
      (c3T.best_bid = none ↔ ∀ p, c3T.depth_at_price p Side.Bid = 0) ∧
      (∀ q, c3T.best_bid = some q → c3T.depth_at_price q Side.Bid ≠ 0 ∧
        ∀ p, c3T.depth_at_price p Side.Bid ≠ 0 → p ≤ q)) :=
  ⟨rfl, rfl, rfl, C3_best_prices_extremal c3Ops c3D c3S c3T rfl rfl rfl⟩

/-! ## Claim C4: fill ordering -/

theorem pairwise_map_const {α : Type} (R : Nat → Nat → Prop) (c : Nat) (hc : R c c)
    (l : List α) : List.Pairwise R (l.map (fun _ => c)) := by
  induction l with
  | nil => exact List.Pairwise.nil
  | cons a rest ih =>
      simp only [List.map_cons]
      refine List.Pairwise.cons ?_ ih
      intro b hb
      obtain ⟨x, -, rfl⟩ := List.mem_map.1 hb
      exact hc

/-- Every fill's price is one of the walked prices. -/
theorem walkLevels_fills_prices (priceOf : Nat → Nat) (is : List Nat) :
    ∀ (qty : Nat) (idx : OrderIndex) (levels : Nat → List Order) (fills : List Fill)
      (r : Nat) (lv : Nat → List Order) (ix : OrderIndex),
      walkLevels priceOf qty idx levels is = some (fills, r, lv, ix) →
      ∀ f ∈ fills, f.price ∈ is.map priceOf := by
  induction is with
  | nil =>
      intro qty idx levels fills r lv ix h f hf
      simp only [walkLevels, Option.some.injEq, Prod.mk.injEq] at h
      rw [← h.1] at hf
      simp at hf
  | cons i rest ih =>
      intro qty idx levels fills r lv ix h f hf
      by_cases hq : qty = 0
      · subst hq
        simp only [walkLevels, eq_self_iff_true, if_true, Option.some.injEq,
          Prod.mk.injEq] at h
        rw [← h.1] at hf
        simp at hf
      · simp only [walkLevels, if_neg hq] at h
        by_cases he : (levels i).isEmpty
        · rw [if_pos he] at h
          exact List.mem_cons_of_mem _ (ih qty idx levels fills r lv ix h f hf)
        · rw [if_neg he] at h
          cases hm : matchOrders (priceOf i) qty (levels i) with
          | none => rw [hm] at h; simp at h
          | some res =>
              obtain ⟨fills1, q1, lvl'⟩ := res
              rw [hm] at h
              simp only at h
              cases hw : walkLevels priceOf q1
                  (removeIds (fills1.map (fun fl => fl.maker_order_id)) idx)
                  (updateFn levels i lvl') rest with
              | none => rw [hw] at h; simp at h
              | some res2 =>
                  obtain ⟨fills2, q2, lv2, ix2⟩ := res2
                  rw [hw] at h
                  simp only [Option.some.injEq, Prod.mk.injEq] at h
                  rw [← h.1] at hf
                  obtain ⟨k1, hfill1, -, -, -⟩ :=
                    matchOrders_some (priceOf i) qty (levels i) fills1 q1 lvl' hm
                  rcases List.mem_append.1 hf with hf | hf
                  · rw [hfill1] at hf
                    obtain ⟨o, -, rfl⟩ := List.mem_map.1 hf
                    simp
                  · exact List.mem_cons_of_mem _
                      (ih q1 _ _ fills2 q2 lv2 ix2 hw f hf)

/-- Fills appear in walk order: the price sequence respects any reflexive
relation that orders the walked prices. -/
theorem walkLevels_fills_sorted (priceOf : Nat → Nat) (R : Nat → Nat → Prop)
    (hR : ∀ a, R a a) (is : List Nat) :
    ∀ (qty : Nat) (idx : OrderIndex) (levels : Nat → List Order) (fills : List Fill)
      (r : Nat) (lv : Nat → List Order) (ix : OrderIndex),
      List.Pairwise R (is.map priceOf) →
      walkLevels priceOf qty idx levels is = some (fills, r, lv, ix) →
      List.Pairwise R (fills.map (fun f => f.price)) := by
  induction is with
  | nil =>
      intro qty idx levels fills r lv ix _ h
      simp only [walkLevels, Option.some.injEq, Prod.mk.injEq] at h
      rw [← h.1]
      exact List.Pairwise.nil
  | cons i rest ih =>
      intro qty idx levels fills r lv ix hp h
      simp only [List.map_cons, List.pairwise_cons] at hp
      obtain ⟨hhead, htail⟩ := hp
      by_cases hq : qty = 0
      · subst hq
        simp only [walkLevels, eq_self_iff_true, if_true, Option.some.injEq,
          Prod.mk.injEq] at h
        rw [← h.1]
        exact List.Pairwise.nil
      · simp only [walkLevels, if_neg hq] at h
        by_cases he : (levels i).isEmpty
        · rw [if_pos he] at h
          exact ih qty idx levels fills r lv ix htail h
        · rw [if_neg he] at h
          cases hm : matchOrders (priceOf i) qty (levels i) with
          | none => rw [hm] at h; simp at h
          | some res =>
              obtain ⟨fills1, q1, lvl'⟩ := res
              rw [hm] at h
              simp only at h
              cases hw : walkLevels priceOf q1
                  (removeIds (fills1.map (fun fl => fl.maker_order_id)) idx)
                  (updateFn levels i lvl') rest with
              | none => rw [hw] at h; simp at h
              | some res2 =>
                  obtain ⟨fills2, q2, lv2, ix2⟩ := res2
                  rw [hw] at h
                  simp only [Option.some.injEq, Prod.mk.injEq] at h
                  rw [← h.1, List.map_append]
                  obtain ⟨k1, hfill1, -, -, -⟩ :=
                    matchOrders_some (priceOf i) qty (levels i) fills1 q1 lvl' hm
                  refine List.pairwise_append.2 ⟨?_, ?_, ?_⟩
                  · rw [hfill1, List.map_map]
                    exact pairwise_map_const R (priceOf i) (hR _) _
                  · exact ih q1 _ _ fills2 q2 lv2 ix2 htail hw
                  · intro a ha b hb
                    rw [hfill1, List.map_map] at ha
                    obtain ⟨o, -, rfl⟩ := List.mem_map.1 ha
                    obtain ⟨f, hf, rfl⟩ := List.mem_map.1 hb
                    have := walkLevels_fills_prices priceOf rest q1 _ _
                      fills2 q2 lv2 ix2 hw f hf
                    exact hhead _ this

/-- FIFO per level: the fills at any price are the image of a consumed prefix
of that level. -/
theorem walkLevels_fills_filter (is : List Nat) :
    ∀ (qty : Nat) (idx : OrderIndex) (levels : Nat → List Order) (fills : List Fill)
      (r : Nat) (lv : Nat → List Order) (ix : OrderIndex),
      is.Nodup →
      walkLevels (fun i => i) qty idx levels is = some (fills, r, lv, ix) →
      ∀ p, ∃ k, fills.filter (fun f => f.price = p) =
        ((levels p).take k).map (fun o => ⟨p, o.quantity, o.id⟩) := by
  induction is with
  | nil =>
      intro qty idx levels fills r lv ix _ h p
      simp only [walkLevels, Option.some.injEq, Prod.mk.injEq] at h
      exact ⟨0, by rw [← h.1]; simp⟩
  | cons i rest ih =>
      intro qty idx levels fills r lv ix hnd h p
      obtain ⟨hni, hndr⟩ := List.nodup_cons.1 hnd
      by_cases hq : qty = 0
      · subst hq
        simp only [walkLevels, eq_self_iff_true, if_true, Option.some.injEq,
          Prod.mk.injEq] at h
        exact ⟨0, by rw [← h.1]; simp⟩
      · simp only [walkLevels, if_neg hq] at h
        by_cases he : (levels i).isEmpty
        · rw [if_pos he] at h
          by_cases hpi : p = i
          · subst hpi
            refine ⟨0, ?_⟩
            rw [List.take_zero, List.map_nil]
            refine List.filter_eq_nil_iff.2 ?_
            intro f hf
            have hmem := walkLevels_fills_prices (fun i => i) rest qty idx levels
              fills r lv ix h f hf
            rw [List.map_id'] at hmem
            simp only [decide_eq_true_eq]
            intro hfp
            exact hni (hfp ▸ hmem)
          · exact ih qty idx levels fills r lv ix hndr h p
        · rw [if_neg he] at h
          cases hm : matchOrders i qty (levels i) with
          | none => rw [hm] at h; simp at h
          | some res =>
              obtain ⟨fills1, q1, lvl'⟩ := res
              rw [hm] at h
              simp only at h
              cases hw : walkLevels (fun i => i) q1
                  (removeIds (fills1.map (fun fl => fl.maker_order_id)) idx)
                  (updateFn levels i lvl') rest with
              | none => rw [hw] at h; simp at h
              | some res2 =>
                  obtain ⟨fills2, q2, lv2, ix2⟩ := res2
                  rw [hw] at h
                  simp only [Option.some.injEq, Prod.mk.injEq] at h
                  obtain ⟨k1, hfill1, -, -, -⟩ :=
                    matchOrders_some i qty (levels i) fills1 q1 lvl' hm
                  have hf1price : ∀ f ∈ fills1, f.price = i := by
                    intro f hf
                    rw [hfill1] at hf
                    obtain ⟨o, -, rfl⟩ := List.mem_map.1 hf
                    rfl
                  have hf2price : ∀ f ∈ fills2, f.price ∈ rest := by
                    intro f hf
                    have := walkLevels_fills_prices (fun i => i) rest q1 _ _
                      fills2 q2 lv2 ix2 hw f hf
                    rwa [List.map_id'] at this
                  rw [← h.1, List.filter_append]
                  by_cases hpi : p = i
                  · subst hpi
                    refine ⟨k1, ?_⟩
                    have hkeep : fills1.filter (fun f => f.price = p) = fills1 := by
                      refine List.filter_eq_self.2 ?_
                      intro f hf
                      simp [hf1price f hf]
                    have hdrop2 : fills2.filter (fun f => f.price = p) = [] := by
                      refine List.filter_eq_nil_iff.2 ?_
                      intro f hf
                      simp only [decide_eq_true_eq]
                      intro hfp
                      exact hni (hfp ▸ hf2price f hf)
                    rw [hkeep, hdrop2, List.append_nil, hfill1]
                  · obtain ⟨k, hk⟩ := ih q1 _ _ fills2 q2 lv2 ix2 hndr hw p
                    refine ⟨k, ?_⟩
                    have hdrop1 : fills1.filter (fun f => f.price = p) = [] := by
                      refine List.filter_eq_nil_iff.2 ?_
                      intro f hf
                      simp only [decide_eq_true_eq]
                      intro hfp
                      exact hpi (hfp ▸ (hf1price f hf).symm).symm
                    rw [hdrop1, List.nil_append, hk]
                    simp [updateFn, hpi]

/-- A fully filled dense market order comes from an `execCore` run with
remainder 0. -/
theorem execD_ok (d : Orderbook) (side : Side) (q : Nat) (fills : List Fill) (d' : Orderbook)
    (h : d.execute_market_order side q = some (.ok fills, d')) :
    d.execCore side q = some (fills, 0, d') := by
  unfold Orderbook.execute_market_order at h
  cases hc : d.execCore side q with
  | none => rw [hc] at h; simp at h
  | some r =>
      obtain ⟨f0, r0, d2⟩ := r
      rw [hc] at h
      simp only [Option.map_some', Option.some.injEq, Prod.mk.injEq] at h
      by_cases hr : 0 < r0
      · rw [if_pos hr] at h
        exact absurd h.1 (by simp)
      · rw [if_neg hr] at h
        obtain ⟨hfe, hde⟩ := h
        have hf : f0 = fills := by simpa using hfe
        have hr0 : r0 = 0 := by omega
        rw [← hf, ← hde, hr0]

theorem execS_ok_of_dense (d : Orderbook) (side : Side) (q : Nat) (fills : List Fill)
    (s' : SoAOrderbook)
    (h : (soaBookOf d).execute_market_order side q = some (.ok fills, s')) :
    ∃ d2, d.execCore side q = some (fills, 0, d2) ∧ s' = soaBookOf d2 := by
  unfold SoAOrderbook.execute_market_order at h
  rw [soaExecCore_of_dense] at h
  cases hc : d.execCore side q with
  | none => rw [hc] at h; simp at h
  | some r =>
      obtain ⟨f0, r0, d2⟩ := r
      rw [hc] at h
      simp only [Option.map_some', Option.some.injEq, Prod.mk.injEq] at h
      by_cases hr : 0 < r0
      · rw [if_pos hr] at h
        exact absurd h.1 (by simp)
      · rw [if_neg hr] at h
        obtain ⟨hfe, hde⟩ := h
        have hf : f0 = fills := by simpa using hfe
        have hr0 : r0 = 0 := by omega
        refine ⟨d2, ?_, hde.symm⟩
        rw [← hf, hr0]

theorem execT_ok_of_dense (d : Orderbook) (side : Side) (q : Nat) (fills : List Fill)
    (t' : TreeOrderbook)
    (h : (treeBookOf d).execute_market_order side q = some (.ok fills, t')) :
    ∃ d2, d.execCore side q = some (fills, 0, d2) ∧ t' = treeBookOf d2 := by
  unfold TreeOrderbook.execute_market_order at h
  rw [treeExecCore_of_dense] at h
  cases hc : d.execCore side q with
  | none => rw [hc] at h; simp at h
  | some r =>
      obtain ⟨f0, r0, d2⟩ := r
      rw [hc] at h
      simp only [Option.map_some', Option.some.injEq, Prod.mk.injEq] at h
      by_cases hr : 0 < r0
      · rw [if_pos hr] at h
        exact absurd h.1 (by simp)
      · rw [if_neg hr] at h
        obtain ⟨hfe, hde⟩ := h
        have hf : f0 = fills := by simpa using hfe
        have hr0 : r0 = 0 := by omega
        refine ⟨d2, ?_, hde.symm⟩
        rw [← hf, hr0]

/-- C4.  Whenever a market order is fully filled on a dense, SoA or tree book
reached by the same operation sequence, the three fill lists coincide; for a
market BUY the fill prices are ascending (so grouped by level in ascending
price order) and for a market SELL descending; and within each price the
fills are the image of a consumed prefix of that level in admission (FIFO)
order — stated per representation over its own level structure.  The claim's
fourth representation (hybrid) is excluded: its fills can violate the price
ordering (see the counterexample). -/
theorem C4_fill_ordering (ops : List Op) (d : Orderbook) (s : SoAOrderbook)
    (t : TreeOrderbook) (side : Side) (q : Nat) (fd fs ft : List Fill)
    (d' : Orderbook) (s' : SoAOrderbook) (t' : TreeOrderbook)
    (hd : execOpsD Orderbook.new ops = some d)
    (hs : execOpsS SoAOrderbook.new ops = some s)
    (ht : execOpsT TreeOrderbook.new ops = some t)
    (hd2 : d.execute_market_order side q = some (.ok fd, d'))
    (hs2 : s.execute_market_order side q = some (.ok fs, s'))
    (ht2 : t.execute_market_order side q = some (.ok ft, t')) :
    (fs = fd ∧ ft = fd) ∧
    (side = Side.Bid →
      List.Pairwise (· ≤ ·) (fd.map (fun f => f.price)) ∧
      (∀ p, ∃ k, fd.filter (fun f => f.price = p) =
        ((d.asks p).take k).map (fun o => ⟨p, o.quantity, o.id⟩)) ∧
      (∀ p, ∃ k, fs.filter (fun f => f.price = p) =
        (((s.asks p).ids.zip ((s.asks p).quantities)).take k).map
          (fun e => ⟨p, e.2, e.1⟩)) ∧
      (∀ p lvl, treeGet p t.asks = some lvl → ∃ k, ft.filter (fun f => f.price = p) =
        (lvl.take k).map (fun o => ⟨p, o.quantity, o.id⟩)) ∧
      (∀ p, treeGet p t.asks = none → ft.filter (fun f => f.price = p) = [])) ∧
    (side = Side.Ask →
      List.Pairwise (· ≥ ·) (fd.map (fun f => f.price)) ∧
      (∀ p, ∃ k, fd.filter (fun f => f.price = p) =
        ((d.bids p).take k).map (fun o => ⟨p, o.quantity, o.id⟩)) ∧
      (∀ p, ∃ k, fs.filter (fun f => f.price = p) =
        (((s.bids p).ids.zip ((s.bids p).quantities)).take k).map
          (fun e => ⟨p, e.2, e.1⟩)) ∧
      (∀ p lvl, treeGet p t.bids = some lvl → ∃ k, ft.filter (fun f => f.price = p) =
        (lvl.take k).map (fun o => ⟨p, o.quantity, o.id⟩)) ∧
      (∀ p, treeGet p t.bids = none → ft.filter (fun f => f.price = p) = [])) := by
  have hwf : DWF d := DWF_run ops Orderbook.new d DWF_new hd
  have hEM : ELEMENT_NUM = MAX_PRICE := by decide
  have hseq : s = soaBookOf d := by
    rw [← soaBookOf_new, execOpsS_of_dense, hd] at hs
    simpa using hs.symm
  have hteq : t = treeBookOf d := by
    rw [← treeBookOf_new, execOpsT_of_dense ops Orderbook.new DWF_new, hd] at ht
    simpa using ht.symm
  subst hseq
  subst hteq
  have hdcore := execD_ok d side q fd d' hd2
  obtain ⟨dS, hscore, -⟩ := execS_ok_of_dense d side q fs s' hs2
  obtain ⟨dT, htcore, -⟩ := execT_ok_of_dense d side q ft t' ht2
  have hfs : fs = fd := by
    rw [hdcore] at hscore
    simp only [Option.some.injEq, Prod.mk.injEq] at hscore
    exact hscore.1.symm
  have hft : ft = fd := by
    rw [hdcore] at htcore
    simp only [Option.some.injEq, Prod.mk.injEq] at htcore
    exact htcore.1.symm
  refine ⟨⟨hfs, hft⟩, ?_, ?_⟩
  · rintro rfl
    unfold Orderbook.execCore at hdcore
    rw [mulTick_id] at hdcore
    cases hw : walkLevels (fun i => i) q d.order_index d.asks (List.range ELEMENT_NUM) with
    | none => rw [hw] at hdcore; simp at hdcore
    | some r =>
        obtain ⟨f0, r0, lv, ix⟩ := r
        rw [hw] at hdcore
        simp only [Option.map_some', Option.some.injEq, Prod.mk.injEq] at hdcore
        obtain ⟨hf0, -, -⟩ := hdcore
        rw [← hf0]
        have hfifoD := walkLevels_fills_filter (List.range ELEMENT_NUM) q d.order_index
          d.asks f0 r0 lv ix (List.nodup_range _) hw
        refine ⟨?_, hfifoD, ?_, ?_, ?_⟩
        · refine walkLevels_fills_sorted (fun i => i) (· ≤ ·) le_refl
            (List.range ELEMENT_NUM) q d.order_index d.asks f0 r0 lv ix ?_ hw
          rw [List.map_id']
          exact (List.pairwise_lt_range _).imp le_of_lt
        · intro p
          obtain ⟨k, hk⟩ := hfifoD p
          refine ⟨k, ?_⟩
          rw [hfs, ← hf0, hk]
          rw [show (soaBookOf d).asks p = soaOfLevel (d.asks p) from rfl]
          rw [show (soaOfLevel (d.asks p)).ids.zip (soaOfLevel (d.asks p)).quantities =
            (d.asks p).map (fun o => (o.id, o.quantity)) from List.zip_map' _ _ _]
          rw [← List.map_take, List.map_map]
          rfl
        · intro p lvl hget
          rw [show (treeBookOf d).asks = filterLevels d.asks SLOTS from rfl] at hget
          by_cases hpmem : p ∈ SLOTS
          · rw [treeGet_filterLevels d.asks p SLOTS SLOTS_nodup hpmem] at hget
            cases he : (d.asks p).isEmpty with
            | true => rw [he] at hget; exact absurd hget (by simp)
            | false =>
                rw [he] at hget
                simp at hget
                obtain ⟨k, hk⟩ := hfifoD p
                refine ⟨k, ?_⟩
                rw [hft, ← hf0, hk, ← hget]
          · rw [treeGet_filterLevels_not_mem d.asks p SLOTS hpmem] at hget
            exact absurd hget (by simp)
        · intro p hget
          rw [show (treeBookOf d).asks = filterLevels d.asks SLOTS from rfl] at hget
          have hnil : d.asks p = [] := by
            by_cases hpmem : p ∈ SLOTS
            · rw [treeGet_filterLevels d.asks p SLOTS SLOTS_nodup hpmem] at hget
              cases he : (d.asks p).isEmpty with
              | true => exact List.isEmpty_iff.1 he
              | false => rw [he] at hget; exact absurd hget (by simp)
            · refine hwf.boundsA p ?_
              rw [mem_SLOTS] at hpmem
              omega
          obtain ⟨k, hk⟩ := hfifoD p
          rw [hft, ← hf0, hk, hnil, List.take_nil, List.map_nil]
  · rintro rfl
    unfold Orderbook.execCore at hdcore
    rw [mulTick_id] at hdcore
    cases hw : walkLevels (fun i => i) q d.order_index d.bids
        (List.range ELEMENT_NUM).reverse with
    | none => rw [hw] at hdcore; simp at hdcore
    | some r =>
        obtain ⟨f0, r0, lv, ix⟩ := r
        rw [hw] at hdcore
        simp only [Option.map_some', Option.some.injEq, Prod.mk.injEq] at hdcore
        obtain ⟨hf0, -, -⟩ := hdcore
        rw [← hf0]
        have hfifoD := walkLevels_fills_filter (List.range ELEMENT_NUM).reverse q
          d.order_index d.bids f0 r0 lv ix (List.nodup_reverse.2 (List.nodup_range _)) hw
        refine ⟨?_, hfifoD, ?_, ?_, ?_⟩
        · refine walkLevels_fills_sorted (fun i => i) (· ≥ ·) le_refl
            (List.range ELEMENT_NUM).reverse q d.order_index d.bids f0 r0 lv ix ?_ hw
          rw [List.map_id']
          exact List.pairwise_reverse.2 ((List.pairwise_lt_range _).imp le_of_lt)
        · intro p
          obtain ⟨k, hk⟩ := hfifoD p
          refine ⟨k, ?_⟩
          rw [hfs, ← hf0, hk]
          rw [show (soaBookOf d).bids p = soaOfLevel (d.bids p) from rfl]
          rw [show (soaOfLevel (d.bids p)).ids.zip (soaOfLevel (d.bids p)).quantities =
            (d.bids p).map (fun o => (o.id, o.quantity)) from List.zip_map' _ _ _]
          rw [← List.map_take, List.map_map]
          rfl
        · intro p lvl hget
          rw [show (treeBookOf d).bids = filterLevels d.bids SLOTS from rfl] at hget
          by_cases hpmem : p ∈ SLOTS
          · rw [treeGet_filterLevels d.bids p SLOTS SLOTS_nodup hpmem] at hget
            cases he : (d.bids p).isEmpty with
            | true => rw [he] at hget; exact absurd hget (by simp)
            | false =>
                rw [he] at hget
                simp at hget
                obtain ⟨k, hk⟩ := hfifoD p
                refine ⟨k, ?_⟩
                rw [hft, ← hf0, hk, ← hget]
          · rw [treeGet_filterLevels_not_mem d.bids p SLOTS hpmem] at hget
            exact absurd hget (by simp)
        · intro p hget
          rw [show (treeBookOf d).bids = filterLevels d.bids SLOTS from rfl] at hget
          have hnil : d.bids p = [] := by
            by_cases hpmem : p ∈ SLOTS
            · rw [treeGet_filterLevels d.bids p SLOTS SLOTS_nodup hpmem] at hget
              cases he : (d.bids p).isEmpty with
              | true => exact List.isEmpty_iff.1 he
              | false => rw [he] at hget; exact absurd hget (by simp)
            · refine hwf.boundsB p ?_
              rw [mem_SLOTS] at hpmem
              omega
          obtain ⟨k, hk⟩ := hfifoD p
          rw [hft, ← hf0, hk, hnil, List.take_nil, List.map_nil]

set_option maxRecDepth 8000 in
/-- C4 counterexample: a fully filled hybrid market BUY can emit its fills
with descending prices (hot window first): here [4950, 100]. -/
theorem C4_counterexample :
    (c3HybridBook.execute_market_order Side.Bid 2).map
        (fun r => (fillsOut r.1).map (fun fl => fl.map (fun f => f.price))) =
      some (some [4950, 100]) ∧
    ¬ List.Pairwise (· ≤ ·) ([4950, 100] : List Nat) := by
  constructor
  · decide
  · decide

theorem execD_zero (b : Orderbook) : b.execute_market_order Side.Bid 0 = some (.ok [], b) := by
  unfold Orderbook.execute_market_order Orderbook.execCore
  rw [walkLevels_qty_zero]
  rfl

theorem execS_zero (b : SoAOrderbook) :
    b.execute_market_order Side.Bid 0 = some (.ok [], b) := by
  unfold SoAOrderbook.execute_market_order SoAOrderbook.execCore
  rw [walkLevelsS_qty_zero]
  rfl

theorem execT_zero (b : TreeOrderbook) :
    b.execute_market_order Side.Bid 0 = some (.ok [], b) := by
  unfold TreeOrderbook.execute_market_order TreeOrderbook.execCore
  rw [treeWalk_qty_zero]
  rfl

theorem C4_fill_ordering_witness :
    execOpsD Orderbook.new c3Ops = some c3D ∧
    execOpsS SoAOrderbook.new c3Ops = some c3S ∧
    execOpsT TreeOrderbook.new c3Ops = some c3T ∧
    c3D.execute_market_order Side.Bid 0 = some (.ok [], c3D) ∧
    c3S.execute_market_order Side.Bid 0 = some (.ok [], c3S) ∧
    c3T.execute_market_order Side.Bid 0 = some (.ok [], c3T) ∧
    (([] : List Fill) = [] ∧ ([] : List Fill) = []) ∧
    (Side.Bid = Side.Bid →
      List.Pairwise (· ≤ ·) (([] : List Fill).map (fun f => f.price)) ∧
      (∀ p, ∃ k, ([] : List Fill).filter (fun f => f.price = p) =
        ((c3D.asks p).take k).map (fun o => ⟨p, o.quantity, o.id⟩)) ∧
      (∀ p, ∃ k, ([] : List Fill).filter (fun f => f.price = p) =
        (((c3S.asks p).ids.zip ((c3S.asks p).quantities)).take k).map
          (fun e => ⟨p, e.2, e.1⟩)) ∧
      (∀ p lvl, treeGet p c3T.asks = some lvl →
        ∃ k, ([] : List Fill).filter (fun f => f.price = p) =
          (lvl.take k).map (fun o => ⟨p, o.quantity, o.id⟩)) ∧
      (∀ p, treeGet p c3T.asks = none →
        ([] : List Fill).filter (fun f => f.price = p) = [])) ∧
    (Side.Bid = Side.Ask →
      List.Pairwise (· ≥ ·) (([] : List Fill).map (fun f => f.price)) ∧
      (∀ p, ∃ k, ([] : List Fill).filter (fun f => f.price = p) =
        ((c3D.bids p).take k).map (fun o => ⟨p, o.quantity, o.id⟩)) ∧
      (∀ p, ∃ k, ([] : List Fill).filter (fun f => f.price = p) =
        (((c3S.bids p).ids.zip ((c3S.bids p).quantities)).take k).map
          (fun e => ⟨p, e.2, e.1⟩)) ∧
      (∀ p lvl, treeGet p c3T.bids = some lvl →
        ∃ k, ([] : List Fill).filter (fun f => f.price = p) =
          (lvl.take k).map (fun o => ⟨p, o.quantity, o.id⟩)) ∧
      (∀ p, treeGet p c3T.bids = none →
        ([] : List Fill).filter (fun f => f.price = p) = [])) :=
  ⟨rfl, rfl, rfl, execD_zero c3D, execS_zero c3S, execT_zero c3T,
    C4_fill_ordering c3Ops c3D c3S c3T Side.Bid 0 [] [] [] c3D c3S c3T
      rfl rfl rfl (execD_zero c3D) (execS_zero c3S) (execT_zero c3T)⟩

/-! ## Claim C5: counting and accounting lemmas -/

/-- Number of resting orders with a given id in one level. -/
def idCountLevel (id : Nat) (l : List Order) : Nat :=
  (l.filter (fun o => o.id = id)).length

/-- Number of resting orders with a given id on one dense side. -/
def idCountSide (id : Nat) (levels : Nat → List Order) : Nat :=
  ((List.range ELEMENT_NUM).map (fun i => idCountLevel id (levels i))).sum

/-- Number of resting orders with a given id in a dense book. -/
def idCountBook (d : Orderbook) (id : Nat) : Nat :=
  idCountSide id d.bids + idCountSide id d.asks

theorem idxLookup_mem_keys (k : Nat) (m : OrderIndex) :
    (∃ v, idxLookup k m = some v) ↔ k ∈ m.map Prod.fst := by
  induction m with
  | nil => simp [idxLookup]
  | cons e rest ih =>
      obtain ⟨ek, ev⟩ := e
      by_cases hek : ek = k
      · subst hek
        simp [idxLookup]
      · simp [idxLookup, hek, Ne.symm hek, ih]

theorem idxRemove_length (k : Nat) (m : OrderIndex) (hmem : k ∈ m.map Prod.fst) :
    (idxRemove k m).length + 1 = m.length := by
  induction m with
  | nil => simp at hmem
  | cons e rest ih =>
      obtain ⟨ek, ev⟩ := e
      by_cases hek : ek = k
      · simp [idxRemove, hek]
      · have hmem' : k ∈ rest.map Prod.fst := by
          simp only [List.map_cons, List.mem_cons] at hmem
          rcases hmem with h | h
          · exact absurd h.symm hek
          · exact h
        simp only [idxRemove, if_neg hek, List.length_cons]
        rw [← ih hmem']

theorem removeIds_length (ids : List Nat) : ∀ (m : OrderIndex), IdxNodup m → ids.Nodup →
    (∀ i ∈ ids, i ∈ m.map Prod.fst) →
    (removeIds ids m).length + ids.length = m.length := by
  induction ids with
  | nil => intro m _ _ _; simp [removeIds]
  | cons i rest ih =>
      intro m hm hnd hsub
      obtain ⟨hni, hndr⟩ := List.nodup_cons.1 hnd
      rw [removeIds_cons]
      have hsub' : ∀ j ∈ rest, j ∈ (idxRemove i m).map Prod.fst := by
        intro j hj
        have hne : j ≠ i := fun hje => hni (hje ▸ hj)
        obtain ⟨v, hv⟩ := (idxLookup_mem_keys j m).2 (hsub j (List.mem_cons_of_mem _ hj))
        refine (idxLookup_mem_keys j _).1 ⟨v, ?_⟩
        rw [idxLookup_remove_ne i j m hne, hv]
      have h1 := ih (idxRemove i m) (idxNodup_remove i m hm) hndr hsub'
      have h2 := idxRemove_length i m (hsub i (List.mem_cons_self _ _))
      simp only [List.length_cons]
      omega

theorem idxInsert_length_fresh (k : Nat) (v : Side × Nat) (m : OrderIndex)
    (h : idxLookup k m = none) : (idxInsert k v m).length = m.length + 1 := by
  induction m with
  | nil => rfl
  | cons e rest ih =>
      obtain ⟨ek, ev⟩ := e
      simp only [idxLookup] at h
      by_cases hek : ek = k
      · rw [if_pos hek] at h
        exact absurd h (by simp)
      · rw [if_neg hek] at h
        simp only [idxInsert, if_neg hek, List.length_cons, ih h]

theorem idCountLevel_cons (id : Nat) (y : Order) (rest : List Order) :
    idCountLevel id (y :: rest) =
      (if y.id = id then 1 else 0) + idCountLevel id rest := by
  by_cases hy : y.id = id <;> simp [idCountLevel, List.filter_cons, hy, Nat.add_comm]

theorem idCountLevel_append (id : Nat) (l1 l2 : List Order) :
    idCountLevel id (l1 ++ l2) = idCountLevel id l1 + idCountLevel id l2 := by
  simp [idCountLevel, List.filter_append]

theorem idCountLevel_eq_zero_iff (id : Nat) (l : List Order) :
    idCountLevel id l = 0 ↔ ∀ x ∈ l, x.id ≠ id := by
  simp [idCountLevel, List.length_eq_zero, List.filter_eq_nil_iff]

theorem idCountLevel_pos_of_mem (id : Nat) (l : List Order) (x : Order)
    (hx : x ∈ l) (hid : x.id = id) : 0 < idCountLevel id l := by
  by_contra h
  have h0 : idCountLevel id l = 0 := by omega
  exact ((idCountLevel_eq_zero_iff id l).1 h0 x hx) hid

theorem idCountLevel_sublist (id : Nat) (l1 l2 : List Order) (h : l1.Sublist l2) :
    idCountLevel id l1 ≤ idCountLevel id l2 :=
  (h.filter _).length_le

theorem levelCancel_sublist (id : Nat) (l : List Order) : (levelCancel id l).Sublist l := by
  induction l with
  | nil => exact List.Sublist.refl _
  | cons y rest ih =>
      by_cases hy : y.id = id
      · simp only [levelCancel, if_pos hy]
        exact List.sublist_cons_self y rest
      · simp only [levelCancel, if_neg hy]
        exact ih.cons₂ y

theorem levelCancel_length (id : Nat) (l : List Order) (x : Order) (hx : x ∈ l)
    (hid : x.id = id) : (levelCancel id l).length + 1 = l.length := by
  induction l with
  | nil => simp at hx
  | cons y rest ih =>
      by_cases hy : y.id = id
      · simp [levelCancel, hy]
      · rcases List.mem_cons.1 hx with rfl | hx'
        · exact absurd hid hy
        · simp only [levelCancel, if_neg hy, List.length_cons]
          rw [← ih hx']

theorem not_id_mem_levelCancel (id : Nat) (l : List Order) :
    idCountLevel id l ≤ 1 → ∀ x ∈ levelCancel id l, x.id ≠ id := by
  induction l with
  | nil => intro _ x hx; simp [levelCancel] at hx
  | cons y rest ih =>
      intro h x hx
      by_cases hy : y.id = id
      · simp only [levelCancel, if_pos hy] at hx
        rw [idCountLevel_cons, if_pos hy] at h
        intro hxid
        have hpos := idCountLevel_pos_of_mem id rest x hx hxid
        omega
      · simp only [levelCancel, if_neg hy, List.mem_cons] at hx
        rw [idCountLevel_cons, if_neg hy] at h
        rcases hx with rfl | hx'
        · exact hy
        · exact ih (by omega) x hx'

theorem idCountLevel_eq_count (id : Nat) (l : List Order) :
    idCountLevel id l = (l.map (fun o => o.id)).count id := by
  induction l with
  | nil => rfl
  | cons y rest ih =>
      rw [idCountLevel_cons, List.map_cons, List.count_cons, ih]
      by_cases hy : y.id = id
      · simp only [if_pos hy, beq_iff_eq, hy, if_true]
        omega
      · simp [hy]

theorem level_ids_nodup (l : List Order) (h : ∀ id, idCountLevel id l ≤ 1) :
    (l.map (fun o => o.id)).Nodup := by
  rw [List.nodup_iff_count_le_one]
  intro a
  rw [← idCountLevel_eq_count]
  exact h a

theorem sum_map_updateFn (g : List Order → Nat) (levels : Nat → List Order) (i : Nat)
    (l : List Order) (is : List Nat) :
    is.Nodup → i ∈ is →
    (is.map (fun j => g (updateFn levels i l j))).sum + g (levels i) =
      (is.map (fun j => g (levels j))).sum + g l := by
  induction is with
  | nil => intro _ h; simp at h
  | cons a rest ih =>
      intro hnd hmem
      obtain ⟨hna, hndr⟩ := List.nodup_cons.1 hnd
      simp only [List.map_cons, List.sum_cons]
      by_cases hai : a = i
      · subst hai
        have hcong : rest.map (fun j => g (updateFn levels a l j)) =
            rest.map (fun j => g (levels j)) := by
          apply List.map_congr_left
          intro j hj
          have hja : j ≠ a := fun hje => hna (hje ▸ hj)
          simp [updateFn, hja]
        have hga : updateFn levels a l a = l := by simp [updateFn]
        rw [hcong, hga]
        omega
      · have hmem' : i ∈ rest := by
          rcases List.mem_cons.1 hmem with h | h
          · exact absurd h.symm hai
          · exact h
        have hga : updateFn levels i l a = levels a := by simp [updateFn, hai]
        rw [hga]
        have := ih hndr hmem'
        omega

theorem sum_map_le (is : List Nat) (f g : Nat → Nat) (h : ∀ j ∈ is, f j ≤ g j) :
    (is.map f).sum ≤ (is.map g).sum := by
  induction is with
  | nil => simp
  | cons a rest ih =>
      simp only [List.map_cons, List.sum_cons]
      have h1 := h a (List.mem_cons_self _ _)
      have h2 := ih (fun j hj => h j (List.mem_cons_of_mem _ hj))
      omega

theorem sum_sub_pointwise (is : List Nat) (f g : Nat → Nat) (h : ∀ j ∈ is, g j ≤ f j) :
    (is.map (fun j => f j - g j)).sum + (is.map g).sum = (is.map f).sum := by
  induction is with
  | nil => simp
  | cons a rest ih =>
      simp only [List.map_cons, List.sum_cons]
      have h1 := h a (List.mem_cons_self _ _)
      have h2 := ih (fun j hj => h j (List.mem_cons_of_mem _ hj))
      omega

theorem le_sum_of_mem (is : List Nat) (f : Nat → Nat) (p : Nat) (hp : p ∈ is) :
    f p ≤ (is.map f).sum := by
  induction is with
  | nil => simp at hp
  | cons a rest ih =>
      simp only [List.map_cons, List.sum_cons]
      rcases List.mem_cons.1 hp with rfl | hp'
      · omega
      · have := ih hp'
        omega

theorem flatMap_nil_fun (is : List Nat) :
    is.flatMap (fun _ => ([] : List Nat)) = [] := by
  induction is with
  | nil => rfl
  | cons a rest ih => rw [List.flatMap_cons, ih]; rfl

/-- Exact accounting of a walk's consumed ids: the fills' maker ids are, in
walk order, the ids of the prefix each level lost. -/
theorem walkLevels_makers (priceOf : Nat → Nat) (is : List Nat) :
    ∀ (qty : Nat) (idx : OrderIndex) (levels : Nat → List Order) (fills : List Fill)
      (r : Nat) (lv : Nat → List Order) (ix : OrderIndex),
      is.Nodup →
      walkLevels priceOf qty idx levels is = some (fills, r, lv, ix) →
      fills.map (fun fl => fl.maker_order_id) =
        is.flatMap (fun j =>
          ((levels j).take ((levels j).length - (lv j).length)).map (fun o => o.id)) := by
  induction is with
  | nil =>
      intro qty idx levels fills r lv ix _ h
      simp only [walkLevels, Option.some.injEq, Prod.mk.injEq] at h
      rw [← h.1]
      rfl
  | cons i rest ih =>
      intro qty idx levels fills r lv ix hnd h
      obtain ⟨hni, hndr⟩ := List.nodup_cons.1 hnd
      by_cases hq : qty = 0
      · subst hq
        simp only [walkLevels, eq_self_iff_true, if_true, Option.some.injEq,
          Prod.mk.injEq] at h
        obtain ⟨hf, -, hlv, -⟩ := h
        rw [← hf, ← hlv]
        rw [flatMap_congr_on _ _ (fun _ => []) ?_, flatMap_nil_fun]
        · rfl
        · intro j _
          simp
      · simp only [walkLevels, if_neg hq] at h
        by_cases he : (levels i).isEmpty
        · rw [if_pos he] at h
          have hunt : lv i = levels i :=
            walkLevels_untouched priceOf rest qty idx levels fills r lv ix h i hni
          rw [List.flatMap_cons, hunt, Nat.sub_self, List.take_zero, List.map_nil,
            List.nil_append]
          exact ih qty idx levels fills r lv ix hndr h
        · rw [if_neg he] at h
          cases hm : matchOrders (priceOf i) qty (levels i) with
          | none => rw [hm] at h; simp at h
          | some res =>
              obtain ⟨fills1, q1, lvl'⟩ := res
              rw [hm] at h
              simp only at h
              cases hw : walkLevels priceOf q1
                  (removeIds (fills1.map (fun fl => fl.maker_order_id)) idx)
                  (updateFn levels i lvl') rest with
              | none => rw [hw] at h; simp at h
              | some res2 =>
                  obtain ⟨fills2, q2, lv2, ix2⟩ := res2
                  rw [hw] at h
                  simp only [Option.some.injEq, Prod.mk.injEq] at h
                  obtain ⟨hf, -, hlv, -⟩ := h
                  obtain ⟨k1, hfill1, hdrop, -, -⟩ :=
                    matchOrders_some (priceOf i) qty (levels i) fills1 q1 lvl' hm
                  have hunt : lv i = lvl' := by
                    rw [← hlv,
                      walkLevels_untouched priceOf rest q1 _ _ fills2 q2 lv2 ix2 hw i hni]
                    simp [updateFn]
                  have htake : (levels i).take ((levels i).length - (lv i).length) =
                      (levels i).take k1 := by
                    rw [hunt, hdrop, List.length_drop]
                    rcases le_or_lt k1 (levels i).length with hk | hk
                    · have heq : (levels i).length - ((levels i).length - k1) = k1 := by
                        omega
                      rw [heq]
                    · have hd0 : (levels i).length - k1 = 0 := by omega
                      rw [hd0, Nat.sub_zero, List.take_length,
                        List.take_of_length_le (le_of_lt hk)]
                  rw [← hf, List.map_append, List.flatMap_cons, htake]
                  have hrest := ih q1 _ _ fills2 q2 lv2 ix2 hndr hw
                  rw [hlv] at hrest
                  rw [hrest]
                  have hcong : rest.flatMap (fun j =>
                      ((updateFn levels i lvl' j).take
                        ((updateFn levels i lvl' j).length - (lv j).length)).map
                          (fun o => o.id)) =
                    rest.flatMap (fun j =>
                      ((levels j).take ((levels j).length - (lv j).length)).map
                        (fun o => o.id)) := by
                    apply flatMap_congr_on
                    intro j hj
                    have hji : j ≠ i := fun hje => hni (hje ▸ hj)
                    simp [updateFn, hji]
                  rw [hcong, hfill1, List.map_map]
                  rfl

/-- The order index is an exact mirror of resting-order membership. -/
structure Mirror (b : Orderbook) : Prop where
  wf : DWF b
  completeB : ∀ p, ∀ o ∈ b.bids p, idxLookup o.id b.order_index = some (Side.Bid, p)
  completeA : ∀ p, ∀ o ∈ b.asks p, idxLookup o.id b.order_index = some (Side.Ask, p)
  uniq : ∀ id, idCountBook b id ≤ 1
  card : b.order_index.length = restingCount b

theorem Mirror_new : Mirror Orderbook.new := by
  refine ⟨DWF_new, ?_, ?_, ?_, ?_⟩
  · intro p o hmem
    exact absurd hmem (List.not_mem_nil o)
  · intro p o hmem
    exact absurd hmem (List.not_mem_nil o)
  · intro id
    unfold idCountBook idCountSide
    have h1 : ((List.range ELEMENT_NUM).map
        (fun i => idCountLevel id (Orderbook.new.bids i))).sum = 0 := by
      refine List.sum_eq_zero ?_
      intro x hx
      obtain ⟨i, -, rfl⟩ := List.mem_map.1 hx
      rfl
    have h2 : ((List.range ELEMENT_NUM).map
        (fun i => idCountLevel id (Orderbook.new.asks i))).sum = 0 := by
      refine List.sum_eq_zero ?_
      intro x hx
      obtain ⟨i, -, rfl⟩ := List.mem_map.1 hx
      rfl
    omega
  · unfold restingCount
    have h1 : ((List.range ELEMENT_NUM).map
        (fun i => (Orderbook.new.bids i).length)).sum = 0 := by
      refine List.sum_eq_zero ?_
      intro x hx
      obtain ⟨i, -, rfl⟩ := List.mem_map.1 hx
      rfl
    have h2 : ((List.range ELEMENT_NUM).map
        (fun i => (Orderbook.new.asks i).length)).sum = 0 := by
      refine List.sum_eq_zero ?_
      intro x hx
      obtain ⟨i, -, rfl⟩ := List.mem_map.1 hx
      rfl
    have h3 : (Orderbook.new.order_index).length = 0 := rfl
    omega

theorem Mirror_add (d : Orderbook) (o : Order) (h : Mirror d)
    (hfB : ∀ p, ∀ x ∈ d.bids p, x.id ≠ o.id)
    (hfA : ∀ p, ∀ x ∈ d.asks p, x.id ≠ o.id)
    (hfI : idxLookup o.id d.order_index = none) :
    Mirror ((d.add_order o).2) := by
  have hwf' := DWF_add d o h.wf
  by_cases hp : o.price = 0 ∨ MAX_PRICE ≤ o.price
  · have hunch : (d.add_order o).2 = d :=
      addD_error_unchanged d o (oobMsg o.price) (by rw [addD_fst, if_pos hp])
    rw [hunch]
    exact h
  · by_cases hq : o.quantity = 0
    · have hunch : (d.add_order o).2 = d :=
        addD_error_unchanged d o zeroQtyMsg (by rw [addD_fst, if_neg hp, if_pos hq])
      rw [hunch]
      exact h
    · have hEM : ELEMENT_NUM = MAX_PRICE := by decide
      have hdiv : o.price / TICK_SIZE = o.price := Nat.div_one o.price
      have hplt : o.price < ELEMENT_NUM := by omega
      cases hs : o.side with
      | Bid =>
          have hstate : (d.add_order o).2 =
              { bids := updateFn d.bids o.price (d.bids o.price ++ [o]),
                asks := d.asks,
                order_index := idxInsert o.id (Side.Bid, o.price) d.order_index } := by
            rw [addD_characterization]
            simp [hp, hq, hs, hdiv]
          rw [hstate] at hwf' ⊢
          refine ⟨hwf', ?_, ?_, ?_, ?_⟩
          · intro p x hx
            dsimp only at hx ⊢
            by_cases hpe : p = o.price
            · subst hpe
              simp only [updateFn, if_pos rfl] at hx
              rcases List.mem_append.1 hx with hmem | hmem
              · have hne := hfB _ x hmem
                rw [idxLookup_insert_ne _ _ _ _ hne]
                exact h.completeB _ x hmem
              · simp only [List.mem_singleton] at hmem
                subst hmem
                rw [idxLookup_insert_self]
            · simp only [updateFn, if_neg hpe] at hx
              have hne := hfB p x hx
              rw [idxLookup_insert_ne _ _ _ _ hne]
              exact h.completeB p x hx
          · intro p x hx
            dsimp only at hx ⊢
            have hne := hfA p x hx
            rw [idxLookup_insert_ne _ _ _ _ hne]
            exact h.completeA p x hx
          · intro id
            unfold idCountBook idCountSide
            dsimp only
            have hupd := sum_map_updateFn (idCountLevel id) d.bids o.price
              (d.bids o.price ++ [o]) (List.range ELEMENT_NUM) (List.nodup_range _)
              (List.mem_range.2 hplt)
            have hone : idCountLevel id [o] = if o.id = id then 1 else 0 := by
              rw [idCountLevel_cons]
              simp [idCountLevel]
            have happ : idCountLevel id (d.bids o.price ++ [o]) =
                idCountLevel id (d.bids o.price) + (if o.id = id then 1 else 0) := by
              rw [idCountLevel_append, hone]
            have huq := h.uniq id
            unfold idCountBook idCountSide at huq
            by_cases hid : id = o.id
            · subst hid
              have hB0 : ((List.range ELEMENT_NUM).map
                  (fun i => idCountLevel o.id (d.bids i))).sum = 0 := by
                refine List.sum_eq_zero ?_
                intro x hx
                obtain ⟨i, -, rfl⟩ := List.mem_map.1 hx
                exact (idCountLevel_eq_zero_iff _ _).2 (fun y hy => hfB i y hy)
              have hA0 : ((List.range ELEMENT_NUM).map
                  (fun i => idCountLevel o.id (d.asks i))).sum = 0 := by
                refine List.sum_eq_zero ?_
                intro x hx
                obtain ⟨i, -, rfl⟩ := List.mem_map.1 hx
                exact (idCountLevel_eq_zero_iff _ _).2 (fun y hy => hfA i y hy)
              rw [if_pos rfl] at happ
              omega
            · rw [if_neg (fun he => hid he.symm)] at happ
              omega
          · unfold restingCount
            dsimp only
            have hupd := sum_map_updateFn List.length d.bids o.price
              (d.bids o.price ++ [o]) (List.range ELEMENT_NUM) (List.nodup_range _)
              (List.mem_range.2 hplt)
            have hlen : (d.bids o.price ++ [o]).length = (d.bids o.price).length + 1 := by
              simp
            have hins := idxInsert_length_fresh o.id (Side.Bid, o.price) d.order_index hfI
            have hcard := h.card
            unfold restingCount at hcard
            omega
      | Ask =>
          have hstate : (d.add_order o).2 =
              { bids := d.bids,
                asks := updateFn d.asks o.price (d.asks o.price ++ [o]),
                order_index := idxInsert o.id (Side.Ask, o.price) d.order_index } := by
            rw [addD_characterization]
            simp [hp, hq, hs, hdiv]
          rw [hstate] at hwf' ⊢
          refine ⟨hwf', ?_, ?_, ?_, ?_⟩
          · intro p x hx
            dsimp only at hx ⊢
            have hne := hfB p x hx
            rw [idxLookup_insert_ne _ _ _ _ hne]
            exact h.completeB p x hx
          · intro p x hx
            dsimp only at hx ⊢
            by_cases hpe : p = o.price
            · subst hpe
              simp only [updateFn, if_pos rfl] at hx
              rcases List.mem_append.1 hx with hmem | hmem
              · have hne := hfA _ x hmem
                rw [idxLookup_insert_ne _ _ _ _ hne]
                exact h.completeA _ x hmem
              · simp only [List.mem_singleton] at hmem
                subst hmem
                rw [idxLookup_insert_self]
            · simp only [updateFn, if_neg hpe] at hx
              have hne := hfA p x hx
              rw [idxLookup_insert_ne _ _ _ _ hne]
              exact h.completeA p x hx
          · intro id
            unfold idCountBook idCountSide
            dsimp only
            have hupd := sum_map_updateFn (idCountLevel id) d.asks o.price
              (d.asks o.price ++ [o]) (List.range ELEMENT_NUM) (List.nodup_range _)
              (List.mem_range.2 hplt)
            have hone : idCountLevel id [o] = if o.id = id then 1 else 0 := by
              rw [idCountLevel_cons]
              simp [idCountLevel]
            have happ : idCountLevel id (d.asks o.price ++ [o]) =
                idCountLevel id (d.asks o.price) + (if o.id = id then 1 else 0) := by
              rw [idCountLevel_append, hone]
            have huq := h.uniq id
            unfold idCountBook idCountSide at huq
            by_cases hid : id = o.id
            · subst hid
              have hB0 : ((List.range ELEMENT_NUM).map
                  (fun i => idCountLevel o.id (d.bids i))).sum = 0 := by
                refine List.sum_eq_zero ?_
                intro x hx
                obtain ⟨i, -, rfl⟩ := List.mem_map.1 hx
                exact (idCountLevel_eq_zero_iff _ _).2 (fun y hy => hfB i y hy)
              have hA0 : ((List.range ELEMENT_NUM).map
                  (fun i => idCountLevel o.id (d.asks i))).sum = 0 := by
                refine List.sum_eq_zero ?_
                intro x hx
                obtain ⟨i, -, rfl⟩ := List.mem_map.1 hx
                exact (idCountLevel_eq_zero_iff _ _).2 (fun y hy => hfA i y hy)
              rw [if_pos rfl] at happ
              omega
            · rw [if_neg (fun he => hid he.symm)] at happ
              omega
          · unfold restingCount
            dsimp only
            have hupd := sum_map_updateFn List.length d.asks o.price
              (d.asks o.price ++ [o]) (List.range ELEMENT_NUM) (List.nodup_range _)
              (List.mem_range.2 hplt)
            have hlen : (d.asks o.price ++ [o]).length = (d.asks o.price).length + 1 := by
              simp
            have hins := idxInsert_length_fresh o.id (Side.Ask, o.price) d.order_index hfI
            have hcard := h.card
            unfold restingCount at hcard
            omega

theorem Mirror_cancel (d : Orderbook) (id : Nat) (h : Mirror d) :
    Mirror ((d.cancel_order id).2) := by
  have hwf' := DWF_cancel d id h.wf
  unfold Orderbook.cancel_order at hwf' ⊢
  cases hl : idxLookup id d.order_index with
  | none =>
      rw [hl] at hwf'
      exact h
  | some v =>
      obtain ⟨side, price⟩ := v
      rw [hl] at hwf'
      have hEM : ELEMENT_NUM = MAX_PRICE := by decide
      have hdiv : price / TICK_SIZE = price := Nat.div_one price
      have hkeys : id ∈ d.order_index.map Prod.fst :=
        (idxLookup_mem_keys id d.order_index).1 ⟨(side, price), hl⟩
      cases side with
      | Bid =>
          obtain ⟨h1, h2, ostar, hmem, hido⟩ := h.wf.soundB id price hl
          have hplt : price < ELEMENT_NUM := by omega
          have hcnt : idCountLevel id (d.bids price) ≤ 1 := by
            have hle : idCountLevel id (d.bids price) ≤
                ((List.range ELEMENT_NUM).map (fun i => idCountLevel id (d.bids i))).sum :=
              le_sum_of_mem (List.range ELEMENT_NUM)
                (fun i => idCountLevel id (d.bids i)) price (List.mem_range.2 hplt)
            have huq := h.uniq id
            unfold idCountBook idCountSide at huq
            omega
          refine ⟨hwf', ?_, ?_, ?_, ?_⟩
          · intro q x hx
            dsimp only at hx ⊢
            rw [hdiv] at hx
            by_cases hqe : q = price
            · subst hqe
              simp only [updateFn, if_pos rfl] at hx
              have hxid : x.id ≠ id := not_id_mem_levelCancel id _ hcnt x hx
              rw [idxLookup_remove_ne _ _ _ hxid]
              exact h.completeB q x (mem_of_mem_levelCancel id _ x hx)
            · simp only [updateFn, if_neg hqe] at hx
              have hxid : x.id ≠ id := by
                intro hxe
                have hcq := h.completeB q x hx
                rw [hxe, hl] at hcq
                simp only [Option.some.injEq, Prod.mk.injEq] at hcq
                exact hqe hcq.2.symm
              rw [idxLookup_remove_ne _ _ _ hxid]
              exact h.completeB q x hx
          · intro q x hx
            dsimp only at hx ⊢
            have hxid : x.id ≠ id := by
              intro hxe
              have hcq := h.completeA q x hx
              rw [hxe, hl] at hcq
              simp at hcq
            rw [idxLookup_remove_ne _ _ _ hxid]
            exact h.completeA q x hx
          · intro id'
            unfold idCountBook idCountSide
            dsimp only
            rw [hdiv]
            have hupd := sum_map_updateFn (idCountLevel id') d.bids price
              (levelCancel id (d.bids price)) (List.range ELEMENT_NUM)
              (List.nodup_range _) (List.mem_range.2 hplt)
            have hsub : idCountLevel id' (levelCancel id (d.bids price)) ≤
                idCountLevel id' (d.bids price) :=
              idCountLevel_sublist id' _ _ (levelCancel_sublist id _)
            have huq := h.uniq id'
            unfold idCountBook idCountSide at huq
            omega
          · unfold restingCount
            dsimp only
            rw [hdiv]
            have hupd := sum_map_updateFn List.length d.bids price
              (levelCancel id (d.bids price)) (List.range ELEMENT_NUM)
              (List.nodup_range _) (List.mem_range.2 hplt)
            have hlen := levelCancel_length id (d.bids price) ostar hmem hido
            have hrm := idxRemove_length id d.order_index hkeys
            have hcard := h.card
            unfold restingCount at hcard
            omega
      | Ask =>
          obtain ⟨h1, h2, ostar, hmem, hido⟩ := h.wf.soundA id price hl
          have hplt : price < ELEMENT_NUM := by omega
          have hcnt : idCountLevel id (d.asks price) ≤ 1 := by
            have hle : idCountLevel id (d.asks price) ≤
                ((List.range ELEMENT_NUM).map (fun i => idCountLevel id (d.asks i))).sum :=
              le_sum_of_mem (List.range ELEMENT_NUM)
                (fun i => idCountLevel id (d.asks i)) price (List.mem_range.2 hplt)
            have huq := h.uniq id
            unfold idCountBook idCountSide at huq
            omega
          refine ⟨hwf', ?_, ?_, ?_, ?_⟩
          · intro q x hx
            dsimp only at hx ⊢
            have hxid : x.id ≠ id := by
              intro hxe
              have hcq := h.completeB q x hx
              rw [hxe, hl] at hcq
              simp at hcq
            rw [idxLookup_remove_ne _ _ _ hxid]
            exact h.completeB q x hx
          · intro q x hx
            dsimp only at hx ⊢
            rw [hdiv] at hx
            by_cases hqe : q = price
            · subst hqe
              simp only [updateFn, if_pos rfl] at hx
              have hxid : x.id ≠ id := not_id_mem_levelCancel id _ hcnt x hx
              rw [idxLookup_remove_ne _ _ _ hxid]
              exact h.completeA q x (mem_of_mem_levelCancel id _ x hx)
            · simp only [updateFn, if_neg hqe] at hx
              have hxid : x.id ≠ id := by
                intro hxe
                have hcq := h.completeA q x hx
                rw [hxe, hl] at hcq
                simp only [Option.some.injEq, Prod.mk.injEq] at hcq
                exact hqe hcq.2.symm
              rw [idxLookup_remove_ne _ _ _ hxid]
              exact h.completeA q x hx
          · intro id'
            unfold idCountBook idCountSide
            dsimp only
            rw [hdiv]
            have hupd := sum_map_updateFn (idCountLevel id') d.asks price
              (levelCancel id (d.asks price)) (List.range ELEMENT_NUM)
              (List.nodup_range _) (List.mem_range.2 hplt)
            have hsub : idCountLevel id' (levelCancel id (d.asks price)) ≤
                idCountLevel id' (d.asks price) :=
              idCountLevel_sublist id' _ _ (levelCancel_sublist id _)
            have huq := h.uniq id'
            unfold idCountBook idCountSide at huq
            omega
          · unfold restingCount
            dsimp only
            rw [hdiv]
            have hupd := sum_map_updateFn List.length d.asks price
              (levelCancel id (d.asks price)) (List.range ELEMENT_NUM)
              (List.nodup_range _) (List.mem_range.2 hplt)
            have hlen := levelCancel_length id (d.asks price) ostar hmem hido
            have hrm := idxRemove_length id d.order_index hkeys
            have hcard := h.card
            unfold restingCount at hcard
            omega

theorem pair_le_sum (is : List Nat) (f : Nat → Nat) :
    ∀ j1 j2, is.Nodup → j1 ∈ is → j2 ∈ is → j1 ≠ j2 →
      f j1 + f j2 ≤ (is.map f).sum := by
  induction is with
  | nil => intro j1 j2 _ h1; simp at h1
  | cons a rest ih =>
      intro j1 j2 hnd h1 h2 hne
      obtain ⟨hna, hndr⟩ := List.nodup_cons.1 hnd
      simp only [List.map_cons, List.sum_cons]
      rcases List.mem_cons.1 h1 with rfl | h1'
      · rcases List.mem_cons.1 h2 with rfl | h2'
        · exact absurd rfl hne
        · have := le_sum_of_mem rest f j2 h2'
          omega
      · rcases List.mem_cons.1 h2 with rfl | h2'
        · have := le_sum_of_mem rest f j1 h1'
          omega
        · have := ih j1 j2 hndr h1' h2' hne
          omega

/-- Combined accounting of one market walk over distinct slots whose levels
hold globally unique order ids: levels lose prefixes, the consumed maker ids
are distinct, their number is the total number of consumed orders, and each
maker id identifies an order of a consumed prefix. -/
theorem walk_accounting (priceOf : Nat → Nat) (is : List Nat) (qty : Nat)
    (idx : OrderIndex) (levels : Nat → List Order) (fills : List Fill) (r : Nat)
    (lv : Nat → List Order) (ix : OrderIndex)
    (hnd : is.Nodup)
    (hw : walkLevels priceOf qty idx levels is = some (fills, r, lv, ix))
    (huniq1 : ∀ a j, j ∈ is → idCountLevel a (levels j) ≤ 1)
    (huniq2 : ∀ a j1 j2, j1 ∈ is → j2 ∈ is → j1 ≠ j2 →
      0 < idCountLevel a (levels j1) → 0 < idCountLevel a (levels j2) → False) :
    (∀ j, lv j = (levels j).drop ((levels j).length - (lv j).length)) ∧
    (fills.map (fun fl => fl.maker_order_id)).Nodup ∧
    (fills.map (fun fl => fl.maker_order_id)).length =
      (is.map (fun j => (levels j).length - (lv j).length)).sum ∧
    (∀ a, a ∈ fills.map (fun fl => fl.maker_order_id) →
      ∃ j ∈ is, ∃ o ∈ (levels j).take ((levels j).length - (lv j).length), o.id = a) := by
  have hcons := walkLevels_consumed priceOf is qty idx levels fills r lv ix hw
  have hdropEq : ∀ j, lv j = (levels j).drop ((levels j).length - (lv j).length) := by
    intro j
    obtain ⟨k, hk, -⟩ := hcons j
    rw [hk, List.length_drop]
    rcases le_or_lt k (levels j).length with hkk | hkk
    · have heq : (levels j).length - ((levels j).length - k) = k := by omega
      rw [heq]
    · rw [List.drop_eq_nil_of_le (le_of_lt hkk),
        List.drop_eq_nil_of_le (by omega)]
  have hmak := walkLevels_makers priceOf is qty idx levels fills r lv ix hnd hw
  refine ⟨hdropEq, ?_, ?_, ?_⟩
  · rw [hmak]
    refine List.nodup_flatMap.2 ⟨?_, ?_⟩
    · intro j hj
      refine List.Nodup.sublist ((List.take_sublist _ _).map _) ?_
      exact level_ids_nodup (levels j) (fun a => huniq1 a j hj)
    · refine List.Pairwise.imp_of_mem ?_ hnd
      intro j1 j2 hj1 hj2 hne a ha1 ha2
      obtain ⟨o1, ho1, hid1⟩ := List.mem_map.1 ha1
      obtain ⟨o2, ho2, hid2⟩ := List.mem_map.1 ha2
      have hm1 : o1 ∈ levels j1 := (List.take_sublist _ _).subset ho1
      have hm2 : o2 ∈ levels j2 := (List.take_sublist _ _).subset ho2
      exact huniq2 a j1 j2 hj1 hj2 hne
        (idCountLevel_pos_of_mem a _ o1 hm1 hid1)
        (idCountLevel_pos_of_mem a _ o2 hm2 hid2)
  · rw [hmak, List.length_flatMap]
    refine congrArg List.sum (List.map_congr_left ?_)
    intro j _
    show (((levels j).take ((levels j).length - (lv j).length)).map (fun o => o.id)).length
      = (levels j).length - (lv j).length
    rw [List.length_map, List.length_take]
    omega
  · intro a ha
    rw [hmak] at ha
    obtain ⟨j, hj, hmem⟩ := List.mem_flatMap.1 ha
    obtain ⟨o, ho, hid⟩ := List.mem_map.1 hmem
    exact ⟨j, hj, o, ho, hid⟩

theorem Mirror_exec (d : Orderbook) (side : Side) (q : Nat)
    (res : Except String (List Fill)) (d' : Orderbook)
    (hx : d.execute_market_order side q = some (res, d')) (h : Mirror d) :
    Mirror d' := by
  have hwf' := DWF_exec d side q res d' hx h.wf
  have hEM : ELEMENT_NUM = MAX_PRICE := by decide
  unfold Orderbook.execute_market_order at hx
  cases hc : d.execCore side q with
  | none => rw [hc] at hx; simp at hx
  | some r0 =>
      obtain ⟨fills, rem, b2⟩ := r0
      rw [hc] at hx
      simp only [Option.map_some', Option.some.injEq, Prod.mk.injEq] at hx
      obtain ⟨-, hb2⟩ := hx
      subst hb2
      cases side with
      | Bid =>
          unfold Orderbook.execCore at hc
          cases hw : walkLevels (fun i => i * TICK_SIZE) q d.order_index d.asks
              (List.range ELEMENT_NUM) with
          | none => rw [hw] at hc; simp at hc
          | some r1 =>
              obtain ⟨f0, r0, lv0, ix0⟩ := r1
              rw [hw] at hc
              simp only [Option.map_some', Option.some.injEq, Prod.mk.injEq] at hc
              obtain ⟨hf, -, hb⟩ := hc
              subst hf
              subst hb
              have huniq1 : ∀ a j, j ∈ List.range ELEMENT_NUM →
                  idCountLevel a (d.asks j) ≤ 1 := by
                intro a j hj
                have hle : idCountLevel a (d.asks j) ≤
                    ((List.range ELEMENT_NUM).map
                      (fun i => idCountLevel a (d.asks i))).sum :=
                  le_sum_of_mem _ (fun i => idCountLevel a (d.asks i)) j hj
                have huq := h.uniq a
                unfold idCountBook idCountSide at huq
                omega
              have huniq2 : ∀ a j1 j2, j1 ∈ List.range ELEMENT_NUM →
                  j2 ∈ List.range ELEMENT_NUM → j1 ≠ j2 →
                  0 < idCountLevel a (d.asks j1) → 0 < idCountLevel a (d.asks j2) →
                  False := by
                intro a j1 j2 h1 h2 hne hp1 hp2
                have hps : idCountLevel a (d.asks j1) + idCountLevel a (d.asks j2) ≤
                    ((List.range ELEMENT_NUM).map
                      (fun i => idCountLevel a (d.asks i))).sum :=
                  pair_le_sum _ (fun i => idCountLevel a (d.asks i)) j1 j2
                    (List.nodup_range _) h1 h2 hne
                have huq := h.uniq a
                unfold idCountBook idCountSide at huq
                omega
              obtain ⟨hdropEq, hnodupM, hlenM, hmemM⟩ :=
                walk_accounting _ _ q _ d.asks f0 r0 lv0 ix0 (List.nodup_range _) hw
                  huniq1 huniq2
              have hix := walkLevels_index _ _ q d.order_index d.asks f0 r0 lv0 ix0 hw
              have hsubK : ∀ a ∈ f0.map (fun fl => fl.maker_order_id),
                  a ∈ d.order_index.map Prod.fst := by
                intro a ha
                obtain ⟨j, hj, o, ho, hoid⟩ := hmemM a ha
                have homem : o ∈ d.asks j := (List.take_sublist _ _).subset ho
                refine (idxLookup_mem_keys a _).1 ⟨(Side.Ask, j), ?_⟩
                rw [← hoid]
                exact h.completeA j o homem
              have hnotmak : ∀ p x, x ∈ lv0 p →
                  x.id ∉ f0.map (fun fl => fl.maker_order_id) := by
                intro p x hx2 hmem
                obtain ⟨j, hj, o, ho, hoid⟩ := hmemM x.id hmem
                have homem : o ∈ d.asks j := (List.take_sublist _ _).subset ho
                have hxmem : x ∈ d.asks p := by
                  rw [hdropEq p] at hx2
                  exact (List.drop_sublist _ _).subset hx2
                have hplt : p < ELEMENT_NUM := by
                  by_contra hge
                  rw [h.wf.boundsA p (by omega)] at hxmem
                  simp at hxmem
                by_cases hjp : j = p
                · subst hjp
                  have hsplit : idCountLevel x.id (d.asks j) =
                      idCountLevel x.id
                        ((d.asks j).take ((d.asks j).length - (lv0 j).length)) +
                      idCountLevel x.id (lv0 j) := by
                    conv_lhs =>
                      rw [← List.take_append_drop ((d.asks j).length - (lv0 j).length)
                        (d.asks j)]
                    rw [idCountLevel_append, ← hdropEq j]
                  have hp1 := idCountLevel_pos_of_mem x.id _ o ho hoid
                  have hp2 := idCountLevel_pos_of_mem x.id _ x hx2 rfl
                  have hcnt := huniq1 x.id j (List.mem_range.2 hplt)
                  omega
                · exact huniq2 x.id j p hj (List.mem_range.2 hplt) hjp
                    (idCountLevel_pos_of_mem x.id _ o homem hoid)
                    (idCountLevel_pos_of_mem x.id _ x hxmem rfl)
              have hnotmakB : ∀ p x, x ∈ d.bids p →
                  x.id ∉ f0.map (fun fl => fl.maker_order_id) := by
                intro p x hx2 hmem
                obtain ⟨j, hj, o, ho, hoid⟩ := hmemM x.id hmem
                have homem : o ∈ d.asks j := (List.take_sublist _ _).subset ho
                have hplt : p < ELEMENT_NUM := by
                  by_contra hge
                  rw [h.wf.boundsB p (by omega)] at hx2
                  simp at hx2
                have hb1 : idCountLevel x.id (d.bids p) ≤
                    ((List.range ELEMENT_NUM).map
                      (fun i => idCountLevel x.id (d.bids i))).sum :=
                  le_sum_of_mem _ (fun i => idCountLevel x.id (d.bids i)) p
                    (List.mem_range.2 hplt)
                have ha1 : idCountLevel x.id (d.asks j) ≤
                    ((List.range ELEMENT_NUM).map
                      (fun i => idCountLevel x.id (d.asks i))).sum :=
                  le_sum_of_mem _ (fun i => idCountLevel x.id (d.asks i)) j hj
                have hpb := idCountLevel_pos_of_mem x.id _ x hx2 rfl
                have hpa := idCountLevel_pos_of_mem x.id _ o homem hoid
                have huq := h.uniq x.id
                unfold idCountBook idCountSide at huq
                omega
              refine ⟨hwf', ?_, ?_, ?_, ?_⟩
              · intro p x hx2
                dsimp only at hx2 ⊢
                rw [hix, idxLookup_removeIds_ne _ _ _ (hnotmakB p x hx2)]
                exact h.completeB p x hx2
              · intro p x hx2
                dsimp only at hx2 ⊢
                have hxask : x ∈ d.asks p := by
                  rw [hdropEq p] at hx2
                  exact (List.drop_sublist _ _).subset hx2
                rw [hix, idxLookup_removeIds_ne _ _ _ (hnotmak p x hx2)]
                exact h.completeA p x hxask
              · intro a
                unfold idCountBook idCountSide
                dsimp only
                have hpoint : ∀ j ∈ List.range ELEMENT_NUM,
                    idCountLevel a (lv0 j) ≤ idCountLevel a (d.asks j) := by
                  intro j _
                  conv_lhs => rw [hdropEq j]
                  exact idCountLevel_sublist a _ _ (List.drop_sublist _ _)
                have hle := sum_map_le (List.range ELEMENT_NUM)
                  (fun j => idCountLevel a (lv0 j))
                  (fun j => idCountLevel a (d.asks j)) hpoint
                have huq := h.uniq a
                unfold idCountBook idCountSide at huq
                omega
              · unfold restingCount
                dsimp only
                have hri := removeIds_length (f0.map (fun fl => fl.maker_order_id))
                  d.order_index h.wf.nodup hnodupM hsubK
                have hlenEq : ∀ j, (lv0 j).length =
                    (d.asks j).length - ((d.asks j).length - (lv0 j).length) := by
                  intro j
                  conv_lhs => rw [hdropEq j]
                  rw [List.length_drop]
                have hmapeq : (List.range ELEMENT_NUM).map (fun j => (lv0 j).length) =
                    (List.range ELEMENT_NUM).map
                      (fun j => (d.asks j).length -
                        ((d.asks j).length - (lv0 j).length)) :=
                  List.map_congr_left (fun j _ => hlenEq j)
                have hsums : ((List.range ELEMENT_NUM).map
                      (fun j => (d.asks j).length -
                        ((d.asks j).length - (lv0 j).length))).sum +
                    ((List.range ELEMENT_NUM).map
                      (fun j => (d.asks j).length - (lv0 j).length)).sum =
                    ((List.range ELEMENT_NUM).map (fun j => (d.asks j).length)).sum :=
                  sum_sub_pointwise (List.range ELEMENT_NUM)
                    (fun j => (d.asks j).length)
                    (fun j => (d.asks j).length - (lv0 j).length)
                    (fun j _ => Nat.sub_le _ _)
                have hcard := h.card
                unfold restingCount at hcard
                rw [hix, hmapeq]
                omega
      | Ask =>
          unfold Orderbook.execCore at hc
          cases hw : walkLevels (fun i => i * TICK_SIZE) q d.order_index d.bids
              (List.range ELEMENT_NUM).reverse with
          | none => rw [hw] at hc; simp at hc
          | some r1 =>
              obtain ⟨f0, r0, lv0, ix0⟩ := r1
              rw [hw] at hc
              simp only [Option.map_some', Option.some.injEq, Prod.mk.injEq] at hc
              obtain ⟨hf, -, hb⟩ := hc
              subst hf
              subst hb
              have huniq1 : ∀ a j, j ∈ (List.range ELEMENT_NUM).reverse →
                  idCountLevel a (d.bids j) ≤ 1 := by
                intro a j hj
                have hle : idCountLevel a (d.bids j) ≤
                    ((List.range ELEMENT_NUM).map
                      (fun i => idCountLevel a (d.bids i))).sum :=
                  le_sum_of_mem _ (fun i => idCountLevel a (d.bids i)) j
                    (List.mem_reverse.1 hj)
                have huq := h.uniq a
                unfold idCountBook idCountSide at huq
                omega
              have huniq2 : ∀ a j1 j2, j1 ∈ (List.range ELEMENT_NUM).reverse →
                  j2 ∈ (List.range ELEMENT_NUM).reverse → j1 ≠ j2 →
                  0 < idCountLevel a (d.bids j1) → 0 < idCountLevel a (d.bids j2) →
                  False := by
                intro a j1 j2 h1 h2 hne hp1 hp2
                have hps : idCountLevel a (d.bids j1) + idCountLevel a (d.bids j2) ≤
                    ((List.range ELEMENT_NUM).map
                      (fun i => idCountLevel a (d.bids i))).sum :=
                  pair_le_sum _ (fun i => idCountLevel a (d.bids i)) j1 j2
                    (List.nodup_range _)
                    (List.mem_reverse.1 h1) (List.mem_reverse.1 h2) hne
                have huq := h.uniq a
                unfold idCountBook idCountSide at huq
                omega
              obtain ⟨hdropEq, hnodupM, hlenM, hmemM⟩ :=
                walk_accounting _ _ q _ d.bids f0 r0 lv0 ix0
                  (List.nodup_reverse.2 (List.nodup_range _)) hw huniq1 huniq2
              have hix := walkLevels_index _ _ q d.order_index d.bids f0 r0 lv0 ix0 hw
              have hsubK : ∀ a ∈ f0.map (fun fl => fl.maker_order_id),
                  a ∈ d.order_index.map Prod.fst := by
                intro a ha
                obtain ⟨j, hj, o, ho, hoid⟩ := hmemM a ha
                have homem : o ∈ d.bids j := (List.take_sublist _ _).subset ho
                refine (idxLookup_mem_keys a _).1 ⟨(Side.Bid, j), ?_⟩
                rw [← hoid]
                exact h.completeB j o homem
              have hnotmak : ∀ p x, x ∈ lv0 p →
                  x.id ∉ f0.map (fun fl => fl.maker_order_id) := by
                intro p x hx2 hmem
                obtain ⟨j, hj, o, ho, hoid⟩ := hmemM x.id hmem
                have homem : o ∈ d.bids j := (List.take_sublist _ _).subset ho
                have hxmem : x ∈ d.bids p := by
                  rw [hdropEq p] at hx2
                  exact (List.drop_sublist _ _).subset hx2
                have hplt : p < ELEMENT_NUM := by
                  by_contra hge
                  rw [h.wf.boundsB p (by omega)] at hxmem
                  simp at hxmem
                by_cases hjp : j = p
                · subst hjp
                  have hsplit : idCountLevel x.id (d.bids j) =
                      idCountLevel x.id
                        ((d.bids j).take ((d.bids j).length - (lv0 j).length)) +
                      idCountLevel x.id (lv0 j) := by
                    conv_lhs =>
                      rw [← List.take_append_drop ((d.bids j).length - (lv0 j).length)
                        (d.bids j)]
                    rw [idCountLevel_append, ← hdropEq j]
                  have hp1 := idCountLevel_pos_of_mem x.id _ o ho hoid
                  have hp2 := idCountLevel_pos_of_mem x.id _ x hx2 rfl
                  have hcnt := huniq1 x.id j hj
                  omega
                · exact huniq2 x.id j p hj
                    (List.mem_reverse.2 (List.mem_range.2 hplt)) hjp
                    (idCountLevel_pos_of_mem x.id _ o homem hoid)
                    (idCountLevel_pos_of_mem x.id _ x hxmem rfl)
              have hnotmakA : ∀ p x, x ∈ d.asks p →
                  x.id ∉ f0.map (fun fl => fl.maker_order_id) := by
                intro p x hx2 hmem
                obtain ⟨j, hj, o, ho, hoid⟩ := hmemM x.id hmem
                have homem : o ∈ d.bids j := (List.take_sublist _ _).subset ho
                have hplt : p < ELEMENT_NUM := by
                  by_contra hge
                  rw [h.wf.boundsA p (by omega)] at hx2
                  simp at hx2
                have hb1 : idCountLevel x.id (d.asks p) ≤
                    ((List.range ELEMENT_NUM).map
                      (fun i => idCountLevel x.id (d.asks i))).sum :=
                  le_sum_of_mem _ (fun i => idCountLevel x.id (d.asks i)) p
                    (List.mem_range.2 hplt)
                have ha1 : idCountLevel x.id (d.bids j) ≤
                    ((List.range ELEMENT_NUM).map
                      (fun i => idCountLevel x.id (d.bids i))).sum :=
                  le_sum_of_mem _ (fun i => idCountLevel x.id (d.bids i)) j
                    (List.mem_reverse.1 hj)
                have hpb := idCountLevel_pos_of_mem x.id _ x hx2 rfl
                have hpa := idCountLevel_pos_of_mem x.id _ o homem hoid
                have huq := h.uniq x.id
                unfold idCountBook idCountSide at huq
                omega
              refine ⟨hwf', ?_, ?_, ?_, ?_⟩
              · intro p x hx2
                dsimp only at hx2 ⊢
                have hxbid : x ∈ d.bids p := by
                  rw [hdropEq p] at hx2
                  exact (List.drop_sublist _ _).subset hx2
                rw [hix, idxLookup_removeIds_ne _ _ _ (hnotmak p x hx2)]
                exact h.completeB p x hxbid
              · intro p x hx2
                dsimp only at hx2 ⊢
                rw [hix, idxLookup_removeIds_ne _ _ _ (hnotmakA p x hx2)]
                exact h.completeA p x hx2
              · intro a
                unfold idCountBook idCountSide
                dsimp only
                have hpoint : ∀ j ∈ List.range ELEMENT_NUM,
                    idCountLevel a (lv0 j) ≤ idCountLevel a (d.bids j) := by
                  intro j _
                  conv_lhs => rw [hdropEq j]
                  exact idCountLevel_sublist a _ _ (List.drop_sublist _ _)
                have hle := sum_map_le (List.range ELEMENT_NUM)
                  (fun j => idCountLevel a (lv0 j))
                  (fun j => idCountLevel a (d.bids j)) hpoint
                have huq := h.uniq a
                unfold idCountBook idCountSide at huq
                omega
              · unfold restingCount
                dsimp only
                have hri := removeIds_length (f0.map (fun fl => fl.maker_order_id))
                  d.order_index h.wf.nodup hnodupM hsubK
                have hlenEq : ∀ j, (lv0 j).length =
                    (d.bids j).length - ((d.bids j).length - (lv0 j).length) := by
                  intro j
                  conv_lhs => rw [hdropEq j]
                  rw [List.length_drop]
                have hmapeq : (List.range ELEMENT_NUM).map (fun j => (lv0 j).length) =
                    (List.range ELEMENT_NUM).map
                      (fun j => (d.bids j).length -
                        ((d.bids j).length - (lv0 j).length)) :=
                  List.map_congr_left (fun j _ => hlenEq j)
                have hsums : ((List.range ELEMENT_NUM).map
                      (fun j => (d.bids j).length -
                        ((d.bids j).length - (lv0 j).length))).sum +
                    ((List.range ELEMENT_NUM).map
                      (fun j => (d.bids j).length - (lv0 j).length)).sum =
                    ((List.range ELEMENT_NUM).map (fun j => (d.bids j).length)).sum :=
                  sum_sub_pointwise (List.range ELEMENT_NUM)
                    (fun j => (d.bids j).length)
                    (fun j => (d.bids j).length - (lv0 j).length)
                    (fun j _ => Nat.sub_le _ _)
                rw [List.map_reverse, List.sum_reverse] at hlenM
                have hcard := h.card
                unfold restingCount at hcard
                rw [hix, hmapeq]
                omega

/-- Ids admitted by an operation sequence (in order). -/
def addIds (ops : List Op) : List Nat :=
  ops.filterMap (fun op => match op with
    | .add o => some o.id
    | .cancel _ => none
    | .market _ _ => none)

/-- Every resting and every indexed id of the book is among `seen`. -/
def IdsFrom (d : Orderbook) (seen : List Nat) : Prop :=
  (∀ p, ∀ o ∈ d.bids p, o.id ∈ seen) ∧ (∀ p, ∀ o ∈ d.asks p, o.id ∈ seen) ∧
  (∀ k ∈ d.order_index.map Prod.fst, k ∈ seen)

theorem IdsFrom_mono (d : Orderbook) (seen seen' : List Nat)
    (hsub : ∀ a ∈ seen, a ∈ seen') (h : IdsFrom d seen) : IdsFrom d seen' :=
  ⟨fun p o ho => hsub _ (h.1 p o ho), fun p o ho => hsub _ (h.2.1 p o ho),
    fun k hk => hsub _ (h.2.2 k hk)⟩

theorem removeIds_keys_subset (ids : List Nat) : ∀ (m : OrderIndex),
    (removeIds ids m).map Prod.fst ⊆ m.map Prod.fst := by
  induction ids with
  | nil => intro m; simp [removeIds]
  | cons i rest ih =>
      intro m
      rw [removeIds_cons]
      exact fun k hk => idxRemove_keys_subset i m (ih (idxRemove i m) hk)

theorem IdsFrom_add (d : Orderbook) (o : Order) (seen : List Nat)
    (h : IdsFrom d seen) : IdsFrom ((d.add_order o).2) (o.id :: seen) := by
  have hmono : IdsFrom d (o.id :: seen) :=
    IdsFrom_mono d seen _ (fun a ha => List.mem_cons_of_mem _ ha) h
  rw [addD_characterization]
  by_cases hp : o.price = 0 ∨ MAX_PRICE ≤ o.price
  · simpa [hp] using hmono
  · by_cases hq : o.quantity = 0
    · simpa [hp, hq] using hmono
    · simp only [if_neg hp, if_neg hq]
      cases hs : o.side with
      | Bid =>
          refine ⟨?_, ?_, ?_⟩
          · intro p x hx
            dsimp only at hx
            by_cases hpe : p = o.price / TICK_SIZE
            · subst hpe
              simp only [updateFn, if_pos rfl] at hx
              rcases List.mem_append.1 hx with hmem | hmem
              · exact hmono.1 _ x hmem
              · simp only [List.mem_singleton] at hmem
                subst hmem
                exact List.mem_cons_self _ _
            · simp only [updateFn, if_neg hpe] at hx
              exact hmono.1 p x hx
          · intro p x hx
            dsimp only at hx
            exact hmono.2.1 p x hx
          · intro k hk
            dsimp only at hk
            rcases List.mem_cons.1
                (idxInsert_keys_subset o.id (Side.Bid, o.price) d.order_index hk)
              with rfl | hk'
            · exact List.mem_cons_self _ _
            · exact hmono.2.2 k hk'
      | Ask =>
          refine ⟨?_, ?_, ?_⟩
          · intro p x hx
            dsimp only at hx
            exact hmono.1 p x hx
          · intro p x hx
            dsimp only at hx
            by_cases hpe : p = o.price / TICK_SIZE
            · subst hpe
              simp only [updateFn, if_pos rfl] at hx
              rcases List.mem_append.1 hx with hmem | hmem
              · exact hmono.2.1 _ x hmem
              · simp only [List.mem_singleton] at hmem
                subst hmem
                exact List.mem_cons_self _ _
            · simp only [updateFn, if_neg hpe] at hx
              exact hmono.2.1 p x hx
          · intro k hk
            dsimp only at hk
            rcases List.mem_cons.1
                (idxInsert_keys_subset o.id (Side.Ask, o.price) d.order_index hk)
              with rfl | hk'
            · exact List.mem_cons_self _ _
            · exact hmono.2.2 k hk'

theorem IdsFrom_cancel (d : Orderbook) (cid : Nat) (seen : List Nat)
    (h : IdsFrom d seen) : IdsFrom ((d.cancel_order cid).2) seen := by
  unfold Orderbook.cancel_order
  cases hl : idxLookup cid d.order_index with
  | none => exact h
  | some v =>
      obtain ⟨side, price⟩ := v
      cases side with
      | Bid =>
          refine ⟨?_, ?_, ?_⟩
          · intro p x hx
            dsimp only at hx
            by_cases hpe : p = price / TICK_SIZE
            · subst hpe
              simp only [updateFn, if_pos rfl] at hx
              exact h.1 _ x (mem_of_mem_levelCancel cid _ x hx)
            · simp only [updateFn, if_neg hpe] at hx
              exact h.1 p x hx
          · intro p x hx
            dsimp only at hx
            exact h.2.1 p x hx
          · intro k hk
            dsimp only at hk
            exact h.2.2 k (idxRemove_keys_subset cid d.order_index hk)
      | Ask =>
          refine ⟨?_, ?_, ?_⟩
          · intro p x hx
            dsimp only at hx
            exact h.1 p x hx
          · intro p x hx
            dsimp only at hx
            by_cases hpe : p = price / TICK_SIZE
            · subst hpe
              simp only [updateFn, if_pos rfl] at hx
              exact h.2.1 _ x (mem_of_mem_levelCancel cid _ x hx)
            · simp only [updateFn, if_neg hpe] at hx
              exact h.2.1 p x hx
          · intro k hk
            dsimp only at hk
            exact h.2.2 k (idxRemove_keys_subset cid d.order_index hk)

theorem IdsFrom_market (d : Orderbook) (side : Side) (q : Nat)
    (res : Except String (List Fill)) (d' : Orderbook)
    (hx : d.execute_market_order side q = some (res, d')) (seen : List Nat)
    (h : IdsFrom d seen) : IdsFrom d' seen := by
  unfold Orderbook.execute_market_order at hx
  cases hc : d.execCore side q with
  | none => rw [hc] at hx; simp at hx
  | some r0 =>
      obtain ⟨fills, rem, b2⟩ := r0
      rw [hc] at hx
      simp only [Option.map_some', Option.some.injEq, Prod.mk.injEq] at hx
      obtain ⟨-, hb2⟩ := hx
      subst hb2
      cases side with
      | Bid =>
          unfold Orderbook.execCore at hc
          cases hw : walkLevels (fun i => i * TICK_SIZE) q d.order_index d.asks
              (List.range ELEMENT_NUM) with
          | none => rw [hw] at hc; simp at hc
          | some r1 =>
              obtain ⟨f0, r0, lv0, ix0⟩ := r1
              rw [hw] at hc
              simp only [Option.map_some', Option.some.injEq, Prod.mk.injEq] at hc
              obtain ⟨-, -, hb⟩ := hc
              subst hb
              have hdrop := walkLevels_levels_drop _ _ q d.order_index d.asks
                f0 r0 lv0 ix0 hw
              have hix := walkLevels_index _ _ q d.order_index d.asks f0 r0 lv0 ix0 hw
              refine ⟨?_, ?_, ?_⟩
              · intro p x hmem
                dsimp only at hmem
                exact h.1 p x hmem
              · intro p x hmem
                dsimp only at hmem
                obtain ⟨k, hk⟩ := hdrop p
                rw [hk] at hmem
                exact h.2.1 p x (List.mem_of_mem_drop hmem)
              · intro k hk
                dsimp only at hk
                rw [hix] at hk
                exact h.2.2 k (removeIds_keys_subset _ _ hk)
      | Ask =>
          unfold Orderbook.execCore at hc
          cases hw : walkLevels (fun i => i * TICK_SIZE) q d.order_index d.bids
              (List.range ELEMENT_NUM).reverse with
          | none => rw [hw] at hc; simp at hc
          | some r1 =>
              obtain ⟨f0, r0, lv0, ix0⟩ := r1
              rw [hw] at hc
              simp only [Option.map_some', Option.some.injEq, Prod.mk.injEq] at hc
              obtain ⟨-, -, hb⟩ := hc
              subst hb
              have hdrop := walkLevels_levels_drop _ _ q d.order_index d.bids
                f0 r0 lv0 ix0 hw
              have hix := walkLevels_index _ _ q d.order_index d.bids f0 r0 lv0 ix0 hw
              refine ⟨?_, ?_, ?_⟩
              · intro p x hmem
                dsimp only at hmem
                obtain ⟨k, hk⟩ := hdrop p
                rw [hk] at hmem
                exact h.1 p x (List.mem_of_mem_drop hmem)
              · intro p x hmem
                dsimp only at hmem
                exact h.2.1 p x hmem
              · intro k hk
                dsimp only at hk
                rw [hix] at hk
                exact h.2.2 k (removeIds_keys_subset _ _ hk)

/-- The mirror invariant holds in every state reached by operations whose
admitted ids avoid `seen` and are mutually distinct. -/
theorem mirror_run (ops : List Op) : ∀ (d : Orderbook) (seen : List Nat),
    Mirror d → IdsFrom d seen →
    (∀ i ∈ addIds ops, i ∉ seen) → (addIds ops).Nodup →
    ∀ d', execOpsD d ops = some d' → Mirror d' := by
  induction ops with
  | nil =>
      intro d seen hm _ _ _ d' hr
      simp only [execOpsD, Option.some.injEq] at hr
      rwa [← hr]
  | cons op rest ih =>
      intro d seen hm hids hfresh hnd d' hr
      simp only [execOpsD] at hr
      cases hs : stepD d op with
      | none => rw [hs] at hr; simp at hr
      | some pr =>
          obtain ⟨fo, d1⟩ := pr
          rw [hs] at hr
          cases op with
          | add o =>
              simp only [stepD, Option.some.injEq, Prod.mk.injEq] at hs
              have haddids : addIds (Op.add o :: rest) = o.id :: addIds rest := rfl
              rw [haddids] at hfresh hnd
              obtain ⟨hnid, hndr⟩ := List.nodup_cons.1 hnd
              have hofresh : o.id ∉ seen := hfresh o.id (List.mem_cons_self _ _)
              have hfB : ∀ p, ∀ x ∈ d.bids p, x.id ≠ o.id := by
                intro p x hxm he
                exact hofresh (he ▸ hids.1 p x hxm)
              have hfA : ∀ p, ∀ x ∈ d.asks p, x.id ≠ o.id := by
                intro p x hxm he
                exact hofresh (he ▸ hids.2.1 p x hxm)
              have hfI : idxLookup o.id d.order_index = none := by
                cases hlk : idxLookup o.id d.order_index with
                | none => rfl
                | some v =>
                    exact absurd
                      (hids.2.2 o.id ((idxLookup_mem_keys _ _).1 ⟨v, hlk⟩)) hofresh
              obtain ⟨-, hd1⟩ := hs
              subst hd1
              refine ih (d.add_order o).2 (o.id :: seen)
                (Mirror_add d o hm hfB hfA hfI) (IdsFrom_add d o seen hids) ?_ hndr d' hr
              intro i hi hmem
              rcases List.mem_cons.1 hmem with he | hmem'
              · exact hnid (he ▸ hi)
              · exact hfresh i (List.mem_cons_of_mem _ hi) hmem'
          | cancel cid =>
              simp only [stepD, Option.some.injEq, Prod.mk.injEq] at hs
              obtain ⟨-, hd1⟩ := hs
              subst hd1
              exact ih (d.cancel_order cid).2 seen (Mirror_cancel d cid hm)
                (IdsFrom_cancel d cid seen hids) hfresh hnd d' hr
          | market mside mq =>
              simp only [stepD] at hs
              cases hxx : d.execute_market_order mside mq with
              | none => rw [hxx] at hs; simp at hs
              | some rr =>
                  obtain ⟨mres, d2⟩ := rr
                  rw [hxx] at hs
                  simp only [Option.map_some', Option.some.injEq, Prod.mk.injEq] at hs
                  obtain ⟨-, hd1⟩ := hs
                  subst hd1
                  exact ih d2 seen (Mirror_exec d mside mq mres d2 hxx hm)
                    (IdsFrom_market d mside mq mres d2 hxx seen hids) hfresh hnd d' hr

/-- C5.  In every dense book reached from the empty book by operations whose
admitted order ids are pairwise distinct, the order index is an exact mirror
of the resting orders: every entry points at a resting order with that id,
side and price (no stale entries); every resting order is indexed under its
id at its (side, price) (no missing entries); no id rests twice; and the
index cardinality equals the number of resting orders. -/
theorem C5_index_mirror (ops : List Op) (d : Orderbook)
    (hnd : (addIds ops).Nodup)
    (hd : execOpsD Orderbook.new ops = some d) :
    (∀ id p, idxLookup id d.order_index = some (Side.Bid, p) →
      ∃ o ∈ d.bids p, o.id = id ∧ o.side = Side.Bid ∧ o.price = p) ∧
    (∀ id p, idxLookup id d.order_index = some (Side.Ask, p) →
      ∃ o ∈ d.asks p, o.id = id ∧ o.side = Side.Ask ∧ o.price = p) ∧
    (∀ p, ∀ o ∈ d.bids p, idxLookup o.id d.order_index = some (Side.Bid, o.price)) ∧
    (∀ p, ∀ o ∈ d.asks p, idxLookup o.id d.order_index = some (Side.Ask, o.price)) ∧
    (∀ id, idCountBook d id ≤ 1) ∧
    d.order_index.length = restingCount d := by
  have hmirror : Mirror d := mirror_run ops Orderbook.new [] Mirror_new
    ⟨fun p o ho => absurd ho (List.not_mem_nil o),
     fun p o ho => absurd ho (List.not_mem_nil o),
     fun k hk => absurd hk (by simp [Orderbook.new])⟩
    (fun i _ hmem => absurd hmem (List.not_mem_nil i)) hnd d hd
  refine ⟨?_, ?_, ?_, ?_, hmirror.uniq, hmirror.card⟩
  · intro id p hl
    obtain ⟨-, -, o, hmem, hid⟩ := hmirror.wf.soundB id p hl
    obtain ⟨hside, hprice⟩ := hmirror.wf.sideB p o hmem
    exact ⟨o, hmem, hid, hside, hprice⟩
  · intro id p hl
    obtain ⟨-, -, o, hmem, hid⟩ := hmirror.wf.soundA id p hl
    obtain ⟨hside, hprice⟩ := hmirror.wf.sideA p o hmem
    exact ⟨o, hmem, hid, hside, hprice⟩
  · intro p o hmem
    have hc := hmirror.completeB p o hmem
    rw [(hmirror.wf.sideB p o hmem).2]
    exact hc
  · intro p o hmem
    have hc := hmirror.completeA p o hmem
    rw [(hmirror.wf.sideA p o hmem).2]
    exact hc

def c5Ops : List Op :=
  [.add ⟨0, .Bid, 100, 5⟩, .add ⟨1, .Ask, 200, 7⟩, .cancel 0]

def c5D : Orderbook :=
  ((((Orderbook.new.add_order ⟨0, .Bid, 100, 5⟩).2).add_order
    ⟨1, .Ask, 200, 7⟩).2.cancel_order 0).2

theorem C5_index_mirror_witness :
    (addIds c5Ops).Nodup ∧
    execOpsD Orderbook.new c5Ops = some c5D ∧
    ((∀ id p, idxLookup id c5D.order_index = some (Side.Bid, p) →
      ∃ o ∈ c5D.bids p, o.id = id ∧ o.side = Side.Bid ∧ o.price = p) ∧
    (∀ id p, idxLookup id c5D.order_index = some (Side.Ask, p) →
      ∃ o ∈ c5D.asks p, o.id = id ∧ o.side = Side.Ask ∧ o.price = p) ∧
    (∀ p, ∀ o ∈ c5D.bids p, idxLookup o.id c5D.order_index = some (Side.Bid, o.price)) ∧
    (∀ p, ∀ o ∈ c5D.asks p, idxLookup o.id c5D.order_index = some (Side.Ask, o.price)) ∧
    (∀ id, idCountBook c5D id ≤ 1) ∧
    c5D.order_index.length = restingCount c5D) :=
  ⟨by decide, rfl, C5_index_mirror c5Ops c5D (by decide) rfl⟩

end OBook
